import Mathlib

/-!
# TPC-C workload generator (`tpcc/worker.go`)

A shallow embedding of the worker of the benchmark driver: the scale-parameter
model `NewScaleParameters`, the transaction-mix switch and the loop of
`Worker.Execute`, and the five input generators `DoStockLevelTrx`, `DoDelivery`,
`DoOrderStatus`, `DoPayment` and `DoNewOrder`.

Conventions of the embedding.

* Go `int` is `Int`; the addition `w.sc.Items + 1` of the source is wrapped to
  64 bits (`goAdd`), `/` and `%` are the truncating `Int.tdiv` and `Int.tmod`,
  `|` is `Int.lor`.
* Go `float64` is `F64`: a sign, a natural mantissa and a binary exponent, or an
  infinity, or NaN.  Division and the conversion from `int` round to nearest,
  ties to even, at 53 bits of precision; the conversion to `int` truncates, and
  outside the range of `int` its result is the parameter `oor`, as the language
  leaves it to the implementation.
* The packages `helpers` and `executor` and the constants of package `tpcc` are
  not in `worker.go`: they are parameters (`Helpers` with the contract
  `Helpers.Sound`, `Executor`, `Constants` with `Constants.WellFormed`).
* Every external input (the entropy behind a random draw, the clock, the answer
  of the data store, the state of the context) is read from one oracle stream
  `Nat → Nat`, in program order.  A ghost trace records every call together
  with the place of the source that made it.
* A Go panic is `none`.  A send on the channel is recorded in the trace; that it
  may block is not modelled.
* The orchestrator of the pool and its wait group are not in `worker.go` either:
  the barrier and `join` follow the specification (`barrier`, `joinReturns`),
  and each worker of a pool runs in a world of its own, which holds what that
  worker observes.
-/

namespace Tpcc

/-! ## Machine integers -/

/-- Two's-complement wrap of an integer into the range of Go's 64-bit `int`. -/
def wrapInt64 (x : Int) : Int := (x + 2 ^ 63) % 2 ^ 64 - 2 ^ 63

/-- Go's `a + b` on `int`. -/
def goAdd (a b : Int) : Int := wrapInt64 (a + b)

/-! ## Binary64 floating point -/

/-- A value of Go's `float64`: `fin neg m e` is `(-1)^neg * m * 2^e`. -/
inductive F64 where
  | fin (neg : Bool) (m : Nat) (e : Int)
  | inf (neg : Bool)
  | nan
deriving DecidableEq, Repr

namespace F64

/-- Whether `den * 2^d ≤ num`, for an integer exponent `d`. -/
def geScaled (num den : Nat) (d : Int) : Bool :=
  if 0 ≤ d then decide (den * 2 ^ d.toNat ≤ num) else decide (den ≤ num * 2 ^ (-d).toNat)

/-- Halve `n` until it is below two, counting the steps; `fuel` bounds the count. -/
def log2Fuel : Nat → Nat → Nat
  | 0, _ => 0
  | fuel + 1, n => if n < 2 then 0 else log2Fuel fuel (n / 2) + 1

/-- The position of the leading bit of `n`: `2^(log2 n) ≤ n < 2^(log2 n + 1)` for
positive `n`. -/
def log2 (n : Nat) : Nat := log2Fuel n n

/-- The binary exponent of `num / den`: the `E` with `2^E ≤ num / den < 2^(E+1)`
(for `num` and `den` positive). -/
def ilog2Ratio (num den : Nat) : Int :=
  let d : Int := (log2 num : Int) - (log2 den : Int)
  if geScaled num den d then d else d - 1

/-- The integer nearest to `N / D`, the even one of the two on a tie. -/
def roundQuot (N D : Nat) : Nat :=
  let q := N / D
  let r := N % D
  if 2 * r < D then q else if 2 * r = D then (if q % 2 = 0 then q else q + 1) else q + 1

/-- Round the positive rational `num / den` to the nearest binary64 value, ties to
even: 53 significant bits at the binary exponent `E` of the value, so the result
is a multiple `n * 2^p` of `2^p` with `p = E - 52`; gradual underflow (`p` is at
least `-1074`); overflow to an infinity from `2^1024`.  The rounded mantissa `n`
is at most `2^53`, so the result reaches `2^1024` exactly when `971 < p`, or
`p = 971` and `n = 2^53`. -/
def round (neg : Bool) (num den : Nat) : F64 :=
  let E := ilog2Ratio num den
  let p := max (E - 52) (-1074)
  let n := if 0 ≤ p then roundQuot num (den * 2 ^ p.toNat)
    else roundQuot (num * 2 ^ (-p).toNat) den
  if 971 < p ∨ (p = 971 ∧ 2 ^ 53 ≤ n) then inf neg else fin neg n p

/-- Go's conversion `float64(i)` of an `int`. -/
def ofInt (i : Int) : F64 :=
  if i = 0 then fin false 0 0 else round (decide (i < 0)) i.natAbs 1

/-- Go's `x / y` on `float64` (IEEE 754 division; no panic on a zero divisor). -/
def div : F64 → F64 → F64
  | nan, _ => nan
  | _, nan => nan
  | inf _, inf _ => nan
  | inf s, fin t _ _ => inf (xor s t)
  | fin s _ _, inf t => fin (xor s t) 0 0
  | fin s m e, fin t n k =>
    if n = 0 then (if m = 0 then nan else inf (xor s t))
    else if m = 0 then fin (xor s t) 0 0
    else if 0 ≤ e - k then round (xor s t) (m * 2 ^ (e - k).toNat) n
    else round (xor s t) m (n * 2 ^ (k - e).toNat)

/-- The integer part of a finite value, truncated toward zero. -/
def trunc : F64 → Option Int
  | fin s m e =>
    let a : Nat := if 0 ≤ e then m * 2 ^ e.toNat else m / 2 ^ (-e).toNat
    some (if s then -(a : Int) else (a : Int))
  | _ => none

/-- Go's conversion `int(x)` of a `float64`.  A value whose integer part fits in
64 bits converts to it; for any other value the language leaves the result to
the implementation, here the parameter `oor`. -/
def toInt (oor : F64 → Int) (x : F64) : Int :=
  match x.trunc with
  | some t => if -(2 : Int) ^ 63 ≤ t ∧ t < 2 ^ 63 then t else wrapInt64 (oor x)
  | none => wrapInt64 (oor x)

/-- The finite value `(-1)^neg * m * 2^e` scaled by `2^(-c)`, as an integer,
for a common exponent `c ≤ e`. -/
def scaledAt (c : Int) (neg : Bool) (m : Nat) (e : Int) : Int :=
  let a : Int := (m * 2 ^ (e - c).toNat : Nat)
  if neg then -a else a

/-- Go's `x <= y` on `float64`. -/
def le : F64 → F64 → Bool
  | nan, _ => false
  | _, nan => false
  | inf true, _ => true
  | _, inf false => true
  | inf false, _ => false
  | _, inf true => false
  | fin s m e, fin t n k => decide (scaledAt (min e k) s m e ≤ scaledAt (min e k) t n k)

/-- Go's `0 < x` on `float64`. -/
def isPos : F64 → Bool
  | fin false m _ => decide (0 < m)
  | inf false => true
  | _ => false

/-- The rational value of a finite `float64` (and zero for the other ones). -/
def toRat : F64 → ℚ
  | fin neg m e => (if neg then -1 else 1) * (m : ℚ) * (2 : ℚ) ^ e
  | _ => 0

/-- A value that binary64 can hold: at most 53 bits of mantissa, exponent from
`-1074`, magnitude below `2^1024`. -/
def Representable : F64 → Prop
  | fin _ m e => m < 2 ^ 53 ∧ -1074 ≤ e ∧ e ≤ 971
  | _ => True

end F64

/-- The result of an out-of-range `int(x)` on amd64: the "integer indefinite"
value `-2^63`. -/
def amd64 : F64 → Int := fun _ => -(2 : Int) ^ 63

/-- The result of an out-of-range `int(x)` on arm64: saturation. -/
def arm64 : F64 → Int
  | F64.fin true _ _ => -(2 : Int) ^ 63
  | F64.inf true => -(2 : Int) ^ 63
  | F64.nan => 0
  | _ => 2 ^ 63 - 1

/-! ## Scale parameters -/

/-- The struct `ScaleParameters`. -/
structure ScaleParameters where
  Items : Int
  Warehouses : Int
  DistrictsPerWarehouse : Int
  CustomersPerDistrict : Int
  NewOrdersPerDistrict : Int
deriving DecidableEq, Repr

/-- `NewScaleParameters` (worker.go:73-90).  The second component is the returned
`error`, `none` for `nil`. -/
def NewScaleParameters (oor : F64 → Int) (scaleFactor : F64) (items warehouses
    districtsPerWarehouse customersPerDistrict newOrdersPerDistrict : Int) :
    ScaleParameters × Option String :=
  ({ Items := F64.toInt oor (F64.div (F64.ofInt items) scaleFactor)
     DistrictsPerWarehouse := districtsPerWarehouse
     CustomersPerDistrict := F64.toInt oor (F64.div (F64.ofInt customersPerDistrict) scaleFactor)
     NewOrdersPerDistrict := F64.toInt oor (F64.div (F64.ofInt newOrdersPerDistrict) scaleFactor)
     Warehouses := warehouses }, none)

/-! ## Parameters of the embedding -/

/-- The constants of package `tpcc` that `worker.go` uses; their declarations are
in another file of the package. -/
structure Constants where
  NUM_ITEMS : Int
  DISTRICTS_PER_WAREHOUSE : Int
  CUSTOMERS_PER_DISTRICT : Int
  INITIAL_NEW_ORDERS_PER_DISTRICT : Int
  MIN_STOCK_LEVEL_THRESHOLD : Int
  MAX_STOCK_LEVEL_THRESHOLD : Int
  MIN_CARRIER_ID : Int
  MAX_CARRIER_ID : Int
  MIN_PAYMENT : F64
  MAX_PAYMENT : F64
  MONEY_DECIMALS : Int
  BAD_CREDIT : String
  MAX_C_DATA : Int
  MIN_OL_CNT : Int
  MAX_OL_CNT : Int
  MAX_OL_QUANTITY : Int
  SYLLABES : List String

/-- The fixed ranges are non-empty and the syllable table has its ten entries. -/
structure Constants.WellFormed (k : Constants) : Prop where
  threshold : k.MIN_STOCK_LEVEL_THRESHOLD ≤ k.MAX_STOCK_LEVEL_THRESHOLD
  carrier : k.MIN_CARRIER_ID ≤ k.MAX_CARRIER_ID
  payment : F64.le k.MIN_PAYMENT k.MAX_PAYMENT = true
  olCnt : k.MIN_OL_CNT ≤ k.MAX_OL_CNT
  quantity : 1 ≤ k.MAX_OL_QUANTITY
  syllables : k.SYLLABES.length = 10

/-- Modelled from the spec: the constants of package `tpcc`, whose declarations are
not in `worker.go`, with the values the specification gives (base counts 100000,
10, 3000 and 900; threshold range [10,20]; carrier range [1,10]; payment range
[1.00, 5000.00] with 2 decimals; order-line count [5,15]; largest quantity 10)
and the ten syllables of the benchmark standard. -/
def specConstants : Constants where
  NUM_ITEMS := 100000
  DISTRICTS_PER_WAREHOUSE := 10
  CUSTOMERS_PER_DISTRICT := 3000
  INITIAL_NEW_ORDERS_PER_DISTRICT := 900
  MIN_STOCK_LEVEL_THRESHOLD := 10
  MAX_STOCK_LEVEL_THRESHOLD := 20
  MIN_CARRIER_ID := 1
  MAX_CARRIER_ID := 10
  MIN_PAYMENT := F64.fin false 1 0
  MAX_PAYMENT := F64.fin false 5000 0
  MONEY_DECIMALS := 2
  BAD_CREDIT := "BC"
  MAX_C_DATA := 500
  MIN_OL_CNT := 5
  MAX_OL_CNT := 15
  MAX_OL_QUANTITY := 10
  SYLLABES := ["BAR", "OUGHT", "ABLE", "PRI", "PRES", "ESE", "ANTI", "CALLY", "ATION", "EING"]

/-- The random primitives of package `helpers`.  Each takes the arguments of its
Go call and the entropy it consumes, and returns its result, or `none` when it
panics. -/
structure Helpers where
  RandInt : Int → Int → Nat → Option Int
  RandIntExcluding : Int → Int → Int → Nat → Option Int
  RandFloat : F64 → F64 → Int → Nat → Option F64

/-- The contract the specification assumes of the random primitives: on a
non-empty range `RandInt` returns a value of the range; `RandIntExcluding`
returns a value of the range other than the excluded one, when the excluded one
is in the range and not alone in it; `RandFloat` returns on a non-empty range. -/
structure Helpers.Sound (h : Helpers) : Prop where
  randInt : ∀ lo hi raw, lo ≤ hi → ∃ v, h.RandInt lo hi raw = some v ∧ lo ≤ v ∧ v ≤ hi
  randIntExcluding : ∀ lo hi excl raw, lo < hi → lo ≤ excl → excl ≤ hi →
    ∃ v, h.RandIntExcluding lo hi excl raw = some v ∧ lo ≤ v ∧ v ≤ hi ∧ v ≠ excl
  randFloat : ∀ lo hi d raw, F64.le lo hi = true → ∃ v, h.RandFloat lo hi d raw = some v

/-- Modelled from the spec: the primitives of package `helpers`, which is not among
the sources.  `RandInt(lo, hi)` is uniform on `[lo, hi]`; `RandIntExcluding(lo,
hi, excl)` is uniform on the values of `[lo, hi]` other than `excl` (a draw from
`[lo, hi - 1]`, moved up by one from `excl` on); `RandFloat(lo, hi, d)` is a
value of `[lo, hi]`, here its lower end.  All panic on an empty range. -/
def specHelpers : Helpers where
  RandInt := fun lo hi raw =>
    if lo ≤ hi then some (lo + (raw : Int) % (hi - lo + 1)) else none
  RandIntExcluding := fun lo hi excl raw =>
    if lo < hi then
      let v := lo + (raw : Int) % (hi - lo)
      some (if excl ≤ v then v + 1 else v)
    else none
  RandFloat := fun lo hi _ _ => if F64.le lo hi then some lo else none

/-- The value of Go's `error`: `none` is `nil`. -/
abbrev Status := Option String

/-- A call of a method of `executor.Executor`, with its arguments in the order of
the Go call.  A time is the reading of the clock. -/
inductive ExecCall where
  | DoStockLevelTrx (warehouseId districtId threshold : Int)
  | DoDelivery (warehouseId OCarrierId : Int) (OlDeliveryD : Nat) (districtsPerWarehouse : Int)
  | DoOrderStatus (wId dId cId : Int) (cLast : String)
  | DoPayment (wId dId : Int) (hAmount : F64) (cWId cDId cId : Int) (cLast : String)
      (hDate : Nat) (badCredit : String) (maxCData : Int)
  | DoNewOrder (wId dId cId : Int) (oEntryD : Nat) (iIds iWIds iQtys : List Int)
deriving DecidableEq, Repr

/-- The executor: the `error` a call returns, as a function of the call and of the
answer of the data store. -/
abbrev Executor := ExecCall → Nat → Status

/-- Everything `worker.go` takes from outside the file. -/
structure Env where
  h : Helpers
  k : Constants
  ex : Executor

/-! ## Transactions -/

/-- The constants `StockLevelTrx` ... `NewOrderTrx` of type `TransactionType`
(worker.go:91-99). -/
inductive TransactionType where
  | StockLevelTrx
  | DeliveryTrx
  | OrderStatusTrx
  | PaymentTrx
  | NewOrderTrx
deriving DecidableEq, Repr

/-- The value `iota` gives each constant. -/
def TransactionType.toInt : TransactionType → Int
  | StockLevelTrx => 0
  | DeliveryTrx => 1
  | OrderStatusTrx => 2
  | PaymentTrx => 3
  | NewOrderTrx => 4

/-- The struct `Transaction` (worker.go:101-105); its field `Type` is `Type_`
here, `Type` being reserved. -/
structure Transaction where
  ThreadId : Int
  Type_ : TransactionType
  Failed : Bool
deriving DecidableEq, Repr

/-! ## The world: oracle and ghost trace -/

/-- A place of `worker.go` that reads an external input.  The places inside the
loop of `DoNewOrder` carry the index `i` of the order line. -/
inductive Site where
  | mix
  | wId
  | dId
  | threshold
  | carrier
  | deliveryD
  | byName
  | sylA
  | sylB
  | sylC
  | cId
  | hAmount
  | hDate
  | remote
  | cWId
  | cDId
  | oEntryD
  | olCnt
  | rollback
  | iId (i : Int)
  | iWRemote (i : Int)
  | iWId (i : Int)
  | iQty (i : Int)
deriving DecidableEq, Repr

/-- One entry of the ghost trace. -/
inductive Event where
  | randInt (site : Site) (lo hi val : Int)
  | randIntExcluding (site : Site) (lo hi excl val : Int)
  | randFloat (site : Site) (lo hi : F64) (decimals : Int) (val : F64)
  | timeNow (site : Site) (val : Nat)
  | index (i : Int)
  | exec (call : ExecCall) (status : Status)
  | ctxDone (observed : Bool)
  | publish (trx : Transaction)
  | wgDone
deriving DecidableEq, Repr

/-- The state of the outside: the oracle, how much of it has been read, and the
trace of what the worker did so far. -/
structure World where
  oracle : Nat → Nat
  pos : Nat
  trace : List Event

/-- A computation of the worker: from a world to a result and the next world, or
`none` on a panic. -/
def Gen (α : Type) : Type := World → Option (α × World)

instance : Monad Gen where
  pure a := fun w => some (a, w)
  bind g f := fun w =>
    match g w with
    | none => none
    | some (a, w1) => f a w1

/-- Read the next value of the oracle, and record what `ev` makes of the answer;
a primitive that panics records nothing. -/
def Gen.ask {α : Type} (answer : Nat → Option α) (ev : α → Event) : Gen α := fun w =>
  match answer (w.oracle w.pos) with
  | none => none
  | some a => some (a, { w with pos := w.pos + 1, trace := w.trace ++ [ev a] })

/-- Record an event that reads nothing. -/
def Gen.emit (ev : Event) : Gen Unit := fun w =>
  some ((), { w with trace := w.trace ++ [ev] })

/-- `helpers.RandInt(lo, hi)` called at `site`. -/
def Env.randInt (env : Env) (site : Site) (lo hi : Int) : Gen Int :=
  Gen.ask (env.h.RandInt lo hi) (Event.randInt site lo hi)

/-- `helpers.RandIntExcluding(lo, hi, excl)` called at `site`. -/
def Env.randIntExcluding (env : Env) (site : Site) (lo hi excl : Int) : Gen Int :=
  Gen.ask (env.h.RandIntExcluding lo hi excl) (Event.randIntExcluding site lo hi excl)

/-- `helpers.RandFloat(lo, hi, decimals)` called at `site`. -/
def Env.randFloat (env : Env) (site : Site) (lo hi : F64) (decimals : Int) : Gen F64 :=
  Gen.ask (env.h.RandFloat lo hi decimals) (Event.randFloat site lo hi decimals)

/-- `time.Now()` called at `site`. -/
def timeNow (site : Site) : Gen Nat :=
  Gen.ask (fun t => some t) (Event.timeNow site)

/-- The index expression `SYLLABES[i]`; it panics outside the table. -/
def Env.syllable (env : Env) (i : Int) : Gen String := fun w =>
  if 0 ≤ i then
    match env.k.SYLLABES.get? i.toNat with
    | some s => some (s, { w with trace := w.trace ++ [Event.index i] })
    | none => none
  else none

/-- A call `w.ex.Method(args)`: the executor answers with an `error`. -/
def Env.exec (env : Env) (call : ExecCall) : Gen Status :=
  Gen.ask (fun raw => some (env.ex call raw)) (Event.exec call)

/-! ## The worker and its generators -/

/-- The fields of the struct `Worker` that the generators read.  The executor is in
`Env`; the context, the wait group and the channel are in the world. -/
structure Worker where
  threadId : Int
  sc : ScaleParameters

/-- The number `sylN` of worker.go:172 and 204 from the values `a`, `b`, `c` of its
three draws: the Go expression `(a|b+c)%1000`, in which `|` and `+` have the
same precedence and associate to the left. -/
def sylN (a b c : Int) : Int := Int.tmod (goAdd (Int.lor a b) c) 1000

/-- The surname of `DoOrderStatus` and `DoPayment` (worker.go:172-176 and 204-208,
the same text in both): three draws, read left to right, the number `sylN`, and
the syllables of its three digits. -/
def surname (env : Env) : Gen String := do
  let a ← env.randInt Site.sylA 0 256
  let b ← env.randInt Site.sylB 0 1000
  let c ← env.randInt Site.sylC 0 256
  let n := sylN a b c
  let s1 ← env.syllable (Int.tdiv n 100)
  let s2 ← env.syllable (Int.tmod (Int.tdiv n 10) 10)
  let s3 ← env.syllable (Int.tmod n 10)
  pure (s1 ++ s2 ++ s3)

/-- The selection of the customer in `DoOrderStatus` and `DoPayment`
(worker.go:168-180 and 190-212): the pair `(cId, cLast)`, which starts as
`(0, "")`. -/
def customer (env : Env) (w : Worker) : Gen (Int × String) := do
  let cId : Int := 0
  let cLast : String := ""
  let r ← env.randInt Site.byName 1 100
  if r ≤ 60 then do
    let cLast ← surname env
    pure (cId, cLast)
  else do
    let cId ← env.randInt Site.cId 1 w.sc.CustomersPerDistrict
    pure (cId, cLast)

/-- `Worker.DoStockLevelTrx` (worker.go:149-155). -/
def Worker.DoStockLevelTrx (w : Worker) (env : Env) : Gen Status := do
  let warehouseId ← env.randInt Site.wId 1 w.sc.Warehouses
  let districtId ← env.randInt Site.dId 1 w.sc.DistrictsPerWarehouse
  let threshold ← env.randInt Site.threshold env.k.MIN_STOCK_LEVEL_THRESHOLD
    env.k.MAX_STOCK_LEVEL_THRESHOLD
  env.exec (ExecCall.DoStockLevelTrx warehouseId districtId threshold)

/-- `Worker.DoDelivery` (worker.go:157-163). -/
def Worker.DoDelivery (w : Worker) (env : Env) : Gen Status := do
  let warehouseId ← env.randInt Site.wId 1 w.sc.Warehouses
  let OCarrierId ← env.randInt Site.carrier env.k.MIN_CARRIER_ID env.k.MAX_CARRIER_ID
  let OlDeliveryD ← timeNow Site.deliveryD
  env.exec (ExecCall.DoDelivery warehouseId OCarrierId OlDeliveryD w.sc.DistrictsPerWarehouse)

/-- `Worker.DoOrderStatus` (worker.go:165-183). -/
def Worker.DoOrderStatus (w : Worker) (env : Env) : Gen Status := do
  let wId ← env.randInt Site.wId 1 w.sc.Warehouses
  let dId ← env.randInt Site.dId 1 w.sc.DistrictsPerWarehouse
  let (cId, cLast) ← customer env w
  env.exec (ExecCall.DoOrderStatus wId dId cId cLast)

/-- The condition `w.sc.Warehouses == 1 || helpers.RandInt(1, 100) <= 85` of
`DoPayment` (worker.go:195); `||` does not evaluate its right side when the left
one holds. -/
def paymentIsLocal (env : Env) (w : Worker) : Gen Bool :=
  if w.sc.Warehouses = 1 then pure true
  else do
    let r ← env.randInt Site.remote 1 100
    pure (decide (r ≤ 85))

/-- `Worker.DoPayment` (worker.go:185-215). -/
def Worker.DoPayment (w : Worker) (env : Env) : Gen Status := do
  let wId ← env.randInt Site.wId 1 w.sc.Warehouses
  let dId ← env.randInt Site.dId 1 w.sc.DistrictsPerWarehouse
  let hAmount ← env.randFloat Site.hAmount env.k.MIN_PAYMENT env.k.MAX_PAYMENT
    env.k.MONEY_DECIMALS
  let hDate ← timeNow Site.hDate
  let isLocal ← paymentIsLocal env w
  let (cWId, cDId) ← (if isLocal then pure (wId, dId)
    else do
      let cWId ← env.randIntExcluding Site.cWId 1 w.sc.Warehouses wId
      let cDId ← env.randInt Site.cDId 1 w.sc.DistrictsPerWarehouse
      pure (cWId, cDId) : Gen (Int × Int))
  let (cId, cLast) ← customer env w
  env.exec (ExecCall.DoPayment wId dId hAmount cWId cDId cId cLast hDate
    env.k.BAD_CREDIT env.k.MAX_C_DATA)

/-- The condition `w.sc.Warehouses > 1 && helpers.RandInt(1, 100) == 42` of
`DoNewOrder` (worker.go:242) for line `i`; `&&` does not evaluate its right side
when the left one fails. -/
def lineIsRemote (env : Env) (w : Worker) (i : Int) : Gen Bool :=
  if 1 < w.sc.Warehouses then do
    let r ← env.randInt (Site.iWRemote i) 1 100
    pure (decide (r = 42))
  else pure false

/-- The loop `for i := 0; i < olCnt; i++` of `DoNewOrder` (worker.go:233-249), from
index `i` with `n` iterations left (`n = olCnt - i`; `i + 1` stays below the
`int` that `olCnt` is). -/
def orderLines (env : Env) (w : Worker) (wId olCnt : Int) (rollback : Bool) :
    Nat → Int → List Int → List Int → List Int → Gen (List Int × List Int × List Int)
  | 0, _, iIds, iWIds, iQtys => pure (iIds, iWIds, iQtys)
  | n + 1, i, iIds, iWIds, iQtys => do
    let iIds ← (if rollback = true ∧ i + 1 = olCnt then pure (iIds ++ [goAdd w.sc.Items 1])
      else do
        let v ← env.randInt (Site.iId i) 1 w.sc.Items
        pure (iIds ++ [v]) : Gen (List Int))
    let isRemote ← lineIsRemote env w i
    let iWIds ← (if isRemote then do
        let v ← env.randIntExcluding (Site.iWId i) 1 w.sc.Warehouses wId
        pure (iWIds ++ [v])
      else pure (iWIds ++ [wId]) : Gen (List Int))
    let q ← env.randInt (Site.iQty i) 1 env.k.MAX_OL_QUANTITY
    orderLines env w wId olCnt rollback n (i + 1) iIds iWIds (iQtys ++ [q])

/-- `Worker.DoNewOrder` (worker.go:217-252). -/
def Worker.DoNewOrder (w : Worker) (env : Env) : Gen Status := do
  let wId ← env.randInt Site.wId 1 w.sc.Warehouses
  let dId ← env.randInt Site.dId 1 w.sc.DistrictsPerWarehouse
  let cId ← env.randInt Site.cId 1 w.sc.CustomersPerDistrict
  let oEntryD ← timeNow Site.oEntryD
  let olCnt ← env.randInt Site.olCnt env.k.MIN_OL_CNT env.k.MAX_OL_CNT
  let r ← env.randInt Site.rollback 1 100
  let rollback : Bool := decide (r = 42)
  let (iIds, iWIds, iQtys) ← orderLines env w wId olCnt rollback olCnt.toNat 0 [] [] []
  env.exec (ExecCall.DoNewOrder wId dId cId oEntryD iIds iWIds iQtys)

/-! ## The worker loop -/

/-- The `switch` of `Worker.Execute` (worker.go:119-135) on the draw `r`: the type
the case stores in `trx.Type`, and the generator it calls. -/
def Worker.dispatch (w : Worker) (env : Env) (r : Int) : TransactionType × Gen Status :=
  if r ≤ 4 then (TransactionType.StockLevelTrx, w.DoStockLevelTrx env)
  else if r ≤ 8 then (TransactionType.DeliveryTrx, w.DoDelivery env)
  else if r ≤ 12 then (TransactionType.OrderStatusTrx, w.DoOrderStatus env)
  else if r ≤ 55 then (TransactionType.PaymentTrx, w.DoPayment env)
  else (TransactionType.NewOrderTrx, w.DoNewOrder env)

/-- The `default` branch of the `select` of `Worker.Execute` (worker.go:115-144):
one attempt, from the draw of the mix to the send on the channel. -/
def Worker.attempt (w : Worker) (env : Env) : Gen Unit := do
  let r ← env.randInt Site.mix 1 100
  let status ← (w.dispatch env r).2
  let failed : Bool := status.isSome
  Gen.emit (Event.publish
    { ThreadId := w.threadId, Type_ := (w.dispatch env r).1, Failed := failed })

/-- Whether a worker is in its loop or has left it. -/
inductive Phase where
  | Running
  | Cancelled
deriving DecidableEq, Repr

/-- Whether `<-w.ctx.Done()` is ready: the context is cancelled from outside, so
the answer is read from the oracle (zero: not cancelled). -/
def ctxDone : Gen Bool :=
  Gen.ask (fun raw => some (decide (raw ≠ 0))) Event.ctxDone

/-- One iteration of the `for` of `Worker.Execute` (worker.go:110-146): the
`select`, and the attempt when the context is not done. -/
def Worker.iteration (w : Worker) (env : Env) : Gen Phase := do
  let done ← ctxDone
  if done then pure Phase.Cancelled
  else do
    w.attempt env
    pure Phase.Running

/-- `Worker.Execute` (worker.go:107-147), for at most `n` iterations: the loop
goes on while the context is not done; on the `return` the deferred `w.wg.Done()`
runs.  The result is `Running` when the `n` iterations all went through. -/
def Worker.Execute (w : Worker) (env : Env) : Nat → Gen Phase
  | 0 => pure Phase.Running
  | n + 1 => do
    let ph ← w.iteration env
    match ph with
    | Phase.Cancelled => do
      Gen.emit Event.wgDone
      pure Phase.Cancelled
    | Phase.Running => Worker.Execute w env n

/-! ## Views of the trace -/

/-- The world at the start: nothing read, nothing recorded. -/
def World.init (oracle : Nat → Nat) : World := { oracle := oracle, pos := 0, trace := [] }

/-- The oracle that answers with the values of `l`, then with zeros. -/
def oracleOf (l : List Nat) : Nat → Nat := fun i => l.getD i 0

/-- The value of the event when it is a `helpers.RandInt` made at `site`. -/
def Event.draw? (site : Site) : Event → Option Int
  | Event.randInt s _ _ v => if s = site then some v else none
  | _ => none

/-- The values `helpers.RandInt` returned at `site`, in order. -/
def drawsAt (site : Site) (ev : List Event) : List Int := ev.filterMap (Event.draw? site)

/-- The call of the event when it is a call of the executor. -/
def Event.call? : Event → Option ExecCall
  | Event.exec c _ => some c
  | _ => none

/-- The calls of the executor, in order. -/
def execCalls (ev : List Event) : List ExecCall := ev.filterMap Event.call?

/-- Whether the event is a call of `helpers.RandIntExcluding`. -/
def Event.isExclusion : Event → Bool
  | Event.randIntExcluding _ _ _ _ _ => true
  | _ => false

/-- The calls of `helpers.RandIntExcluding`, in order. -/
def exclusions (ev : List Event) : List Event := ev.filter Event.isExclusion

/-- Partial correctness of a computation: whenever it returns, it has appended
some events `ev` to the trace and `Q result ev` holds. -/
def Gen.Always {α : Type} (g : Gen α) (Q : α → List Event → Prop) : Prop :=
  ∀ wd a wd1, g wd = some (a, wd1) → ∃ ev, wd1.trace = wd.trace ++ ev ∧ Q a ev

/-- Total correctness: from every world the computation returns, and `Q` holds of
the result and of the events it appended. -/
def Gen.Total {α : Type} (g : Gen α) (Q : α → List Event → Prop) : Prop :=
  ∀ wd, ∃ a wd1 ev, g wd = some (a, wd1) ∧ wd1.trace = wd.trace ++ ev ∧ Q a ev

/-- An executor for the examples: the data store fails on a non-zero answer. -/
def specExecutor : Executor := fun _ raw => if raw = 0 then none else some "error"

/-- The environment of the examples. -/
def specEnv : Env := { h := specHelpers, k := specConstants, ex := specExecutor }

/-- The events of the surname synthesis on the draws `a`, `b`, `c` that gave the
number `n`. -/
def surnameEvents (a b c n : Int) : List Event :=
  [Event.randInt Site.sylA 0 256 a, Event.randInt Site.sylB 0 1000 b,
   Event.randInt Site.sylC 0 256 c, Event.index (Int.tdiv n 100),
   Event.index (Int.tmod (Int.tdiv n 10) 10), Event.index (Int.tmod n 10)]

/-- What one run of `surname` did: the three draws, in their ranges; the number
`sylN a b c`; the three entries of the table, at the digits of the number; the
events. -/
def SurnameRun (env : Env) (s : String) (ev : List Event) : Prop :=
  ∃ a b c s1 s2 s3, 0 ≤ a ∧ a ≤ 256 ∧ 0 ≤ b ∧ b ≤ 1000 ∧ 0 ≤ c ∧ c ≤ 256 ∧
    0 ≤ Int.tdiv (sylN a b c) 100 ∧
    env.k.SYLLABES.get? (Int.tdiv (sylN a b c) 100).toNat = some s1 ∧
    0 ≤ Int.tmod (Int.tdiv (sylN a b c) 10) 10 ∧
    env.k.SYLLABES.get? (Int.tmod (Int.tdiv (sylN a b c) 10) 10).toNat = some s2 ∧
    0 ≤ Int.tmod (sylN a b c) 10 ∧
    env.k.SYLLABES.get? (Int.tmod (sylN a b c) 10).toNat = some s3 ∧
    s = s1 ++ s2 ++ s3 ∧ ev = surnameEvents a b c (sylN a b c)

/-- What one run of `customer` did: the draw `r` of the selection, and either a
surname and no number (`r ≤ 60`), or a number and no surname. -/
def CustomerRun (env : Env) (w : Worker) (cId : Int) (cLast : String) (ev : List Event) : Prop :=
  ∃ r, 1 ≤ r ∧ r ≤ 100 ∧
    ((r ≤ 60 ∧ cId = 0 ∧ ∃ ev1, SurnameRun env cLast ev1 ∧
        ev = Event.randInt Site.byName 1 100 r :: ev1) ∨
     (60 < r ∧ cLast = "" ∧
        (1 ≤ w.sc.CustomersPerDistrict → 1 ≤ cId ∧ cId ≤ w.sc.CustomersPerDistrict) ∧
        ev = [Event.randInt Site.byName 1 100 r,
              Event.randInt Site.cId 1 w.sc.CustomersPerDistrict cId]))

/-- What one run of `DoStockLevelTrx` did. -/
def StockLevelRun (env : Env) (w : Worker) (st : Status) (ev : List Event) : Prop :=
  ∃ warehouseId districtId threshold,
    (1 ≤ w.sc.Warehouses → 1 ≤ warehouseId ∧ warehouseId ≤ w.sc.Warehouses) ∧
    (1 ≤ w.sc.DistrictsPerWarehouse →
      1 ≤ districtId ∧ districtId ≤ w.sc.DistrictsPerWarehouse) ∧
    (env.k.MIN_STOCK_LEVEL_THRESHOLD ≤ env.k.MAX_STOCK_LEVEL_THRESHOLD →
      env.k.MIN_STOCK_LEVEL_THRESHOLD ≤ threshold ∧
      threshold ≤ env.k.MAX_STOCK_LEVEL_THRESHOLD) ∧
    ev = [Event.randInt Site.wId 1 w.sc.Warehouses warehouseId,
          Event.randInt Site.dId 1 w.sc.DistrictsPerWarehouse districtId,
          Event.randInt Site.threshold env.k.MIN_STOCK_LEVEL_THRESHOLD
            env.k.MAX_STOCK_LEVEL_THRESHOLD threshold,
          Event.exec (ExecCall.DoStockLevelTrx warehouseId districtId threshold) st]

/-- What one run of `DoDelivery` did. -/
def DeliveryRun (env : Env) (w : Worker) (st : Status) (ev : List Event) : Prop :=
  ∃ warehouseId OCarrierId OlDeliveryD,
    (1 ≤ w.sc.Warehouses → 1 ≤ warehouseId ∧ warehouseId ≤ w.sc.Warehouses) ∧
    (env.k.MIN_CARRIER_ID ≤ env.k.MAX_CARRIER_ID →
      env.k.MIN_CARRIER_ID ≤ OCarrierId ∧ OCarrierId ≤ env.k.MAX_CARRIER_ID) ∧
    ev = [Event.randInt Site.wId 1 w.sc.Warehouses warehouseId,
          Event.randInt Site.carrier env.k.MIN_CARRIER_ID env.k.MAX_CARRIER_ID OCarrierId,
          Event.timeNow Site.deliveryD OlDeliveryD,
          Event.exec (ExecCall.DoDelivery warehouseId OCarrierId OlDeliveryD
            w.sc.DistrictsPerWarehouse) st]

/-- What one run of `DoOrderStatus` did. -/
def OrderStatusRun (env : Env) (w : Worker) (st : Status) (ev : List Event) : Prop :=
  ∃ wId dId cId cLast evc,
    (1 ≤ w.sc.Warehouses → 1 ≤ wId ∧ wId ≤ w.sc.Warehouses) ∧
    (1 ≤ w.sc.DistrictsPerWarehouse → 1 ≤ dId ∧ dId ≤ w.sc.DistrictsPerWarehouse) ∧
    CustomerRun env w cId cLast evc ∧
    ev = [Event.randInt Site.wId 1 w.sc.Warehouses wId,
          Event.randInt Site.dId 1 w.sc.DistrictsPerWarehouse dId] ++ evc ++
         [Event.exec (ExecCall.DoOrderStatus wId dId cId cLast) st]

/-- What the choice of the customer's warehouse and district in `DoPayment` did
(worker.go:195-201), for the home warehouse `wId` and district `dId`: nothing is
drawn with one warehouse; otherwise the draw `r` decides between the home place
(`r ≤ 85`) and another warehouse with a district of its own. -/
def PaymentPlaceRun (w : Worker) (wId dId cWId cDId : Int) (ev : List Event) : Prop :=
  (w.sc.Warehouses = 1 ∧ cWId = wId ∧ cDId = dId ∧ ev = []) ∨
  (w.sc.Warehouses ≠ 1 ∧ ∃ r, 1 ≤ r ∧ r ≤ 100 ∧
    ((r ≤ 85 ∧ cWId = wId ∧ cDId = dId ∧ ev = [Event.randInt Site.remote 1 100 r]) ∨
     (85 < r ∧
      (1 < w.sc.Warehouses → 1 ≤ wId → wId ≤ w.sc.Warehouses →
        1 ≤ cWId ∧ cWId ≤ w.sc.Warehouses ∧ cWId ≠ wId) ∧
      (1 ≤ w.sc.DistrictsPerWarehouse → 1 ≤ cDId ∧ cDId ≤ w.sc.DistrictsPerWarehouse) ∧
      ev = [Event.randInt Site.remote 1 100 r,
            Event.randIntExcluding Site.cWId 1 w.sc.Warehouses wId cWId,
            Event.randInt Site.cDId 1 w.sc.DistrictsPerWarehouse cDId])))

/-- What one run of `DoPayment` did. -/
def PaymentRun (env : Env) (w : Worker) (st : Status) (ev : List Event) : Prop :=
  ∃ wId dId hAmount hDate cWId cDId cId cLast evp evc,
    (1 ≤ w.sc.Warehouses → 1 ≤ wId ∧ wId ≤ w.sc.Warehouses) ∧
    (1 ≤ w.sc.DistrictsPerWarehouse → 1 ≤ dId ∧ dId ≤ w.sc.DistrictsPerWarehouse) ∧
    PaymentPlaceRun w wId dId cWId cDId evp ∧
    CustomerRun env w cId cLast evc ∧
    ev = [Event.randInt Site.wId 1 w.sc.Warehouses wId,
          Event.randInt Site.dId 1 w.sc.DistrictsPerWarehouse dId,
          Event.randFloat Site.hAmount env.k.MIN_PAYMENT env.k.MAX_PAYMENT
            env.k.MONEY_DECIMALS hAmount,
          Event.timeNow Site.hDate hDate] ++ evp ++ evc ++
         [Event.exec (ExecCall.DoPayment wId dId hAmount cWId cDId cId cLast hDate
            env.k.BAD_CREDIT env.k.MAX_C_DATA) st]

/-- The worker of the examples: thread 7, the scale of factor 1 with 4 warehouses. -/
def specWorker : Worker :=
  { threadId := 7
    sc := { Items := 100000, Warehouses := 4, DistrictsPerWarehouse := 10,
            CustomersPerDistrict := 3000, NewOrdersPerDistrict := 900 } }

/-- The worker of the examples with a single warehouse. -/
def soloWorker : Worker :=
  { threadId := 7
    sc := { Items := 100000, Warehouses := 1, DistrictsPerWarehouse := 10,
            CustomersPerDistrict := 3000, NewOrdersPerDistrict := 900 } }

/-- What the choice of the item of order line `i` did (worker.go:234-240): on the
last line of an order to roll back, no draw and the identifier `Items + 1` of
Go; otherwise one draw from `[1, Items]`. -/
def LineItemRun (w : Worker) (olCnt : Int) (rollback : Bool) (i iId : Int)
    (ev : List Event) : Prop :=
  (rollback = true ∧ i + 1 = olCnt ∧ iId = goAdd w.sc.Items 1 ∧ ev = []) ∨
  (¬(rollback = true ∧ i + 1 = olCnt) ∧
    (1 ≤ w.sc.Items → 1 ≤ iId ∧ iId ≤ w.sc.Items) ∧
    ev = [Event.randInt (Site.iId i) 1 w.sc.Items iId])

/-- What the choice of the supplying warehouse of order line `i` did
(worker.go:242-246): nothing is drawn with at most one warehouse; otherwise the
draw `r` of the line decides between the home warehouse and another one
(`r = 42`). -/
def LineWarehouseRun (w : Worker) (wId i iWId : Int) (ev : List Event) : Prop :=
  (¬ 1 < w.sc.Warehouses ∧ iWId = wId ∧ ev = []) ∨
  (1 < w.sc.Warehouses ∧ ∃ r, 1 ≤ r ∧ r ≤ 100 ∧
    ((r ≠ 42 ∧ iWId = wId ∧ ev = [Event.randInt (Site.iWRemote i) 1 100 r]) ∨
     (r = 42 ∧
      (1 ≤ wId → wId ≤ w.sc.Warehouses →
        1 ≤ iWId ∧ iWId ≤ w.sc.Warehouses ∧ iWId ≠ wId) ∧
      ev = [Event.randInt (Site.iWRemote i) 1 100 r,
            Event.randIntExcluding (Site.iWId i) 1 w.sc.Warehouses wId iWId])))

/-- What one pass of the loop of `DoNewOrder` did, for order line `i`. -/
def LineRun (env : Env) (w : Worker) (wId olCnt : Int) (rollback : Bool) (i iId iWId iQty : Int)
    (ev : List Event) : Prop :=
  ∃ evI evW, LineItemRun w olCnt rollback i iId evI ∧ LineWarehouseRun w wId i iWId evW ∧
    (1 ≤ env.k.MAX_OL_QUANTITY → 1 ≤ iQty ∧ iQty ≤ env.k.MAX_OL_QUANTITY) ∧
    ev = evI ++ evW ++ [Event.randInt (Site.iQty i) 1 env.k.MAX_OL_QUANTITY iQty]

/-- What `n` passes of the loop of `DoNewOrder` did, from order line `i` on: the
identifiers, warehouses and quantities they appended, and their events. -/
def LinesRun (env : Env) (w : Worker) (wId olCnt : Int) (rollback : Bool) :
    Nat → Int → List Int → List Int → List Int → List Event → Prop
  | 0, _, iIds, iWIds, iQtys, ev => iIds = [] ∧ iWIds = [] ∧ iQtys = [] ∧ ev = []
  | n + 1, i, iIds, iWIds, iQtys, ev =>
    ∃ iId iWId iQty ev1 iIds1 iWIds1 iQtys1 ev2,
      LineRun env w wId olCnt rollback i iId iWId iQty ev1 ∧
      LinesRun env w wId olCnt rollback n (i + 1) iIds1 iWIds1 iQtys1 ev2 ∧
      iIds = iId :: iIds1 ∧ iWIds = iWId :: iWIds1 ∧ iQtys = iQty :: iQtys1 ∧
      ev = ev1 ++ ev2

/-- What one run of `DoNewOrder` did. -/
def NewOrderRun (env : Env) (w : Worker) (st : Status) (ev : List Event) : Prop :=
  ∃ wId dId cId oEntryD olCnt r iIds iWIds iQtys evl,
    (1 ≤ w.sc.Warehouses → 1 ≤ wId ∧ wId ≤ w.sc.Warehouses) ∧
    (1 ≤ w.sc.DistrictsPerWarehouse → 1 ≤ dId ∧ dId ≤ w.sc.DistrictsPerWarehouse) ∧
    (1 ≤ w.sc.CustomersPerDistrict → 1 ≤ cId ∧ cId ≤ w.sc.CustomersPerDistrict) ∧
    (env.k.MIN_OL_CNT ≤ env.k.MAX_OL_CNT →
      env.k.MIN_OL_CNT ≤ olCnt ∧ olCnt ≤ env.k.MAX_OL_CNT) ∧
    1 ≤ r ∧ r ≤ 100 ∧
    LinesRun env w wId olCnt (decide (r = 42)) olCnt.toNat 0 iIds iWIds iQtys evl ∧
    ev = [Event.randInt Site.wId 1 w.sc.Warehouses wId,
          Event.randInt Site.dId 1 w.sc.DistrictsPerWarehouse dId,
          Event.randInt Site.cId 1 w.sc.CustomersPerDistrict cId,
          Event.timeNow Site.oEntryD oEntryD,
          Event.randInt Site.olCnt env.k.MIN_OL_CNT env.k.MAX_OL_CNT olCnt,
          Event.randInt Site.rollback 1 100 r] ++ evl ++
         [Event.exec (ExecCall.DoNewOrder wId dId cId oEntryD iIds iWIds iQtys) st]

/-- The oracle of the example of `DoNewOrder`: three warehouses back, an order of
five lines to roll back, the second line supplied from another warehouse. -/
def exampleOrderOracle : Nat → Nat :=
  oracleOf [2, 0, 59, 3, 0, 41, 2, 5, 0, 1, 41, 0, 2, 1, 3, 4, 5, 6, 7, 8, 9, 0]

/-- The trace of `DoNewOrder` on `exampleOrderOracle`, for `specWorker` in
`specEnv`. -/
def exampleOrderTrace : List Event :=
  [Event.randInt Site.wId 1 4 3,
   Event.randInt Site.dId 1 10 1,
   Event.randInt Site.cId 1 3000 60,
   Event.timeNow Site.oEntryD 3,
   Event.randInt Site.olCnt 5 15 5,
   Event.randInt Site.rollback 1 100 42,
   Event.randInt (Site.iId 0) 1 100000 3,
   Event.randInt (Site.iWRemote 0) 1 100 6,
   Event.randInt (Site.iQty 0) 1 10 1,
   Event.randInt (Site.iId 1) 1 100000 2,
   Event.randInt (Site.iWRemote 1) 1 100 42,
   Event.randIntExcluding (Site.iWId 1) 1 4 3 1,
   Event.randInt (Site.iQty 1) 1 10 3,
   Event.randInt (Site.iId 2) 1 100000 2,
   Event.randInt (Site.iWRemote 2) 1 100 4,
   Event.randInt (Site.iQty 2) 1 10 5,
   Event.randInt (Site.iId 3) 1 100000 6,
   Event.randInt (Site.iWRemote 3) 1 100 7,
   Event.randInt (Site.iQty 3) 1 10 8,
   Event.randInt (Site.iWRemote 4) 1 100 9,
   Event.randInt (Site.iQty 4) 1 10 10,
   Event.exec (ExecCall.DoNewOrder 3 1 60 3 [3, 2, 2, 6, 100001] [3, 1, 3, 3, 3]
     [1, 3, 5, 8, 10]) none]

/-- A request the outside can serve: a draw from a non-empty range, an exclusion
draw from a range that holds the excluded value and another one, an index
inside the ten-entry syllable table. -/
def Event.Admissible : Event → Prop
  | Event.randInt _ lo hi _ => lo ≤ hi
  | Event.randIntExcluding _ lo hi excl _ => lo < hi ∧ lo ≤ excl ∧ excl ≤ hi
  | Event.randFloat _ lo hi _ _ => F64.le lo hi = true
  | Event.index i => 0 ≤ i ∧ i ≤ 9
  | _ => True

/-- What "the generator does not fail on its own" means for the events `ev` of a
run that returned `st`: every request was admissible, the exclusion primitive
was called only with more than one warehouse, and the events end with the one
call of the executor, which returned `st`. -/
def ReachesExecutor (w : Worker) (st : Status) (ev : List Event) : Prop :=
  (∀ e ∈ ev, e.Admissible) ∧ (exclusions ev ≠ [] → 1 < w.sc.Warehouses) ∧
  ∃ pre call, ev = pre ++ [Event.exec call st] ∧ execCalls pre = []

/-- Whether the event is a request of a generator to the random source, the clock
or the syllable table (and not a call of the executor nor an event of the
loop). -/
def Event.isRequest : Event → Bool
  | Event.randInt _ _ _ _ => true
  | Event.randIntExcluding _ _ _ _ _ => true
  | Event.randFloat _ _ _ _ _ => true
  | Event.timeNow _ _ => true
  | Event.index _ => true
  | _ => false

/-- The transaction of the event when it is a send on the channel. -/
def Event.trx? : Event → Option Transaction
  | Event.publish t => some t
  | _ => none

/-- The transactions sent on the channel, in order. -/
def published (ev : List Event) : List Transaction := ev.filterMap Event.trx?

/-- What one iteration of the loop that did not see the context done did: the
check of the context, the draw `r` of the mix, the requests of the generator,
its call of the executor with the returned `st`, and the send of the outcome,
whose `Failed` is set exactly when `st` is an error. -/
def AttemptRun (env : Env) (w : Worker) (ev : List Event) : Prop :=
  ∃ r pre call st, 1 ≤ r ∧ r ≤ 100 ∧ (∀ e ∈ pre, e.isRequest = true) ∧
    ev = [Event.ctxDone false, Event.randInt Site.mix 1 100 r] ++ pre ++
      [Event.exec call st,
       Event.publish { ThreadId := w.threadId, Type_ := (w.dispatch env r).1,
                       Failed := st.isSome }]

/-- An executor that never fails. -/
def okExecutor : Executor := fun _ _ => none

/-- Two computations that read the same inputs: from two worlds with the same
oracle and the same cursor, both panic, or both return, with results related by
`R` and worlds that have again the same oracle and the same cursor. -/
def Gen.Rel {α β : Type} (R : α → β → Prop) (g : Gen α) (g' : Gen β) : Prop :=
  ∀ wd wd', wd.oracle = wd'.oracle → wd.pos = wd'.pos →
    (g wd = none ∧ g' wd' = none) ∨
    ∃ a w1 b w1', g wd = some (a, w1) ∧ g' wd' = some (b, w1') ∧ R a b ∧
      w1.oracle = w1'.oracle ∧ w1.pos = w1'.pos

/-- The environment with the executor replaced by one that never fails. -/
def Env.withOkExecutor (env : Env) : Env := { h := env.h, k := env.k, ex := okExecutor }

/-- The oracle of the example of the loop: a first attempt that the data store
fails, a second one that it serves, then the context is done. -/
def exampleLoopOracle : Nat → Nat := oracleOf [0, 3, 0, 0, 0, 7, 0, 7, 2, 5, 1, 0, 1]

/-- The trace of `Execute` on `exampleLoopOracle`, for `specWorker` in `specEnv`. -/
def exampleLoopTrace : List Event :=
  [Event.ctxDone false,
   Event.randInt Site.mix 1 100 4,
   Event.randInt Site.wId 1 4 1,
   Event.randInt Site.dId 1 10 1,
   Event.randInt Site.threshold 10 20 10,
   Event.exec (ExecCall.DoStockLevelTrx 1 1 10) (some "error"),
   Event.publish { ThreadId := 7, Type_ := TransactionType.StockLevelTrx, Failed := true },
   Event.ctxDone false,
   Event.randInt Site.mix 1 100 8,
   Event.randInt Site.wId 1 4 3,
   Event.randInt Site.carrier 1 10 6,
   Event.timeNow Site.deliveryD 1,
   Event.exec (ExecCall.DoDelivery 3 6 1 10) none,
   Event.publish { ThreadId := 7, Type_ := TransactionType.DeliveryTrx, Failed := false },
   Event.ctxDone true,
   Event.wgDone]

/-- The base count `B` and the scale factor `f` are within the range in which
binary64 holds both `B` and the integer part of `B / f`: `0 ≤ B < 2^53` and
`B / f < 2^53`. -/
def F64.Scales (f : F64) (B : Int) : Prop :=
  0 ≤ B ∧ B < 2 ^ 53 ∧ (B : ℚ) / f.toRat < 2 ^ 53

/-- The computation returns from every world (it never panics). -/
def Gen.Returns {α : Type} (g : Gen α) : Prop := Gen.Total g (fun _ _ => True)

/-- The surname in the words of the specification: the number
`((a OR b) + c) mod 1000`, and the syllables of its hundreds, tens and units
digits, in that order; `none` when a digit has no entry in the table. -/
def surnameSpec (syllables : List String) (a b c : Int) : Option String :=
  let n := (Int.lor a b + c) % 1000
  match syllables.get? (n / 100).toNat, syllables.get? (n / 10 % 10).toNat,
    syllables.get? (n % 10).toNat with
  | some s1, some s2, some s3 => some (s1 ++ s2 ++ s3)
  | _, _, _ => none

/-- The value of the event when it is a `helpers.RandIntExcluding` made at `site`. -/
def Event.exclusion? (site : Site) : Event → Option Int
  | Event.randIntExcluding s _ _ _ v => if s = site then some v else none
  | _ => none

/-- The values `helpers.RandIntExcluding` returned at `site`, in order. -/
def exclusionsAt (site : Site) (ev : List Event) : List Int :=
  ev.filterMap (Event.exclusion? site)

/-- What ties the entries `iId`, `iWId`, `iQty` of the three lists of `DoNewOrder`
to order line `i` in the events `ev`: the quantity is the one quantity draw of
the line; the item is the one item draw of the line, or Go's `Items + 1` with no
item draw on the last line of an order to roll back; the supplying warehouse is
the home warehouse `wId` with no exclusion draw on the line, or the one
exclusion draw of the line. -/
def LineTie (w : Worker) (wId olCnt : Int) (rollback : Bool) (i iId iWId iQty : Int)
    (ev : List Event) : Prop :=
  drawsAt (Site.iQty i) ev = [iQty] ∧
  (drawsAt (Site.iId i) ev = [iId] ∨
    (rollback = true ∧ i + 1 = olCnt ∧ iId = goAdd w.sc.Items 1 ∧
      drawsAt (Site.iId i) ev = [])) ∧
  ((iWId = wId ∧ exclusionsAt (Site.iWId i) ev = []) ∨
    exclusionsAt (Site.iWId i) ev = [iWId])

/-- The transaction type whose operation of the executor the call is. -/
def ExecCall.trxType : ExecCall → TransactionType
  | ExecCall.DoStockLevelTrx _ _ _ => TransactionType.StockLevelTrx
  | ExecCall.DoDelivery _ _ _ _ => TransactionType.DeliveryTrx
  | ExecCall.DoOrderStatus _ _ _ _ => TransactionType.OrderStatusTrx
  | ExecCall.DoPayment _ _ _ _ _ _ _ _ _ _ => TransactionType.PaymentTrx
  | ExecCall.DoNewOrder _ _ _ _ _ _ _ => TransactionType.NewOrderTrx

/-- The answer of the event when it is a check of `w.ctx.Done()`. -/
def Event.observed? : Event → Option Bool
  | Event.ctxDone b => some b
  | _ => none

/-- What the checks of `w.ctx.Done()` observed, in order (`true`: done). -/
def observations (ev : List Event) : List Bool := ev.filterMap Event.observed?

/-- Whether the event is a call of `w.wg.Done()`. -/
def Event.isExit : Event → Bool
  | Event.wgDone => true
  | _ => false

/-- The number of calls of `w.wg.Done()`. -/
def exits (ev : List Event) : Nat := (ev.filter Event.isExit).length

/-- What one iteration of the loop that did not see the context done did, and the
outcome `trx` it sent: the check of the context, the one draw `r` of the mix,
the requests of the generator (none of them a draw of the mix), its one call
of the executor, which is the operation of the type the `switch` stored, with
the returned `st`, and the send of `trx`, which carries the thread of the
worker, the stored type, and `Failed` exactly when `st` is an error. -/
def AttemptOf (env : Env) (w : Worker) (trx : Transaction) (ev : List Event) : Prop :=
  ∃ r pre call st, 1 ≤ r ∧ r ≤ 100 ∧ (∀ e ∈ pre, e.isRequest = true) ∧
    drawsAt Site.mix pre = [] ∧ call.trxType = (w.dispatch env r).1 ∧
    trx = { ThreadId := w.threadId, Type_ := (w.dispatch env r).1, Failed := st.isSome } ∧
    ev = [Event.ctxDone false, Event.randInt Site.mix 1 100 r] ++ pre ++
      [Event.exec call st, Event.publish trx]

/-- The events of consecutive attempts, one for each outcome of the list
`outs`, in order. -/
def AttemptsRun (env : Env) (w : Worker) : List Transaction → List Event → Prop
  | [], ev => ev = []
  | trx :: outs, ev =>
    ∃ ev1 ev2, AttemptOf env w trx ev1 ∧ AttemptsRun env w outs ev2 ∧ ev = ev1 ++ ev2

/-- What `Execute` did in at most `n` iterations, with the outcomes `outs` it
sent: either `n` attempts, and the worker is still in its loop; or fewer than
`n` attempts, then the check that saw the context done, and the deferred
`w.wg.Done()`. -/
def ExecuteRun (env : Env) (w : Worker) (n : Nat) (outs : List Transaction) (ph : Phase)
    (ev : List Event) : Prop :=
  ∃ evs, AttemptsRun env w outs evs ∧
    ((ph = Phase.Running ∧ outs.length = n ∧ ev = evs) ∨
     (ph = Phase.Cancelled ∧ outs.length < n ∧
      ev = evs ++ [Event.ctxDone true, Event.wgDone]))

/-- Modelled from the spec: the shared completion barrier of the pool, which the
orchestrator creates and hands to the workers (neither is in `worker.go`; a
worker only calls `w.wg.Done()`).  It is the counter left after `started`
workers were added and the workers made the calls of `w.wg.Done()` that their
traces record; `none` when there are more calls than workers added. -/
def barrier (started : Nat) (traces : List (List Event)) : Option Nat :=
  if (traces.map exits).sum ≤ started then some (started - (traces.map exits).sum) else none

/-- Modelled from the spec: `join` returns when the barrier is at zero. -/
def joinReturns (started : Nat) (traces : List (List Event)) : Bool :=
  barrier started traces == some 0

/-- The worker of the examples on thread `i`. -/
def poolWorker (i : Int) : Worker := { threadId := i, sc := specWorker.sc }

/-- The oracle of a worker of the examples that has an attempt in flight when the
context is cancelled: the attempt, then the context is done. -/
def inFlightOracle : Nat → Nat := oracleOf [0, 3, 0, 0, 0, 0, 1]

/-- The trace of `Execute` on `inFlightOracle`, for the worker on thread `i`. -/
def inFlightTrace (i : Int) : List Event :=
  [Event.ctxDone false,
   Event.randInt Site.mix 1 100 4,
   Event.randInt Site.wId 1 4 1,
   Event.randInt Site.dId 1 10 1,
   Event.randInt Site.threshold 10 20 10,
   Event.exec (ExecCall.DoStockLevelTrx 1 1 10) none,
   Event.publish { ThreadId := i, Type_ := TransactionType.StockLevelTrx, Failed := false },
   Event.ctxDone true,
   Event.wgDone]

/-- The pool of the examples when the context is cancelled right after the
start: four workers, each with the number of attempts it had started and the
world it sees; the first and the third see the context done at their first
check, the second and the fourth have one attempt in flight. -/
def examplePool : List (Worker × Nat × World) :=
  [(poolWorker 1, 0, World.init (oracleOf [1])),
   (poolWorker 2, 1, World.init inFlightOracle),
   (poolWorker 3, 0, World.init (oracleOf [1])),
   (poolWorker 4, 1, World.init inFlightOracle)]

/-! # Proofs -/

/-! ## The rules of the two correctness predicates -/

theorem Gen.bind_eq_some {α β : Type} (g : Gen α) (f : α → Gen β) (wd : World) (b : β)
    (wd2 : World) :
    (g >>= f) wd = some (b, wd2) ↔ ∃ a wd1, g wd = some (a, wd1) ∧ f a wd1 = some (b, wd2) := by
  show (match g wd with | none => none | some (a, w1) => f a w1) = some (b, wd2) ↔ _
  cases h : g wd with
  | none => simp
  | some r =>
    obtain ⟨a, w1⟩ := r
    constructor
    · intro hf; exact ⟨a, w1, rfl, hf⟩
    · rintro ⟨a1, w2, he, hf⟩
      cases he
      exact hf

theorem Gen.pure_eq_some {α : Type} (a b : α) (wd wd1 : World) :
    (pure a : Gen α) wd = some (b, wd1) ↔ b = a ∧ wd1 = wd := by
  show some (a, wd) = some (b, wd1) ↔ _
  constructor
  · intro h; simp at h; exact ⟨h.1.symm, h.2.symm⟩
  · rintro ⟨rfl, rfl⟩; rfl

theorem Gen.ask_eq_some {α : Type} (answer : Nat → Option α) (ev : α → Event) (wd : World)
    (a : α) (wd1 : World) :
    Gen.ask answer ev wd = some (a, wd1) ↔
      answer (wd.oracle wd.pos) = some a ∧
      wd1 = { wd with pos := wd.pos + 1, trace := wd.trace ++ [ev a] } := by
  unfold Gen.ask
  cases h : answer (wd.oracle wd.pos) with
  | none => simp
  | some x =>
    constructor
    · intro he; cases he; exact ⟨rfl, rfl⟩
    · rintro ⟨he, rfl⟩; cases he; rfl

theorem Gen.Always.pure {α : Type} {a : α} {Q : α → List Event → Prop} (h : Q a []) :
    Gen.Always (pure a : Gen α) Q := by
  intro wd b wd1 hb
  rw [Gen.pure_eq_some] at hb
  obtain ⟨rfl, rfl⟩ := hb
  exact ⟨[], by simp, h⟩

theorem Gen.Always.bind {α β : Type} {g : Gen α} {f : α → Gen β} {P : α → List Event → Prop}
    {Q : β → List Event → Prop} (hg : Gen.Always g P)
    (hf : ∀ a ev1, P a ev1 → Gen.Always (f a) (fun b ev2 => Q b (ev1 ++ ev2))) :
    Gen.Always (g >>= f) Q := by
  intro wd b wd2 hb
  rw [Gen.bind_eq_some] at hb
  obtain ⟨a, wd1, h1, h2⟩ := hb
  obtain ⟨ev1, ht1, hP⟩ := hg wd a wd1 h1
  obtain ⟨ev2, ht2, hQ⟩ := hf a ev1 hP wd1 b wd2 h2
  exact ⟨ev1 ++ ev2, by rw [ht2, ht1, List.append_assoc], hQ⟩

theorem Gen.Always.mono {α : Type} {g : Gen α} {P Q : α → List Event → Prop}
    (hg : Gen.Always g P) (h : ∀ a ev, P a ev → Q a ev) : Gen.Always g Q := by
  intro wd a wd1 ha
  obtain ⟨ev, ht, hP⟩ := hg wd a wd1 ha
  exact ⟨ev, ht, h a ev hP⟩

theorem Gen.Total.tpure {α : Type} {a : α} {Q : α → List Event → Prop} (h : Q a []) :
    Gen.Total (pure a : Gen α) Q := by
  intro wd
  exact ⟨a, wd, [], rfl, by simp, h⟩

theorem Gen.Total.tbind {α β : Type} {g : Gen α} {f : α → Gen β} {P : α → List Event → Prop}
    {Q : β → List Event → Prop} (hg : Gen.Total g P)
    (hf : ∀ a ev1, P a ev1 → Gen.Total (f a) (fun b ev2 => Q b (ev1 ++ ev2))) :
    Gen.Total (g >>= f) Q := by
  intro wd
  obtain ⟨a, wd1, ev1, h1, ht1, hP⟩ := hg wd
  obtain ⟨b, wd2, ev2, h2, ht2, hQ⟩ := hf a ev1 hP wd1
  refine ⟨b, wd2, ev1 ++ ev2, ?_, by rw [ht2, ht1, List.append_assoc], hQ⟩
  rw [Gen.bind_eq_some]
  exact ⟨a, wd1, h1, h2⟩

theorem Gen.Total.tmono {α : Type} {g : Gen α} {P Q : α → List Event → Prop}
    (hg : Gen.Total g P) (h : ∀ a ev, P a ev → Q a ev) : Gen.Total g Q := by
  intro wd
  obtain ⟨a, wd1, ev, h1, ht, hP⟩ := hg wd
  exact ⟨a, wd1, ev, h1, ht, h a ev hP⟩

theorem Gen.Total.always {α : Type} {g : Gen α} {Q : α → List Event → Prop}
    (hg : Gen.Total g Q) : Gen.Always g Q := by
  intro wd a wd1 ha
  obtain ⟨b, wd2, ev, h1, ht, hQ⟩ := hg wd
  rw [h1] at ha
  cases ha
  exact ⟨ev, ht, hQ⟩

theorem Gen.Total.and {α : Type} {g : Gen α} {P Q : α → List Event → Prop}
    (hg : Gen.Total g P) (ha : Gen.Always g Q) : Gen.Total g (fun a ev => P a ev ∧ Q a ev) := by
  intro wd
  obtain ⟨a, wd1, ev, h1, ht, hP⟩ := hg wd
  obtain ⟨ev2, ht2, hQ⟩ := ha wd a wd1 h1
  have : ev2 = ev := by
    rw [ht] at ht2
    exact (List.append_cancel_left ht2).symm
  subst this
  exact ⟨a, wd1, ev2, h1, ht, hP, hQ⟩

theorem ask_always {α : Type} (answer : Nat → Option α) (ev : α → Event) :
    Gen.Always (Gen.ask answer ev) (fun a e => e = [ev a] ∧ ∃ raw, answer raw = some a) := by
  intro wd a wd1 h
  rw [Gen.ask_eq_some] at h
  obtain ⟨h1, rfl⟩ := h
  exact ⟨[ev a], rfl, rfl, _, h1⟩

theorem ask_total {α : Type} (answer : Nat → Option α) (ev : α → Event)
    (h : ∀ raw, ∃ a, answer raw = some a) :
    Gen.Total (Gen.ask answer ev) (fun a e => e = [ev a] ∧ ∃ raw, answer raw = some a) := by
  intro wd
  obtain ⟨a, ha⟩ := h (wd.oracle wd.pos)
  refine ⟨a, { wd with pos := wd.pos + 1, trace := wd.trace ++ [ev a] }, [ev a], ?_, rfl, rfl,
    _, ha⟩
  rw [Gen.ask_eq_some]
  exact ⟨ha, rfl⟩

theorem randInt_always (env : Env) (hs : env.h.Sound) (site : Site) (lo hi : Int) :
    Gen.Always (env.randInt site lo hi)
      (fun v ev => ev = [Event.randInt site lo hi v] ∧ (lo ≤ hi → lo ≤ v ∧ v ≤ hi)) := by
  refine (ask_always _ _).mono ?_
  rintro v ev ⟨rfl, raw, hraw⟩
  refine ⟨rfl, fun hr => ?_⟩
  obtain ⟨v1, hv, h2, h3⟩ := hs.randInt lo hi raw hr
  rw [hv] at hraw
  cases hraw
  exact ⟨h2, h3⟩

theorem randInt_total (env : Env) (hs : env.h.Sound) (site : Site) (lo hi : Int) (hr : lo ≤ hi) :
    Gen.Total (env.randInt site lo hi)
      (fun v ev => ev = [Event.randInt site lo hi v] ∧ lo ≤ v ∧ v ≤ hi) := by
  have ht := ask_total (env.h.RandInt lo hi) (Event.randInt site lo hi) (fun raw => by
    obtain ⟨v, hv, _⟩ := hs.randInt lo hi raw hr
    exact ⟨v, hv⟩)
  refine (ht.and (randInt_always env hs site lo hi)).tmono ?_
  rintro v ev ⟨_, rfl, hb⟩
  exact ⟨rfl, hb hr⟩

/-! ## The transaction mix -/

theorem dispatch_fst (w : Worker) (env : Env) (r : Int) :
    (w.dispatch env r).1 =
      if r ≤ 4 then TransactionType.StockLevelTrx
      else if r ≤ 8 then TransactionType.DeliveryTrx
      else if r ≤ 12 then TransactionType.OrderStatusTrx
      else if r ≤ 55 then TransactionType.PaymentTrx
      else TransactionType.NewOrderTrx := by
  unfold Worker.dispatch
  split_ifs <;> rfl

/-- C1. The switch of `Worker.Execute` on a draw `r` of 1..100 stores
`StockLevelTrx` iff `r ≤ 4`, `DeliveryTrx` iff `5 ≤ r ≤ 8`, `OrderStatusTrx` iff
`9 ≤ r ≤ 12`, `PaymentTrx` iff `13 ≤ r ≤ 55` and `NewOrderTrx` iff `56 ≤ r ≤ 100`;
of the hundred draws 4, 4, 4, 43 and 45 select the five types. -/
theorem mix_selection (w : Worker) (env : Env) (r : Int) (h1 : 1 ≤ r) (h100 : r ≤ 100) :
    ((w.dispatch env r).1 = TransactionType.StockLevelTrx ↔ r ≤ 4) ∧
    ((w.dispatch env r).1 = TransactionType.DeliveryTrx ↔ 5 ≤ r ∧ r ≤ 8) ∧
    ((w.dispatch env r).1 = TransactionType.OrderStatusTrx ↔ 9 ≤ r ∧ r ≤ 12) ∧
    ((w.dispatch env r).1 = TransactionType.PaymentTrx ↔ 13 ≤ r ∧ r ≤ 55) ∧
    ((w.dispatch env r).1 = TransactionType.NewOrderTrx ↔ 56 ≤ r ∧ r ≤ 100) ∧
    ((List.range' 1 100).map
        (fun n => (w.dispatch env (n : Int)).1)).count TransactionType.StockLevelTrx = 4 ∧
    ((List.range' 1 100).map
        (fun n => (w.dispatch env (n : Int)).1)).count TransactionType.DeliveryTrx = 4 ∧
    ((List.range' 1 100).map
        (fun n => (w.dispatch env (n : Int)).1)).count TransactionType.OrderStatusTrx = 4 ∧
    ((List.range' 1 100).map
        (fun n => (w.dispatch env (n : Int)).1)).count TransactionType.PaymentTrx = 43 ∧
    ((List.range' 1 100).map
        (fun n => (w.dispatch env (n : Int)).1)).count TransactionType.NewOrderTrx = 45 := by
  simp only [dispatch_fst]
  refine ⟨?_, ?_, ?_, ?_, ?_, ?_, ?_, ?_, ?_, ?_⟩
  · split_ifs <;> simp <;> omega
  · split_ifs <;> simp <;> omega
  · split_ifs <;> simp <;> omega
  · split_ifs <;> simp <;> omega
  · split_ifs <;> simp <;> omega
  all_goals decide

theorem mix_selection_witness :
    (1 : Int) ≤ 55 ∧ (55 : Int) ≤ 100 ∧
    ((({ threadId := 0, sc := ⟨100000, 1, 10, 3000, 900⟩ } : Worker).dispatch specEnv 55).1
      = TransactionType.PaymentTrx ↔ (13 : Int) ≤ 55 ∧ (55 : Int) ≤ 55) :=
  ⟨by decide, by decide,
    (mix_selection { threadId := 0, sc := ⟨100000, 1, 10, 3000, 900⟩ } specEnv 55
      (by decide) (by decide)).2.2.2.1⟩

/-! ## The primitives -/

theorem randIntExcluding_always (env : Env) (hs : env.h.Sound) (site : Site) (lo hi excl : Int) :
    Gen.Always (env.randIntExcluding site lo hi excl)
      (fun v ev => ev = [Event.randIntExcluding site lo hi excl v] ∧
        (lo < hi → lo ≤ excl → excl ≤ hi → lo ≤ v ∧ v ≤ hi ∧ v ≠ excl)) := by
  refine (ask_always _ _).mono ?_
  rintro v ev ⟨rfl, raw, hraw⟩
  refine ⟨rfl, fun hr h1 h2 => ?_⟩
  obtain ⟨v1, hv, hb⟩ := hs.randIntExcluding lo hi excl raw hr h1 h2
  rw [hv] at hraw
  cases hraw
  exact hb

theorem randIntExcluding_total (env : Env) (hs : env.h.Sound) (site : Site) (lo hi excl : Int)
    (hr : lo < hi) (h1 : lo ≤ excl) (h2 : excl ≤ hi) :
    Gen.Total (env.randIntExcluding site lo hi excl)
      (fun v ev => ev = [Event.randIntExcluding site lo hi excl v] ∧
        lo ≤ v ∧ v ≤ hi ∧ v ≠ excl) := by
  have ht := ask_total (env.h.RandIntExcluding lo hi excl)
    (Event.randIntExcluding site lo hi excl) (fun raw => by
      obtain ⟨v, hv, _⟩ := hs.randIntExcluding lo hi excl raw hr h1 h2
      exact ⟨v, hv⟩)
  refine (ht.and (randIntExcluding_always env hs site lo hi excl)).tmono ?_
  rintro v ev ⟨_, rfl, hb⟩
  exact ⟨rfl, hb hr h1 h2⟩

theorem randFloat_always (env : Env) (site : Site) (lo hi : F64) (d : Int) :
    Gen.Always (env.randFloat site lo hi d)
      (fun v ev => ev = [Event.randFloat site lo hi d v]) :=
  (ask_always _ _).mono (fun _ _ h => h.1)

theorem randFloat_total (env : Env) (hs : env.h.Sound) (site : Site) (lo hi : F64) (d : Int)
    (hr : F64.le lo hi = true) :
    Gen.Total (env.randFloat site lo hi d)
      (fun v ev => ev = [Event.randFloat site lo hi d v]) :=
  (ask_total (env.h.RandFloat lo hi d) (Event.randFloat site lo hi d)
    (fun raw => hs.randFloat lo hi d raw hr)).tmono (fun _ _ h => h.1)

theorem timeNow_total (site : Site) :
    Gen.Total (timeNow site) (fun t ev => ev = [Event.timeNow site t]) :=
  (ask_total (fun t => some t) (Event.timeNow site) (fun raw => ⟨raw, rfl⟩)).tmono
    (fun _ _ h => h.1)

theorem exec_total (env : Env) (call : ExecCall) :
    Gen.Total (env.exec call) (fun st ev => ev = [Event.exec call st]) :=
  (ask_total (fun raw => some (env.ex call raw)) (Event.exec call)
    (fun _ => ⟨_, rfl⟩)).tmono (fun _ _ h => h.1)

theorem emit_total (e : Event) : Gen.Total (Gen.emit e) (fun _ ev => ev = [e]) := by
  intro wd
  exact ⟨(), { wd with trace := wd.trace ++ [e] }, [e], rfl, rfl, rfl⟩

theorem syllable_always (env : Env) (i : Int) :
    Gen.Always (env.syllable i)
      (fun s ev => ev = [Event.index i] ∧ 0 ≤ i ∧ env.k.SYLLABES.get? i.toNat = some s) := by
  intro wd s wd1 h
  unfold Env.syllable at h
  split_ifs at h with h0
  cases hg : env.k.SYLLABES.get? i.toNat with
  | none => rw [hg] at h; simp at h
  | some t =>
    rw [hg] at h
    simp only [Option.some.injEq, Prod.mk.injEq] at h
    obtain ⟨rfl, rfl⟩ := h
    exact ⟨[Event.index i], rfl, rfl, h0, rfl⟩

theorem syllable_total (env : Env) (i : Int) (h0 : 0 ≤ i)
    (hi : i.toNat < env.k.SYLLABES.length) :
    Gen.Total (env.syllable i)
      (fun s ev => ev = [Event.index i] ∧ 0 ≤ i ∧ env.k.SYLLABES.get? i.toNat = some s) := by
  intro wd
  refine ⟨env.k.SYLLABES.get ⟨i.toNat, hi⟩, { wd with trace := wd.trace ++ [Event.index i] },
    [Event.index i], ?_, rfl, rfl, h0, List.get?_eq_get hi⟩
  unfold Env.syllable
  rw [if_pos h0, List.get?_eq_get hi]

/-! ## The customer of `DoOrderStatus` and `DoPayment` -/

theorem surname_always (env : Env) (hs : env.h.Sound) :
    Gen.Always (surname env) (SurnameRun env) := by
  unfold surname
  refine Gen.Always.bind (randInt_always env hs Site.sylA 0 256) ?_
  rintro a _ ⟨rfl, ha⟩
  refine Gen.Always.bind (randInt_always env hs Site.sylB 0 1000) ?_
  rintro b _ ⟨rfl, hb⟩
  refine Gen.Always.bind (randInt_always env hs Site.sylC 0 256) ?_
  rintro c _ ⟨rfl, hc⟩
  refine Gen.Always.bind (syllable_always env _) ?_
  rintro s1 _ ⟨rfl, h1, g1⟩
  refine Gen.Always.bind (syllable_always env _) ?_
  rintro s2 _ ⟨rfl, h2, g2⟩
  refine Gen.Always.bind (syllable_always env _) ?_
  rintro s3 _ ⟨rfl, h3, g3⟩
  refine Gen.Always.pure ?_
  exact ⟨a, b, c, s1, s2, s3, (ha (by decide)).1, (ha (by decide)).2, (hb (by decide)).1,
    (hb (by decide)).2, (hc (by decide)).1, (hc (by decide)).2, h1, g1, h2, g2, h3, g3, rfl, rfl⟩

theorem customer_always (env : Env) (hs : env.h.Sound) (w : Worker) :
    Gen.Always (customer env w) (fun p ev => CustomerRun env w p.1 p.2 ev) := by
  unfold customer
  refine Gen.Always.bind (randInt_always env hs Site.byName 1 100) ?_
  rintro r _ ⟨rfl, hr⟩
  have hr1 := hr (by decide)
  by_cases h60 : r ≤ 60
  · simp only [if_pos h60]
    refine Gen.Always.bind (surname_always env hs) ?_
    intro s ev1 hrun
    refine Gen.Always.pure ?_
    exact ⟨r, hr1.1, hr1.2, Or.inl ⟨h60, rfl, ev1, hrun, by simp⟩⟩
  · simp only [if_neg h60]
    refine Gen.Always.bind (randInt_always env hs Site.cId 1 w.sc.CustomersPerDistrict) ?_
    rintro cId _ ⟨rfl, hc⟩
    refine Gen.Always.pure ?_
    exact ⟨r, hr1.1, hr1.2, Or.inr ⟨by omega, rfl, hc, by simp⟩⟩

/-! ## The four generators without a loop -/

theorem doStockLevelTrx_always (env : Env) (hs : env.h.Sound) (w : Worker) :
    Gen.Always (w.DoStockLevelTrx env) (StockLevelRun env w) := by
  unfold Worker.DoStockLevelTrx
  refine Gen.Always.bind (randInt_always env hs Site.wId 1 _) ?_
  rintro wId _ ⟨rfl, hw⟩
  refine Gen.Always.bind (randInt_always env hs Site.dId 1 _) ?_
  rintro dId _ ⟨rfl, hd⟩
  refine Gen.Always.bind (randInt_always env hs Site.threshold _ _) ?_
  rintro th _ ⟨rfl, ht⟩
  refine (exec_total env _).always.mono ?_
  rintro st _ rfl
  exact ⟨wId, dId, th, hw, hd, ht, rfl⟩

theorem doDelivery_always (env : Env) (hs : env.h.Sound) (w : Worker) :
    Gen.Always (w.DoDelivery env) (DeliveryRun env w) := by
  unfold Worker.DoDelivery
  refine Gen.Always.bind (randInt_always env hs Site.wId 1 _) ?_
  rintro wId _ ⟨rfl, hw⟩
  refine Gen.Always.bind (randInt_always env hs Site.carrier _ _) ?_
  rintro car _ ⟨rfl, hc⟩
  refine Gen.Always.bind (timeNow_total Site.deliveryD).always ?_
  rintro t _ rfl
  refine (exec_total env _).always.mono ?_
  rintro st _ rfl
  exact ⟨wId, car, t, hw, hc, rfl⟩

theorem doOrderStatus_always (env : Env) (hs : env.h.Sound) (w : Worker) :
    Gen.Always (w.DoOrderStatus env) (OrderStatusRun env w) := by
  unfold Worker.DoOrderStatus
  refine Gen.Always.bind (randInt_always env hs Site.wId 1 _) ?_
  rintro wId _ ⟨rfl, hw⟩
  refine Gen.Always.bind (randInt_always env hs Site.dId 1 _) ?_
  rintro dId _ ⟨rfl, hd⟩
  refine Gen.Always.bind (customer_always env hs w) ?_
  rintro ⟨cId, cLast⟩ evc hc
  refine (exec_total env _).always.mono ?_
  rintro st _ rfl
  exact ⟨wId, dId, cId, cLast, evc, hw, hd, hc, by simp⟩

theorem paymentIsLocal_always (env : Env) (hs : env.h.Sound) (w : Worker) :
    Gen.Always (paymentIsLocal env w) (fun b ev =>
      (w.sc.Warehouses = 1 ∧ b = true ∧ ev = []) ∨
      (w.sc.Warehouses ≠ 1 ∧ ∃ r, 1 ≤ r ∧ r ≤ 100 ∧ b = decide (r ≤ 85) ∧
        ev = [Event.randInt Site.remote 1 100 r])) := by
  unfold paymentIsLocal
  by_cases h1 : w.sc.Warehouses = 1
  · rw [if_pos h1]
    exact Gen.Always.pure (Or.inl ⟨h1, rfl, rfl⟩)
  · rw [if_neg h1]
    refine Gen.Always.bind (randInt_always env hs Site.remote 1 100) ?_
    rintro r _ ⟨rfl, hr⟩
    refine Gen.Always.pure (Or.inr ⟨h1, r, (hr (by decide)).1, (hr (by decide)).2, rfl, by simp⟩)

theorem doPayment_always (env : Env) (hs : env.h.Sound) (w : Worker) :
    Gen.Always (w.DoPayment env) (PaymentRun env w) := by
  unfold Worker.DoPayment
  refine Gen.Always.bind (randInt_always env hs Site.wId 1 _) ?_
  rintro wId _ ⟨rfl, hw⟩
  refine Gen.Always.bind (randInt_always env hs Site.dId 1 _) ?_
  rintro dId _ ⟨rfl, hd⟩
  refine Gen.Always.bind (randFloat_always env Site.hAmount _ _ _) ?_
  rintro hAmount _ rfl
  refine Gen.Always.bind (timeNow_total Site.hDate).always ?_
  rintro hDate _ rfl
  refine Gen.Always.bind (paymentIsLocal_always env hs w) ?_
  intro isLocal evl hl
  refine Gen.Always.bind (P := fun p evp => PaymentPlaceRun w wId dId p.1 p.2 (evl ++ evp))
    ?_ ?_
  · rcases hl with ⟨h1, rfl, rfl⟩ | ⟨h1, r, hr1, hr2, rfl, rfl⟩
    · simp only [if_true]
      exact Gen.Always.pure (Or.inl ⟨h1, rfl, rfl, rfl⟩)
    · by_cases h85 : r ≤ 85
      · simp only [h85, decide_True, if_true]
        exact Gen.Always.pure (Or.inr ⟨h1, r, hr1, hr2, Or.inl ⟨h85, rfl, rfl, rfl⟩⟩)
      · simp only [h85, decide_False, Bool.false_eq_true, if_false]
        refine Gen.Always.bind (randIntExcluding_always env hs Site.cWId 1 _ wId) ?_
        rintro cWId _ ⟨rfl, hx⟩
        refine Gen.Always.bind (randInt_always env hs Site.cDId 1 _) ?_
        rintro cDId _ ⟨rfl, hcd⟩
        exact Gen.Always.pure (Or.inr ⟨h1, r, hr1, hr2, Or.inr ⟨by omega, hx, hcd, rfl⟩⟩)
  · rintro ⟨cWId, cDId⟩ evp hp
    refine Gen.Always.bind (customer_always env hs w) ?_
    rintro ⟨cId, cLast⟩ evc hc
    refine (exec_total env _).always.mono ?_
    rintro st _ rfl
    exact ⟨wId, dId, hAmount, hDate, cWId, cDId, cId, cLast, evl ++ evp, evc, hw, hd, hp, hc,
      by simp⟩

/-! ## The model of the helpers meets their contract -/

theorem specHelpers_sound : specHelpers.Sound where
  randInt := by
    intro lo hi raw hr
    refine ⟨lo + (raw : Int) % (hi - lo + 1), ?_, ?_, ?_⟩
    · simp [specHelpers, hr]
    · have := Int.emod_nonneg (raw : Int) (show hi - lo + 1 ≠ 0 by omega)
      omega
    · have := Int.emod_lt_of_pos (raw : Int) (show 0 < hi - lo + 1 by omega)
      omega
  randIntExcluding := by
    intro lo hi excl raw hr h1 h2
    have hn := Int.emod_nonneg (raw : Int) (show hi - lo ≠ 0 by omega)
    have hl := Int.emod_lt_of_pos (raw : Int) (show 0 < hi - lo by omega)
    refine ⟨if excl ≤ lo + (raw : Int) % (hi - lo) then lo + (raw : Int) % (hi - lo) + 1
      else lo + (raw : Int) % (hi - lo), ?_, ?_, ?_, ?_⟩
    · simp [specHelpers, hr]
    · split_ifs <;> omega
    · split_ifs <;> omega
    · split_ifs <;> omega
  randFloat := by
    intro lo hi d raw hr
    exact ⟨lo, by simp [specHelpers, hr]⟩

/-! ## Facts about the customer -/

theorem string_append_ne_empty (s t : String) (h : s ≠ "") : s ++ t ≠ "" := by
  intro he
  apply h
  have hd := congrArg String.data he
  rw [String.data_append] at hd
  have : s.data = [] := (List.append_eq_nil.mp hd).1
  exact String.ext this

theorem surnameRun_facts (env : Env) (s : String) (ev : List Event)
    (hsyl : ∀ t ∈ env.k.SYLLABES, t ≠ "") (h : SurnameRun env s ev) :
    s ≠ "" ∧ execCalls ev = [] ∧ exclusions ev = [] ∧ drawsAt Site.byName ev = [] ∧
      drawsAt Site.remote ev = [] := by
  obtain ⟨a, b, c, s1, s2, s3, -, -, -, -, -, -, -, g1, -, -, -, -, rfl, rfl⟩ := h
  refine ⟨?_, by simp [execCalls, surnameEvents, Event.call?],
    by simp [exclusions, surnameEvents, Event.isExclusion],
    by simp [drawsAt, surnameEvents, Event.draw?],
    by simp [drawsAt, surnameEvents, Event.draw?]⟩
  rw [String.append_assoc]
  exact string_append_ne_empty _ _ (hsyl s1 (List.get?_mem g1))

theorem customerRun_facts (env : Env) (w : Worker) (cId : Int) (cLast : String)
    (ev : List Event) (hc : 1 ≤ w.sc.CustomersPerDistrict)
    (hsyl : ∀ t ∈ env.k.SYLLABES, t ≠ "") (h : CustomerRun env w cId cLast ev) :
    ∃ r, drawsAt Site.byName ev = [r] ∧ 1 ≤ r ∧ r ≤ 100 ∧ (r ≤ 60 ↔ cLast ≠ "") ∧
      ((cId = 0 ∧ cLast ≠ "") ∨
       (1 ≤ cId ∧ cId ≤ w.sc.CustomersPerDistrict ∧ cLast = "")) := by
  obtain ⟨r, hr1, hr2, hcase⟩ := h
  rcases hcase with ⟨h60, rfl, ev1, hrun, rfl⟩ | ⟨h60, rfl, hb, rfl⟩
  · obtain ⟨hne, -, -, hd, -⟩ := surnameRun_facts env cLast ev1 hsyl hrun
    refine ⟨r, ?_, hr1, hr2, ⟨fun _ => hne, fun _ => h60⟩, Or.inl ⟨rfl, hne⟩⟩
    have : drawsAt Site.byName (Event.randInt Site.byName 1 100 r :: ev1) =
        r :: drawsAt Site.byName ev1 := by
      simp [drawsAt, Event.draw?]
    rw [this, hd]
  · refine ⟨r, by simp [drawsAt, Event.draw?], hr1, hr2, ⟨fun h => ?_, fun h => ?_⟩,
      Or.inr ⟨(hb hc).1, (hb hc).2, rfl⟩⟩
    · omega
    · exact absurd rfl h

theorem customerRun_quiet (env : Env) (w : Worker) (cId : Int) (cLast : String)
    (ev : List Event) (h : CustomerRun env w cId cLast ev) :
    execCalls ev = [] ∧ exclusions ev = [] ∧ drawsAt Site.remote ev = [] := by
  obtain ⟨r, -, -, hcase⟩ := h
  rcases hcase with ⟨-, -, ev1, hrun, rfl⟩ | ⟨-, -, -, rfl⟩
  · obtain ⟨a, b, c, s1, s2, s3, -, -, -, -, -, -, -, -, -, -, -, -, -, rfl⟩ := hrun
    simp [execCalls, exclusions, drawsAt, surnameEvents, Event.call?, Event.isExclusion,
      Event.draw?]
  · simp [execCalls, exclusions, drawsAt, Event.call?, Event.isExclusion, Event.draw?]

theorem paymentPlaceRun_quiet (w : Worker) (wId dId cWId cDId : Int) (ev : List Event)
    (h : PaymentPlaceRun w wId dId cWId cDId ev) :
    execCalls ev = [] ∧ drawsAt Site.byName ev = [] := by
  rcases h with ⟨-, -, -, rfl⟩ | ⟨-, r, -, -, ⟨-, -, -, rfl⟩ | ⟨-, -, -, rfl⟩⟩ <;>
    simp [execCalls, drawsAt, Event.call?, Event.draw?]

/-! ## `DoNewOrder` -/

theorem lineIsRemote_always (env : Env) (hs : env.h.Sound) (w : Worker) (i : Int) :
    Gen.Always (lineIsRemote env w i) (fun b ev =>
      (¬ 1 < w.sc.Warehouses ∧ b = false ∧ ev = []) ∨
      (1 < w.sc.Warehouses ∧ ∃ r, 1 ≤ r ∧ r ≤ 100 ∧ b = decide (r = 42) ∧
        ev = [Event.randInt (Site.iWRemote i) 1 100 r])) := by
  unfold lineIsRemote
  by_cases h1 : 1 < w.sc.Warehouses
  · rw [if_pos h1]
    refine Gen.Always.bind (randInt_always env hs (Site.iWRemote i) 1 100) ?_
    rintro r _ ⟨rfl, hr⟩
    exact Gen.Always.pure (Or.inr ⟨h1, r, (hr (by decide)).1, (hr (by decide)).2, rfl, by simp⟩)
  · rw [if_neg h1]
    exact Gen.Always.pure (Or.inl ⟨h1, rfl, rfl⟩)

theorem orderLines_always (env : Env) (hs : env.h.Sound) (w : Worker) (wId olCnt : Int)
    (rollback : Bool) (n : Nat) :
    ∀ (i : Int) (iIds iWIds iQtys : List Int),
      Gen.Always (orderLines env w wId olCnt rollback n i iIds iWIds iQtys) (fun p ev =>
        ∃ a b c, LinesRun env w wId olCnt rollback n i a b c ev ∧
          p = (iIds ++ a, iWIds ++ b, iQtys ++ c)) := by
  induction n with
  | zero =>
    intro i iIds iWIds iQtys
    unfold orderLines
    exact Gen.Always.pure ⟨[], [], [], ⟨rfl, rfl, rfl, rfl⟩, by simp⟩
  | succ n ih =>
    intro i iIds iWIds iQtys
    unfold orderLines
    refine Gen.Always.bind
      (P := fun l evI => ∃ iId, LineItemRun w olCnt rollback i iId evI ∧ l = iIds ++ [iId]) ?_ ?_
    · by_cases hlast : rollback = true ∧ i + 1 = olCnt
      · rw [if_pos hlast]
        exact Gen.Always.pure ⟨_, Or.inl ⟨hlast.1, hlast.2, rfl, rfl⟩, rfl⟩
      · rw [if_neg hlast]
        refine Gen.Always.bind (randInt_always env hs (Site.iId i) 1 _) ?_
        rintro v _ ⟨rfl, hv⟩
        exact Gen.Always.pure ⟨v, Or.inr ⟨hlast, hv, rfl⟩, rfl⟩
    rintro _ evI ⟨iId, hI, rfl⟩
    refine Gen.Always.bind (lineIsRemote_always env hs w i) ?_
    intro isRemote evr hr
    refine Gen.Always.bind
      (P := fun l evx => ∃ iWId, LineWarehouseRun w wId i iWId (evr ++ evx) ∧
        l = iWIds ++ [iWId]) ?_ ?_
    · rcases hr with ⟨h1, rfl, rfl⟩ | ⟨h1, r, hr1, hr2, rfl, rfl⟩
      · simp only [Bool.false_eq_true, if_false]
        exact Gen.Always.pure ⟨wId, Or.inl ⟨h1, rfl, rfl⟩, rfl⟩
      · by_cases h42 : r = 42
        · simp only [h42, decide_True, if_true]
          refine Gen.Always.bind (randIntExcluding_always env hs (Site.iWId i) 1 _ wId) ?_
          rintro v _ ⟨rfl, hv⟩
          refine Gen.Always.pure ⟨v, Or.inr ⟨h1, 42, by decide, by decide, Or.inr ⟨rfl, ?_, rfl⟩⟩,
            rfl⟩
          intro ha hb
          exact hv h1 ha hb
        · simp only [h42, decide_False, Bool.false_eq_true, if_false]
          exact Gen.Always.pure ⟨wId, Or.inr ⟨h1, r, hr1, hr2, Or.inl ⟨h42, rfl, by simp⟩⟩, rfl⟩
    rintro _ evx ⟨iWId, hWr, rfl⟩
    refine Gen.Always.bind (randInt_always env hs (Site.iQty i) 1 _) ?_
    rintro q _ ⟨rfl, hq⟩
    refine (ih (i + 1) _ _ _).mono ?_
    rintro p ev2 ⟨a, b, c, hrest, rfl⟩
    refine ⟨iId :: a, iWId :: b, q :: c, ?_, by simp⟩
    exact ⟨iId, iWId, q, _, a, b, c, ev2, ⟨evI, evr ++ evx, hI, hWr, hq, rfl⟩, hrest, rfl, rfl,
      rfl, by simp⟩

theorem doNewOrder_always (env : Env) (hs : env.h.Sound) (w : Worker) :
    Gen.Always (w.DoNewOrder env) (NewOrderRun env w) := by
  unfold Worker.DoNewOrder
  refine Gen.Always.bind (randInt_always env hs Site.wId 1 _) ?_
  rintro wId _ ⟨rfl, hw⟩
  refine Gen.Always.bind (randInt_always env hs Site.dId 1 _) ?_
  rintro dId _ ⟨rfl, hd⟩
  refine Gen.Always.bind (randInt_always env hs Site.cId 1 _) ?_
  rintro cId _ ⟨rfl, hc⟩
  refine Gen.Always.bind (timeNow_total Site.oEntryD).always ?_
  rintro t _ rfl
  refine Gen.Always.bind (randInt_always env hs Site.olCnt _ _) ?_
  rintro olCnt _ ⟨rfl, ho⟩
  refine Gen.Always.bind (randInt_always env hs Site.rollback 1 100) ?_
  rintro r _ ⟨rfl, hr⟩
  refine Gen.Always.bind (orderLines_always env hs w wId olCnt _ _ 0 [] [] []) ?_
  rintro _ evl ⟨a, b, c, hl, rfl⟩
  refine (exec_total env _).always.mono ?_
  rintro st _ rfl
  exact ⟨wId, dId, cId, t, olCnt, r, a, b, c, evl, hw, hd, hc, ho, (hr (by decide)).1,
    (hr (by decide)).2, hl, by simp⟩

theorem drawsAt_append (site : Site) (e1 e2 : List Event) :
    drawsAt site (e1 ++ e2) = drawsAt site e1 ++ drawsAt site e2 := by
  unfold drawsAt
  exact List.filterMap_append _ _ _

theorem execCalls_append (e1 e2 : List Event) :
    execCalls (e1 ++ e2) = execCalls e1 ++ execCalls e2 := by
  unfold execCalls
  exact List.filterMap_append _ _ _

theorem exclusions_append (e1 e2 : List Event) :
    exclusions (e1 ++ e2) = exclusions e1 ++ exclusions e2 := by
  unfold exclusions
  exact List.filter_append _ _

theorem lineRun_quiet (env : Env) (w : Worker) (wId olCnt : Int) (rollback : Bool)
    (i iId iWId iQty : Int) (ev : List Event)
    (h : LineRun env w wId olCnt rollback i iId iWId iQty ev) :
    execCalls ev = [] ∧ drawsAt Site.rollback ev = [] ∧ drawsAt Site.olCnt ev = [] ∧
      (¬ 1 < w.sc.Warehouses → exclusions ev = []) ∧
      (∀ k, k ≠ i → drawsAt (Site.iWRemote k) ev = []) := by
  obtain ⟨evI, evW, hI, hW, -, rfl⟩ := h
  have hI' : evI = [] ∨ ∃ v, evI = [Event.randInt (Site.iId i) 1 w.sc.Items v] := by
    rcases hI with ⟨-, -, -, rfl⟩ | ⟨-, -, rfl⟩
    · exact Or.inl rfl
    · exact Or.inr ⟨_, rfl⟩
  have hW' : (evW = [] ∧ ¬ 1 < w.sc.Warehouses) ∨
      (1 < w.sc.Warehouses ∧ ∃ r, evW = [Event.randInt (Site.iWRemote i) 1 100 r] ∨
        ∃ v, evW = [Event.randInt (Site.iWRemote i) 1 100 r,
          Event.randIntExcluding (Site.iWId i) 1 w.sc.Warehouses wId v]) := by
    rcases hW with ⟨h1, -, rfl⟩ | ⟨h1, r, -, -, ⟨-, -, rfl⟩ | ⟨-, -, rfl⟩⟩
    · exact Or.inl ⟨rfl, h1⟩
    · exact Or.inr ⟨h1, r, Or.inl rfl⟩
    · exact Or.inr ⟨h1, r, Or.inr ⟨_, rfl⟩⟩
  rcases hI' with rfl | ⟨v, rfl⟩ <;>
    rcases hW' with ⟨rfl, h1⟩ | ⟨h1, r, rfl | ⟨x, rfl⟩⟩ <;>
    refine ⟨?_, ?_, ?_, ?_, ?_⟩ <;>
    first
      | (intro k hk
         have hk' : ¬ i = k := fun h => hk h.symm
         simp [drawsAt, Event.draw?, hk'])
      | (intro hn; exact absurd h1 hn)
      | simp [execCalls, drawsAt, exclusions, Event.call?, Event.draw?, Event.isExclusion]

theorem linesRun_quiet (env : Env) (w : Worker) (wId olCnt : Int) (rollback : Bool) (n : Nat) :
    ∀ (i : Int) (a b c : List Int) (ev : List Event),
      LinesRun env w wId olCnt rollback n i a b c ev →
      a.length = n ∧ b.length = n ∧ c.length = n ∧
      execCalls ev = [] ∧ drawsAt Site.rollback ev = [] ∧ drawsAt Site.olCnt ev = [] ∧
      (¬ 1 < w.sc.Warehouses → exclusions ev = []) ∧
      (∀ k, k < i → drawsAt (Site.iWRemote k) ev = []) := by
  induction n with
  | zero =>
    rintro i a b c ev ⟨rfl, rfl, rfl, rfl⟩
    simp [execCalls, drawsAt, exclusions]
  | succ n ih =>
    rintro i a b c ev ⟨iId, iWId, iQty, ev1, a1, b1, c1, ev2, h1, h2, rfl, rfl, rfl, rfl⟩
    obtain ⟨la, lb, lc, q1, q2, q3, q4, q5⟩ := ih (i + 1) a1 b1 c1 ev2 h2
    obtain ⟨p1, p2, p3, p4, p5⟩ := lineRun_quiet env w wId olCnt rollback i iId iWId iQty ev1 h1
    refine ⟨by simp [la], by simp [lb], by simp [lc], ?_, ?_, ?_, ?_, ?_⟩
    · rw [execCalls_append, p1, q1]; rfl
    · rw [drawsAt_append, p2, q2]; rfl
    · rw [drawsAt_append, p3, q3]; rfl
    · intro hn; rw [exclusions_append, p4 hn, q4 hn]; rfl
    · intro k hk
      rw [drawsAt_append, p5 k (by omega), q5 k (by omega)]; rfl

theorem goAdd_one (x : Int) (h0 : -(2 : Int) ^ 63 ≤ x) (h : x < 2 ^ 63 - 1) : goAdd x 1 = x + 1 := by
  unfold goAdd wrapInt64
  have e : (x + 1 + 2 ^ 63) % 2 ^ 64 = x + 1 + 2 ^ 63 :=
    Int.emod_eq_of_lt (by omega) (by omega)
  rw [e]
  omega

theorem goAdd_one_invalid (x : Int) (h1 : 1 ≤ x) (h : x < 2 ^ 63) :
    ¬ (1 ≤ goAdd x 1 ∧ goAdd x 1 ≤ x) := by
  by_cases hx : x < 2 ^ 63 - 1
  · rw [goAdd_one x (by omega) hx]
    omega
  · have e : x = 2 ^ 63 - 1 := by omega
    subst e
    have : goAdd (2 ^ 63 - 1) 1 = -(2 : Int) ^ 63 := by decide
    rw [this]
    omega

theorem linesRun_items (env : Env) (w : Worker) (wId olCnt : Int) (rollback : Bool)
    (hItems : 1 ≤ w.sc.Items) (n : Nat) :
    ∀ (i : Int) (a b c : List Int) (ev : List Event), i + n = olCnt →
      LinesRun env w wId olCnt rollback n i a b c ev →
      (rollback = false → ∀ x ∈ a, 1 ≤ x ∧ x ≤ w.sc.Items) ∧
      (rollback = true → 0 < n →
        ∃ init, a = init ++ [goAdd w.sc.Items 1] ∧ ∀ x ∈ init, 1 ≤ x ∧ x ≤ w.sc.Items) := by
  induction n with
  | zero =>
    rintro i a b c ev - ⟨rfl, rfl, rfl, rfl⟩
    exact ⟨fun _ x hx => by simp at hx, fun _ h => absurd h (by decide)⟩
  | succ n ih =>
    rintro i a b c ev hin ⟨iId, iWId, iQty, ev1, a1, b1, c1, ev2, h1, h2, rfl, rfl, rfl, rfl⟩
    obtain ⟨q1, q2⟩ := ih (i + 1) a1 b1 c1 ev2 (by push_cast at hin ⊢; omega) h2
    obtain ⟨la, -⟩ := linesRun_quiet env w wId olCnt rollback n (i + 1) a1 b1 c1 ev2 h2
    obtain ⟨evI, evW, hI, -, -, -⟩ := h1
    constructor
    · intro hr x hx
      rcases hI with ⟨ht, -⟩ | ⟨-, hb, -⟩
      · rw [hr] at ht; exact absurd ht (by decide)
      · rcases List.mem_cons.mp hx with rfl | hx
        · exact hb hItems
        · exact q1 hr x hx
    · intro hr _
      rcases hI with ⟨-, hlast, rfl, -⟩ | ⟨hnl, hb, -⟩
      · have hn0 : n = 0 := by push_cast at hin; omega
        subst hn0
        have : a1 = [] := List.length_eq_zero.mp la
        subst this
        exact ⟨[], rfl, fun x hx => by simp at hx⟩
      · have hn0 : 0 < n := by
          rcases Nat.eq_zero_or_pos n with h0 | h0
          · subst h0
            exact absurd ⟨hr, by push_cast at hin; omega⟩ hnl
          · exact h0
        obtain ⟨init, rfl, hinit⟩ := q2 hr hn0
        refine ⟨iId :: init, rfl, ?_⟩
        intro x hx
        rcases List.mem_cons.mp hx with rfl | hx
        · exact hb hItems
        · exact hinit x hx

theorem lineRun_supply (env : Env) (w : Worker) (wId olCnt : Int) (rollback : Bool)
    (i iId iWId iQty : Int) (ev : List Event)
    (h : LineRun env w wId olCnt rollback i iId iWId iQty ev) :
    (1 < w.sc.Warehouses → ∃ r, drawsAt (Site.iWRemote i) ev = [r] ∧ 1 ≤ r ∧ r ≤ 100 ∧
      (r = 42 → 1 ≤ wId → wId ≤ w.sc.Warehouses →
        1 ≤ iWId ∧ iWId ≤ w.sc.Warehouses ∧ iWId ≠ wId) ∧
      (r ≠ 42 → iWId = wId)) ∧
    (¬ 1 < w.sc.Warehouses → drawsAt (Site.iWRemote i) ev = [] ∧ iWId = wId) := by
  obtain ⟨evI, evW, hI, hW, -, rfl⟩ := h
  have hI' : drawsAt (Site.iWRemote i) evI = [] := by
    rcases hI with ⟨-, -, -, rfl⟩ | ⟨-, -, rfl⟩ <;> simp [drawsAt, Event.draw?]
  simp only [drawsAt_append, hI']
  rcases hW with ⟨h1, rfl, rfl⟩ | ⟨h1, r, hr1, hr2, ⟨h42, rfl, rfl⟩ | ⟨h42, hb, rfl⟩⟩
  · exact ⟨fun h => absurd h h1, fun _ => ⟨by simp [drawsAt, Event.draw?], rfl⟩⟩
  · refine ⟨fun _ => ⟨r, by simp [drawsAt, Event.draw?], hr1, hr2, fun h => absurd h h42,
      fun _ => rfl⟩, fun h => absurd h1 h⟩
  · refine ⟨fun _ => ⟨r, by simp [drawsAt, Event.draw?], hr1, hr2, fun _ => hb,
      fun h => absurd h42 h⟩, fun h => absurd h1 h⟩

theorem linesRun_supply (env : Env) (w : Worker) (wId olCnt : Int) (rollback : Bool) (n : Nat) :
    ∀ (i : Int) (a b c : List Int) (ev : List Event),
      LinesRun env w wId olCnt rollback n i a b c ev →
      ∀ (j : Nat) (x : Int), b.get? j = some x →
        (1 < w.sc.Warehouses → ∃ r, drawsAt (Site.iWRemote (i + j)) ev = [r] ∧ 1 ≤ r ∧
          r ≤ 100 ∧
          (r = 42 → 1 ≤ wId → wId ≤ w.sc.Warehouses →
            1 ≤ x ∧ x ≤ w.sc.Warehouses ∧ x ≠ wId) ∧
          (r ≠ 42 → x = wId)) ∧
        (¬ 1 < w.sc.Warehouses → drawsAt (Site.iWRemote (i + j)) ev = [] ∧ x = wId) := by
  induction n with
  | zero =>
    rintro i a b c ev ⟨rfl, rfl, rfl, rfl⟩ j x hx
    simp at hx
  | succ n ih =>
    rintro i a b c ev ⟨iId, iWId, iQty, ev1, a1, b1, c1, ev2, h1, h2, rfl, rfl, rfl, rfl⟩ j x hx
    obtain ⟨-, -, -, -, -, -, -, q5⟩ := linesRun_quiet env w wId olCnt rollback n (i + 1) a1 b1 c1
      ev2 h2
    obtain ⟨-, -, -, -, p5⟩ := lineRun_quiet env w wId olCnt rollback i iId iWId iQty ev1 h1
    cases j with
    | zero =>
      simp only [List.get?_cons_zero, Option.some.injEq] at hx
      subst hx
      have e : i + ((0 : Nat) : Int) = i := by simp
      rw [e]
      simp only [drawsAt_append, q5 i (by omega), List.append_nil]
      exact lineRun_supply env w wId olCnt rollback i iId iWId iQty ev1 h1
    | succ j =>
      simp only [List.get?_cons_succ] at hx
      have e : i + ((j + 1 : Nat) : Int) = i + 1 + (j : Int) := by push_cast; omega
      rw [e]
      simp only [drawsAt_append, p5 (i + 1 + j) (by omega), List.nil_append]
      exact ih (i + 1) a1 b1 c1 ev2 h2 j x hx

/-! ## The generators always reach the executor -/

theorem sylN_range (a b c : Int) (ha : 0 ≤ a) (ha2 : a ≤ 256) (hb : 0 ≤ b) (hb2 : b ≤ 1000)
    (hc : 0 ≤ c) (hc2 : c ≤ 256) :
    sylN a b c = (Int.lor a b + c) % 1000 ∧ 0 ≤ sylN a b c ∧ sylN a b c ≤ 999 ∧
      0 ≤ Int.lor a b ∧ Int.lor a b ≤ 1023 := by
  obtain ⟨m, rfl⟩ := Int.eq_ofNat_of_zero_le ha
  obtain ⟨n, rfl⟩ := Int.eq_ofNat_of_zero_le hb
  have hm : m < 2 ^ 10 := by omega
  have hn : n < 2 ^ 10 := by omega
  have hor : m ||| n < 2 ^ 10 := Nat.or_lt_two_pow hm hn
  have e : Int.lor (m : Int) (n : Int) = ((m ||| n : Nat) : Int) := rfl
  have hl0 : 0 ≤ Int.lor (m : Int) (n : Int) := by rw [e]; exact Int.ofNat_nonneg _
  have hl1 : Int.lor (m : Int) (n : Int) ≤ 1023 := by rw [e]; omega
  have hadd : goAdd (Int.lor (m : Int) (n : Int)) c = Int.lor (m : Int) (n : Int) + c := by
    unfold goAdd wrapInt64
    rw [Int.emod_eq_of_lt (by omega) (by omega)]
    omega
  have hs : sylN (m : Int) (n : Int) c = (Int.lor (m : Int) (n : Int) + c) % 1000 := by
    unfold sylN
    rw [hadd, Int.tmod_eq_emod (by omega) (by decide)]
  refine ⟨hs, ?_, ?_, hl0, hl1⟩
  · rw [hs]; omega
  · rw [hs]; omega

theorem digits_range (n : Int) (h0 : 0 ≤ n) (h1 : n ≤ 999) :
    (0 ≤ Int.tdiv n 100 ∧ Int.tdiv n 100 ≤ 9) ∧
    (0 ≤ Int.tmod (Int.tdiv n 10) 10 ∧ Int.tmod (Int.tdiv n 10) 10 ≤ 9) ∧
    (0 ≤ Int.tmod n 10 ∧ Int.tmod n 10 ≤ 9) ∧
    Int.tdiv n 100 = n / 100 ∧ Int.tmod (Int.tdiv n 10) 10 = n / 10 % 10 ∧
    Int.tmod n 10 = n % 10 := by
  have e1 : Int.tdiv n 100 = n / 100 := Int.tdiv_eq_ediv h0 (by decide)
  have e2 : Int.tdiv n 10 = n / 10 := Int.tdiv_eq_ediv h0 (by decide)
  have e3 : Int.tmod n 10 = n % 10 := Int.tmod_eq_emod h0 (by decide)
  have e4 : Int.tmod (n / 10) 10 = n / 10 % 10 := Int.tmod_eq_emod (by omega) (by decide)
  rw [e1, e2, e3, e4]
  omega

theorem surname_total (env : Env) (hs : env.h.Sound) (hlen : env.k.SYLLABES.length = 10) :
    Gen.Total (surname env) (fun _ _ => True) := by
  unfold surname
  refine Gen.Total.tbind (randInt_total env hs Site.sylA 0 256 (by decide)) ?_
  rintro a _ ⟨-, ha, ha2⟩
  refine Gen.Total.tbind (randInt_total env hs Site.sylB 0 1000 (by decide)) ?_
  rintro b _ ⟨-, hb, hb2⟩
  refine Gen.Total.tbind (randInt_total env hs Site.sylC 0 256 (by decide)) ?_
  rintro c _ ⟨-, hc, hc2⟩
  obtain ⟨-, hn0, hn1, -, -⟩ := sylN_range a b c ha ha2 hb hb2 hc hc2
  obtain ⟨⟨d1, d2⟩, ⟨d3, d4⟩, ⟨d5, d6⟩, -⟩ := digits_range (sylN a b c) hn0 hn1
  refine Gen.Total.tbind (syllable_total env _ d1 (by rw [hlen]; omega)) ?_
  intro s1 _ _
  refine Gen.Total.tbind (syllable_total env _ d3 (by rw [hlen]; omega)) ?_
  intro s2 _ _
  refine Gen.Total.tbind (syllable_total env _ d5 (by rw [hlen]; omega)) ?_
  intro s3 _ _
  exact Gen.Total.tpure trivial

theorem customer_total (env : Env) (hs : env.h.Sound) (w : Worker)
    (hlen : env.k.SYLLABES.length = 10) (hc : 1 ≤ w.sc.CustomersPerDistrict) :
    Gen.Total (customer env w) (fun _ _ => True) := by
  unfold customer
  refine Gen.Total.tbind (randInt_total env hs Site.byName 1 100 (by decide)) ?_
  rintro r _ -
  by_cases h60 : r ≤ 60
  · simp only [if_pos h60]
    refine Gen.Total.tbind (surname_total env hs hlen) ?_
    intro s _ _
    exact Gen.Total.tpure trivial
  · simp only [if_neg h60]
    refine Gen.Total.tbind (randInt_total env hs Site.cId 1 _ hc) ?_
    intro cId _ _
    exact Gen.Total.tpure trivial

theorem doStockLevelTrx_total (env : Env) (hs : env.h.Sound) (hk : env.k.WellFormed)
    (w : Worker) (hW : 1 ≤ w.sc.Warehouses) (hD : 1 ≤ w.sc.DistrictsPerWarehouse) :
    Gen.Total (w.DoStockLevelTrx env) (fun _ _ => True) := by
  unfold Worker.DoStockLevelTrx
  refine Gen.Total.tbind (randInt_total env hs Site.wId 1 _ hW) ?_
  intro wId _ _
  refine Gen.Total.tbind (randInt_total env hs Site.dId 1 _ hD) ?_
  intro dId _ _
  refine Gen.Total.tbind (randInt_total env hs Site.threshold _ _ hk.threshold) ?_
  intro th _ _
  exact (exec_total env _).tmono (fun _ _ _ => trivial)

theorem doDelivery_total (env : Env) (hs : env.h.Sound) (hk : env.k.WellFormed)
    (w : Worker) (hW : 1 ≤ w.sc.Warehouses) :
    Gen.Total (w.DoDelivery env) (fun _ _ => True) := by
  unfold Worker.DoDelivery
  refine Gen.Total.tbind (randInt_total env hs Site.wId 1 _ hW) ?_
  intro wId _ _
  refine Gen.Total.tbind (randInt_total env hs Site.carrier _ _ hk.carrier) ?_
  intro car _ _
  refine Gen.Total.tbind (timeNow_total Site.deliveryD) ?_
  intro t _ _
  exact (exec_total env _).tmono (fun _ _ _ => trivial)

theorem doOrderStatus_total (env : Env) (hs : env.h.Sound) (hk : env.k.WellFormed)
    (w : Worker) (hW : 1 ≤ w.sc.Warehouses) (hD : 1 ≤ w.sc.DistrictsPerWarehouse)
    (hC : 1 ≤ w.sc.CustomersPerDistrict) :
    Gen.Total (w.DoOrderStatus env) (fun _ _ => True) := by
  unfold Worker.DoOrderStatus
  refine Gen.Total.tbind (randInt_total env hs Site.wId 1 _ hW) ?_
  intro wId _ _
  refine Gen.Total.tbind (randInt_total env hs Site.dId 1 _ hD) ?_
  intro dId _ _
  refine Gen.Total.tbind (customer_total env hs w hk.syllables hC) ?_
  rintro ⟨cId, cLast⟩ _ _
  exact (exec_total env _).tmono (fun _ _ _ => trivial)

theorem doPayment_total (env : Env) (hs : env.h.Sound) (hk : env.k.WellFormed)
    (w : Worker) (hW : 1 ≤ w.sc.Warehouses) (hD : 1 ≤ w.sc.DistrictsPerWarehouse)
    (hC : 1 ≤ w.sc.CustomersPerDistrict) :
    Gen.Total (w.DoPayment env) (fun _ _ => True) := by
  unfold Worker.DoPayment
  refine Gen.Total.tbind (randInt_total env hs Site.wId 1 _ hW) ?_
  rintro wId _ ⟨-, hw1, hw2⟩
  refine Gen.Total.tbind (randInt_total env hs Site.dId 1 _ hD) ?_
  intro dId _ _
  refine Gen.Total.tbind (randFloat_total env hs Site.hAmount _ _ _ hk.payment) ?_
  intro hAmount _ _
  refine Gen.Total.tbind (timeNow_total Site.hDate) ?_
  intro hDate _ _
  refine Gen.Total.tbind (P := fun b _ => b = false → w.sc.Warehouses ≠ 1) ?_ ?_
  · unfold paymentIsLocal
    by_cases h1 : w.sc.Warehouses = 1
    · rw [if_pos h1]; exact Gen.Total.tpure (fun h => absurd h (by decide))
    · rw [if_neg h1]
      refine Gen.Total.tbind (randInt_total env hs Site.remote 1 100 (by decide)) ?_
      intro r _ _
      exact Gen.Total.tpure (fun _ => h1)
  intro isLocal _ hloc
  refine Gen.Total.tbind (P := fun _ _ => True) ?_ ?_
  · cases isLocal with
    | true => simp only [if_true]; exact Gen.Total.tpure trivial
    | false =>
      simp only [Bool.false_eq_true, if_false]
      have h1 := hloc rfl
      refine Gen.Total.tbind
        (randIntExcluding_total env hs Site.cWId 1 _ wId (by omega) hw1 hw2) ?_
      intro cWId _ _
      refine Gen.Total.tbind (randInt_total env hs Site.cDId 1 _ hD) ?_
      intro cDId _ _
      exact Gen.Total.tpure trivial
  rintro ⟨cWId, cDId⟩ _ _
  refine Gen.Total.tbind (customer_total env hs w hk.syllables hC) ?_
  rintro ⟨cId, cLast⟩ _ _
  exact (exec_total env _).tmono (fun _ _ _ => trivial)

theorem lineIsRemote_total (env : Env) (hs : env.h.Sound) (w : Worker) (i : Int) :
    Gen.Total (lineIsRemote env w i) (fun b _ => b = true → 1 < w.sc.Warehouses) := by
  unfold lineIsRemote
  by_cases h1 : 1 < w.sc.Warehouses
  · rw [if_pos h1]
    refine Gen.Total.tbind (randInt_total env hs (Site.iWRemote i) 1 100 (by decide)) ?_
    intro r _ _
    exact Gen.Total.tpure (fun _ => h1)
  · rw [if_neg h1]
    exact Gen.Total.tpure (fun h => absurd h (by decide))

theorem orderLines_total (env : Env) (hs : env.h.Sound) (w : Worker) (wId olCnt : Int)
    (rollback : Bool) (hI : 1 ≤ w.sc.Items) (hq : 1 ≤ env.k.MAX_OL_QUANTITY)
    (hw1 : 1 ≤ wId) (hw2 : wId ≤ w.sc.Warehouses) (n : Nat) :
    ∀ (i : Int) (iIds iWIds iQtys : List Int),
      Gen.Total (orderLines env w wId olCnt rollback n i iIds iWIds iQtys)
        (fun _ _ => True) := by
  induction n with
  | zero =>
    intro i iIds iWIds iQtys
    unfold orderLines
    exact Gen.Total.tpure trivial
  | succ n ih =>
    intro i iIds iWIds iQtys
    unfold orderLines
    refine Gen.Total.tbind (P := fun _ _ => True) ?_ ?_
    · by_cases hlast : rollback = true ∧ i + 1 = olCnt
      · rw [if_pos hlast]; exact Gen.Total.tpure trivial
      · rw [if_neg hlast]
        refine Gen.Total.tbind (randInt_total env hs (Site.iId i) 1 _ hI) ?_
        intro v _ _
        exact Gen.Total.tpure trivial
    intro l1 _ _
    refine Gen.Total.tbind (lineIsRemote_total env hs w i) ?_
    intro isRemote _ hrem
    refine Gen.Total.tbind (P := fun _ _ => True) ?_ ?_
    · cases isRemote with
      | true =>
        simp only [if_true]
        refine Gen.Total.tbind
          (randIntExcluding_total env hs (Site.iWId i) 1 _ wId (hrem rfl) hw1 hw2) ?_
        intro v _ _
        exact Gen.Total.tpure trivial
      | false =>
        simp only [Bool.false_eq_true, if_false]
        exact Gen.Total.tpure trivial
    intro l2 _ _
    refine Gen.Total.tbind (randInt_total env hs (Site.iQty i) 1 _ hq) ?_
    intro q _ _
    exact (ih (i + 1) _ _ _).tmono (fun _ _ _ => trivial)

theorem doNewOrder_total (env : Env) (hs : env.h.Sound) (hk : env.k.WellFormed)
    (w : Worker) (hW : 1 ≤ w.sc.Warehouses) (hD : 1 ≤ w.sc.DistrictsPerWarehouse)
    (hC : 1 ≤ w.sc.CustomersPerDistrict) (hI : 1 ≤ w.sc.Items) :
    Gen.Total (w.DoNewOrder env) (fun _ _ => True) := by
  unfold Worker.DoNewOrder
  refine Gen.Total.tbind (randInt_total env hs Site.wId 1 _ hW) ?_
  rintro wId _ ⟨-, hw1, hw2⟩
  refine Gen.Total.tbind (randInt_total env hs Site.dId 1 _ hD) ?_
  intro dId _ _
  refine Gen.Total.tbind (randInt_total env hs Site.cId 1 _ hC) ?_
  intro cId _ _
  refine Gen.Total.tbind (timeNow_total Site.oEntryD) ?_
  intro t _ _
  refine Gen.Total.tbind (randInt_total env hs Site.olCnt _ _ hk.olCnt) ?_
  intro olCnt _ _
  refine Gen.Total.tbind (randInt_total env hs Site.rollback 1 100 (by decide)) ?_
  intro r _ _
  refine Gen.Total.tbind
    (orderLines_total env hs w wId olCnt _ hI hk.quantity hw1 hw2 _ 0 [] [] []) ?_
  rintro ⟨iIds, iWIds, iQtys⟩ _ _
  exact (exec_total env _).tmono (fun _ _ _ => trivial)

/-! ## The arguments of the calls of the executor -/

/-- C4. In `DoOrderStatus` and in `DoPayment`, with at least one customer per
district and no empty syllable: the one draw of the selection, `r` of 1..100,
chooses the surname exactly when `r ≤ 60`, and the call of the executor has
either `cId = 0` and a non-empty `cLast`, or `cId` in `[1, CustomersPerDistrict]`
and an empty `cLast`.  With well-formed constants, a warehouse and a district,
both generators reach this call from every world. -/
theorem customer_exactly_one (env : Env) (hs : env.h.Sound) (w : Worker)
    (hc : 1 ≤ w.sc.CustomersPerDistrict) (hsyl : ∀ t ∈ env.k.SYLLABES, t ≠ "") :
    Gen.Always (w.DoOrderStatus env) (fun _ ev =>
      ∃ wId dId cId cLast r,
        execCalls ev = [ExecCall.DoOrderStatus wId dId cId cLast] ∧
        drawsAt Site.byName ev = [r] ∧ 1 ≤ r ∧ r ≤ 100 ∧ (r ≤ 60 ↔ cLast ≠ "") ∧
        ((cId = 0 ∧ cLast ≠ "") ∨
         (1 ≤ cId ∧ cId ≤ w.sc.CustomersPerDistrict ∧ cLast = ""))) ∧
    Gen.Always (w.DoPayment env) (fun _ ev =>
      ∃ wId dId hAmount cWId cDId cId cLast hDate r,
        execCalls ev = [ExecCall.DoPayment wId dId hAmount cWId cDId cId cLast hDate
          env.k.BAD_CREDIT env.k.MAX_C_DATA] ∧
        drawsAt Site.byName ev = [r] ∧ 1 ≤ r ∧ r ≤ 100 ∧ (r ≤ 60 ↔ cLast ≠ "") ∧
        ((cId = 0 ∧ cLast ≠ "") ∨
         (1 ≤ cId ∧ cId ≤ w.sc.CustomersPerDistrict ∧ cLast = ""))) ∧
    (env.k.WellFormed → 1 ≤ w.sc.Warehouses → 1 ≤ w.sc.DistrictsPerWarehouse →
      Gen.Returns (w.DoOrderStatus env) ∧ Gen.Returns (w.DoPayment env)) := by
  refine ⟨?_, ?_, fun hk hW hD =>
    ⟨doOrderStatus_total env hs hk w hW hD hc, doPayment_total env hs hk w hW hD hc⟩⟩
  · refine (doOrderStatus_always env hs w).mono ?_
    rintro st ev ⟨wId, dId, cId, cLast, evc, -, -, hrun, rfl⟩
    obtain ⟨r, hd, hr1, hr2, hiff, hone⟩ := customerRun_facts env w cId cLast evc hc hsyl hrun
    obtain ⟨hq, -, -⟩ := customerRun_quiet env w cId cLast evc hrun
    refine ⟨wId, dId, cId, cLast, r, ?_, ?_, hr1, hr2, hiff, hone⟩
    · unfold execCalls at hq ⊢
      simp [List.filterMap_append, hq, Event.call?]
    · unfold drawsAt at hd ⊢
      simp [List.filterMap_append, hd, Event.draw?]
  · refine (doPayment_always env hs w).mono ?_
    rintro st ev ⟨wId, dId, hAmount, hDate, cWId, cDId, cId, cLast, evp, evc, -, -, hp, hrun, rfl⟩
    obtain ⟨r, hd, hr1, hr2, hiff, hone⟩ := customerRun_facts env w cId cLast evc hc hsyl hrun
    obtain ⟨hq, -, -⟩ := customerRun_quiet env w cId cLast evc hrun
    obtain ⟨hpq, hpd⟩ := paymentPlaceRun_quiet w wId dId cWId cDId evp hp
    refine ⟨wId, dId, hAmount, cWId, cDId, cId, cLast, hDate, r, ?_, ?_, hr1, hr2, hiff, hone⟩
    · unfold execCalls at hq hpq ⊢
      simp [List.filterMap_append, hq, hpq, Event.call?]
    · unfold drawsAt at hd hpd ⊢
      simp [List.filterMap_append, hd, hpd, Event.draw?]

theorem customer_exactly_one_witness :
    specEnv.h.Sound ∧ 1 ≤ specWorker.sc.CustomersPerDistrict ∧
    (∀ t ∈ specEnv.k.SYLLABES, t ≠ "") ∧
    (∃ ev,
      [Event.randInt Site.wId 1 4 1, Event.randInt Site.dId 1 10 1,
       Event.randInt Site.byName 1 100 60, Event.randInt Site.sylA 0 256 3,
       Event.randInt Site.sylB 0 1000 1, Event.randInt Site.sylC 0 256 2,
       Event.index 0, Event.index 0, Event.index 5,
       Event.exec (ExecCall.DoOrderStatus 1 1 0 "BARBARESE") none] = [] ++ ev ∧
      ∃ wId dId cId cLast r,
        execCalls ev = [ExecCall.DoOrderStatus wId dId cId cLast] ∧
        drawsAt Site.byName ev = [r] ∧ 1 ≤ r ∧ r ≤ 100 ∧ (r ≤ 60 ↔ cLast ≠ "") ∧
        ((cId = 0 ∧ cLast ≠ "") ∨
         (1 ≤ cId ∧ cId ≤ specWorker.sc.CustomersPerDistrict ∧ cLast = ""))) :=
  ⟨specHelpers_sound, by decide, by decide,
    (customer_exactly_one specEnv specHelpers_sound specWorker (by decide) (by decide)).1
      (World.init (oracleOf [0, 0, 59, 3, 1, 2])) none
      { oracle := oracleOf [0, 0, 59, 3, 1, 2], pos := 7,
        trace := [Event.randInt Site.wId 1 4 1, Event.randInt Site.dId 1 10 1,
          Event.randInt Site.byName 1 100 60, Event.randInt Site.sylA 0 256 3,
          Event.randInt Site.sylB 0 1000 1, Event.randInt Site.sylC 0 256 2,
          Event.index 0, Event.index 0, Event.index 5,
          Event.exec (ExecCall.DoOrderStatus 1 1 0 "BARBARESE") none] } rfl⟩

/-- C5. In `DoPayment` with more than one warehouse, under the contract of the
exclusion primitive: there is one home-or-remote draw `r` of 1..100; the payment
is remote (the customer's warehouse is not the home one, the exclusion primitive
is called once) exactly when `85 < r`, and then `cWId` is in `[1, Warehouses]`
and differs from `wId`; otherwise `cWId = wId`, `cDId = dId` and the exclusion
primitive is not called.  With well-formed constants, a district and a customer,
the generator reaches its call of the executor from every world. -/
theorem payment_remote_iff (env : Env) (hs : env.h.Sound) (w : Worker)
    (hW : 1 < w.sc.Warehouses) :
    Gen.Always (w.DoPayment env) (fun _ ev =>
      ∃ wId dId hAmount cWId cDId cId cLast hDate r,
        execCalls ev = [ExecCall.DoPayment wId dId hAmount cWId cDId cId cLast hDate
          env.k.BAD_CREDIT env.k.MAX_C_DATA] ∧
        drawsAt Site.remote ev = [r] ∧ 1 ≤ r ∧ r ≤ 100 ∧
        (85 < r ↔ cWId ≠ wId) ∧
        (85 < r → 1 ≤ cWId ∧ cWId ≤ w.sc.Warehouses ∧ cWId ≠ wId ∧
          exclusions ev = [Event.randIntExcluding Site.cWId 1 w.sc.Warehouses wId cWId]) ∧
        (r ≤ 85 → cWId = wId ∧ cDId = dId ∧ exclusions ev = [])) ∧
    (env.k.WellFormed → 1 ≤ w.sc.DistrictsPerWarehouse → 1 ≤ w.sc.CustomersPerDistrict →
      Gen.Returns (w.DoPayment env)) := by
  refine ⟨?_, fun hk hD hC => doPayment_total env hs hk w (by omega) hD hC⟩
  refine (doPayment_always env hs w).mono ?_
  rintro st ev ⟨wId, dId, hAmount, hDate, cWId, cDId, cId, cLast, evp, evc, hw, -, hp, hrun, rfl⟩
  obtain ⟨hq, hx, hd⟩ := customerRun_quiet env w cId cLast evc hrun
  obtain ⟨hpq, -⟩ := paymentPlaceRun_quiet w wId dId cWId cDId evp hp
  have hw1 := hw (by omega)
  rcases hp with ⟨h1, -, -, -⟩ | ⟨-, r, hr1, hr2, ⟨h85, rfl, rfl, rfl⟩ | ⟨h85, hb, -, rfl⟩⟩
  · omega
  · refine ⟨cWId, cDId, hAmount, cWId, cDId, cId, cLast, hDate, r, ?_, ?_, hr1, hr2, ?_, ?_, ?_⟩
    · unfold execCalls at hq ⊢
      simp [List.filterMap_append, hq, Event.call?]
    · unfold drawsAt at hd ⊢
      simp [List.filterMap_append, hd, Event.draw?]
    · constructor
      · intro h; omega
      · intro h; exact absurd rfl h
    · intro h; omega
    · intro _
      refine ⟨rfl, rfl, ?_⟩
      unfold exclusions at hx ⊢
      simp [List.filter_append, hx, Event.isExclusion]
  · obtain ⟨hb1, hb2, hb3⟩ := hb hW hw1.1 hw1.2
    refine ⟨wId, dId, hAmount, cWId, cDId, cId, cLast, hDate, r, ?_, ?_, hr1, hr2, ?_, ?_, ?_⟩
    · unfold execCalls at hq ⊢
      simp [List.filterMap_append, hq, Event.call?]
    · unfold drawsAt at hd ⊢
      simp [List.filterMap_append, hd, Event.draw?]
    · exact ⟨fun _ => hb3, fun _ => h85⟩
    · intro _
      refine ⟨hb1, hb2, hb3, ?_⟩
      unfold exclusions at hx ⊢
      simp [List.filter_append, hx, Event.isExclusion]
    · intro h; omega

theorem payment_remote_iff_witness :
    specEnv.h.Sound ∧ 1 < specWorker.sc.Warehouses ∧
    (∃ ev,
      [Event.randInt Site.wId 1 4 3, Event.randInt Site.dId 1 10 1,
       Event.randFloat Site.hAmount (F64.fin false 1 0) (F64.fin false 5000 0) 2
         (F64.fin false 1 0),
       Event.timeNow Site.hDate 3, Event.randInt Site.remote 1 100 91,
       Event.randIntExcluding Site.cWId 1 4 3 4, Event.randInt Site.cDId 1 10 6,
       Event.randInt Site.byName 1 100 1, Event.randInt Site.sylA 0 256 1,
       Event.randInt Site.sylB 0 1000 2, Event.randInt Site.sylC 0 256 3,
       Event.index 0, Event.index 0, Event.index 6,
       Event.exec (ExecCall.DoPayment 3 1 (F64.fin false 1 0) 4 6 0 "BARBARANTI" 3 "BC" 500)
         (some "error")] = [] ++ ev ∧
      ∃ wId dId hAmount cWId cDId cId cLast hDate r,
        execCalls ev = [ExecCall.DoPayment wId dId hAmount cWId cDId cId cLast hDate
          specEnv.k.BAD_CREDIT specEnv.k.MAX_C_DATA] ∧
        drawsAt Site.remote ev = [r] ∧ 1 ≤ r ∧ r ≤ 100 ∧
        (85 < r ↔ cWId ≠ wId) ∧
        (85 < r → 1 ≤ cWId ∧ cWId ≤ specWorker.sc.Warehouses ∧ cWId ≠ wId ∧
          exclusions ev =
            [Event.randIntExcluding Site.cWId 1 specWorker.sc.Warehouses wId cWId]) ∧
        (r ≤ 85 → cWId = wId ∧ cDId = dId ∧ exclusions ev = [])) :=
  ⟨specHelpers_sound, by decide,
    (payment_remote_iff specEnv specHelpers_sound specWorker (by decide)).1
      (World.init (oracleOf [2, 0, 59, 3, 90, 2, 5, 0, 1, 2, 3, 1])) (some "error")
      { oracle := oracleOf [2, 0, 59, 3, 90, 2, 5, 0, 1, 2, 3, 1], pos := 12,
        trace := [Event.randInt Site.wId 1 4 3, Event.randInt Site.dId 1 10 1,
          Event.randFloat Site.hAmount (F64.fin false 1 0) (F64.fin false 5000 0) 2
            (F64.fin false 1 0),
          Event.timeNow Site.hDate 3, Event.randInt Site.remote 1 100 91,
          Event.randIntExcluding Site.cWId 1 4 3 4, Event.randInt Site.cDId 1 10 6,
          Event.randInt Site.byName 1 100 1, Event.randInt Site.sylA 0 256 1,
          Event.randInt Site.sylB 0 1000 2, Event.randInt Site.sylC 0 256 3,
          Event.index 0, Event.index 0, Event.index 6,
          Event.exec (ExecCall.DoPayment 3 1 (F64.fin false 1 0) 4 6 0 "BARBARANTI" 3 "BC" 500)
            (some "error")] } rfl⟩

/-- C6. In `DoPayment` with a single warehouse the customer's place is the home
one: `wId = 1`, `cWId = wId` and `cDId = dId`; no home-or-remote draw is made and
the exclusion primitive is not called.  With well-formed constants, a district
and a customer, the generator reaches its call of the executor from every
world. -/
theorem payment_single_warehouse (env : Env) (hs : env.h.Sound) (w : Worker)
    (hW : w.sc.Warehouses = 1) :
    Gen.Always (w.DoPayment env) (fun _ ev =>
      ∃ wId dId hAmount cWId cDId cId cLast hDate,
        execCalls ev = [ExecCall.DoPayment wId dId hAmount cWId cDId cId cLast hDate
          env.k.BAD_CREDIT env.k.MAX_C_DATA] ∧
        wId = 1 ∧ cWId = wId ∧ cDId = dId ∧
        drawsAt Site.remote ev = [] ∧ exclusions ev = []) ∧
    (env.k.WellFormed → 1 ≤ w.sc.DistrictsPerWarehouse → 1 ≤ w.sc.CustomersPerDistrict →
      Gen.Returns (w.DoPayment env)) := by
  refine ⟨?_, fun hk hD hC => doPayment_total env hs hk w (by omega) hD hC⟩
  refine (doPayment_always env hs w).mono ?_
  rintro st ev ⟨wId, dId, hAmount, hDate, cWId, cDId, cId, cLast, evp, evc, hw, -, hp, hrun, rfl⟩
  obtain ⟨hq, hx, hd⟩ := customerRun_quiet env w cId cLast evc hrun
  have hw1 := hw (by omega)
  rcases hp with ⟨-, rfl, rfl, rfl⟩ | ⟨h1, -⟩
  · refine ⟨cWId, cDId, hAmount, cWId, cDId, cId, cLast, hDate, ?_, by omega, rfl, rfl, ?_, ?_⟩
    · unfold execCalls at hq ⊢
      simp [List.filterMap_append, hq, Event.call?]
    · unfold drawsAt at hd ⊢
      simp [List.filterMap_append, hd, Event.draw?]
    · unfold exclusions at hx ⊢
      simp [List.filter_append, hx, Event.isExclusion]
  · exact absurd hW h1

theorem payment_single_warehouse_witness :
    specEnv.h.Sound ∧ soloWorker.sc.Warehouses = 1 ∧
    (∃ ev,
      [Event.randInt Site.wId 1 1 1, Event.randInt Site.dId 1 10 1,
       Event.randFloat Site.hAmount (F64.fin false 1 0) (F64.fin false 5000 0) 2
         (F64.fin false 1 0),
       Event.timeNow Site.hDate 3, Event.randInt Site.byName 1 100 91,
       Event.randInt Site.cId 1 3000 3,
       Event.exec (ExecCall.DoPayment 1 1 (F64.fin false 1 0) 1 1 3 "" 3 "BC" 500)
         (some "error")] = [] ++ ev ∧
      ∃ wId dId hAmount cWId cDId cId cLast hDate,
        execCalls ev = [ExecCall.DoPayment wId dId hAmount cWId cDId cId cLast hDate
          specEnv.k.BAD_CREDIT specEnv.k.MAX_C_DATA] ∧
        wId = 1 ∧ cWId = wId ∧ cDId = dId ∧
        drawsAt Site.remote ev = [] ∧ exclusions ev = []) :=
  ⟨specHelpers_sound, by decide,
    (payment_single_warehouse specEnv specHelpers_sound soloWorker (by decide)).1
      (World.init (oracleOf [2, 0, 59, 3, 90, 2, 5])) (some "error")
      { oracle := oracleOf [2, 0, 59, 3, 90, 2, 5], pos := 7,
        trace := [Event.randInt Site.wId 1 1 1, Event.randInt Site.dId 1 10 1,
          Event.randFloat Site.hAmount (F64.fin false 1 0) (F64.fin false 5000 0) 2
            (F64.fin false 1 0),
          Event.timeNow Site.hDate 3, Event.randInt Site.byName 1 100 91,
          Event.randInt Site.cId 1 3000 3,
          Event.exec (ExecCall.DoPayment 1 1 (F64.fin false 1 0) 1 1 3 "" 3 "BC" 500)
            (some "error")] } rfl⟩

theorem run_of_view {α : Type} (g : Gen α) (wd : World) (a : α) (n : Nat) (t : List Event)
    (h : (g wd).map (fun r => (r.1, r.2.pos, r.2.trace)) = some (a, n, t)) :
    ∃ wd1, g wd = some (a, wd1) ∧ wd1.trace = t := by
  cases hg : g wd with
  | none => rw [hg] at h; simp at h
  | some r =>
    rw [hg] at h
    simp only [Option.map_some', Option.some.injEq, Prod.mk.injEq] at h
    obtain ⟨r1, r2⟩ := r
    exact ⟨r2, by rw [← h.1], h.2.2⟩

/-- C7. In `DoNewOrder` with at least one item (and an order-line count of at
least one): there is one rollback draw `r` of 1..100; the list of item
identifiers has as many entries as the drawn count of order lines; when `r = 42`
its last entry is Go's `Items + 1` and all entries before it are in
`[1, Items]`; when `r ≠ 42` every entry is in `[1, Items]`.  Go's `Items + 1` is
`Items + 1` below the largest `int`, and never lies in `[1, Items]`.  With
well-formed constants, a warehouse, a district and a customer, the generator
reaches its call of the executor from every world. -/
theorem newOrder_rollback_last (env : Env) (hs : env.h.Sound) (w : Worker)
    (hItems : 1 ≤ w.sc.Items) (hmin : 1 ≤ env.k.MIN_OL_CNT)
    (hcnt : env.k.MIN_OL_CNT ≤ env.k.MAX_OL_CNT) :
    Gen.Always (w.DoNewOrder env) (fun _ ev =>
      ∃ wId dId cId oEntryD iIds iWIds iQtys r olCnt,
        execCalls ev = [ExecCall.DoNewOrder wId dId cId oEntryD iIds iWIds iQtys] ∧
        drawsAt Site.rollback ev = [r] ∧ 1 ≤ r ∧ r ≤ 100 ∧
        drawsAt Site.olCnt ev = [olCnt] ∧ (iIds.length : Int) = olCnt ∧
        (r = 42 → ∃ init, iIds = init ++ [goAdd w.sc.Items 1] ∧
          ∀ x ∈ init, 1 ≤ x ∧ x ≤ w.sc.Items) ∧
        (r ≠ 42 → ∀ x ∈ iIds, 1 ≤ x ∧ x ≤ w.sc.Items) ∧
        (w.sc.Items < 2 ^ 63 - 1 → goAdd w.sc.Items 1 = w.sc.Items + 1) ∧
        (w.sc.Items < 2 ^ 63 →
          ¬ (1 ≤ goAdd w.sc.Items 1 ∧ goAdd w.sc.Items 1 ≤ w.sc.Items))) ∧
    (env.k.WellFormed → 1 ≤ w.sc.Warehouses → 1 ≤ w.sc.DistrictsPerWarehouse →
      1 ≤ w.sc.CustomersPerDistrict → Gen.Returns (w.DoNewOrder env)) := by
  refine ⟨?_, fun hk hW hD hC => doNewOrder_total env hs hk w hW hD hC hItems⟩
  refine (doNewOrder_always env hs w).mono ?_
  rintro st ev ⟨wId, dId, cId, t, olCnt, r, a, b, c, evl, -, -, -, ho, hr1, hr2, hl, rfl⟩
  have ho1 := ho hcnt
  have hto : ((0 : Int) + (olCnt.toNat : Nat)) = olCnt := by
    rw [Int.toNat_of_nonneg (by omega)]; omega
  obtain ⟨la, -, -, q1, q2, q3, -, -⟩ := linesRun_quiet env w wId olCnt _ _ 0 a b c evl hl
  obtain ⟨i1, i2⟩ := linesRun_items env w wId olCnt _ hItems _ 0 a b c evl hto hl
  refine ⟨wId, dId, cId, t, a, b, c, r, olCnt, ?_, ?_, hr1, hr2, ?_, ?_, ?_, ?_, ?_, ?_⟩
  · simp only [execCalls_append, q1]
    simp [execCalls, Event.call?]
  · simp only [drawsAt_append, q2]
    simp [drawsAt, Event.draw?]
  · simp only [drawsAt_append, q3]
    simp [drawsAt, Event.draw?]
  · rw [la, Int.toNat_of_nonneg (by omega)]
  · intro h42
    exact i2 (by simp [h42]) (by omega)
  · intro h42
    exact i1 (by simp [h42])
  · intro h
    exact goAdd_one _ (by omega) h
  · intro h
    exact goAdd_one_invalid _ hItems h

theorem newOrder_rollback_last_witness :
    specEnv.h.Sound ∧ 1 ≤ specWorker.sc.Items ∧ 1 ≤ specEnv.k.MIN_OL_CNT ∧
    specEnv.k.MIN_OL_CNT ≤ specEnv.k.MAX_OL_CNT ∧
    (∃ ev, exampleOrderTrace = [] ++ ev ∧
      ∃ wId dId cId oEntryD iIds iWIds iQtys r olCnt,
        execCalls ev = [ExecCall.DoNewOrder wId dId cId oEntryD iIds iWIds iQtys] ∧
        drawsAt Site.rollback ev = [r] ∧ 1 ≤ r ∧ r ≤ 100 ∧
        drawsAt Site.olCnt ev = [olCnt] ∧ (iIds.length : Int) = olCnt ∧
        (r = 42 → ∃ init, iIds = init ++ [goAdd specWorker.sc.Items 1] ∧
          ∀ x ∈ init, 1 ≤ x ∧ x ≤ specWorker.sc.Items) ∧
        (r ≠ 42 → ∀ x ∈ iIds, 1 ≤ x ∧ x ≤ specWorker.sc.Items) ∧
        (specWorker.sc.Items < 2 ^ 63 - 1 →
          goAdd specWorker.sc.Items 1 = specWorker.sc.Items + 1) ∧
        (specWorker.sc.Items < 2 ^ 63 →
          ¬ (1 ≤ goAdd specWorker.sc.Items 1 ∧
            goAdd specWorker.sc.Items 1 ≤ specWorker.sc.Items))) := by
  obtain ⟨wd1, hrun, ht⟩ := run_of_view (specWorker.DoNewOrder specEnv)
    (World.init exampleOrderOracle) none 22 exampleOrderTrace (by decide!)
  have h := (newOrder_rollback_last specEnv specHelpers_sound specWorker (by decide)
    (by decide) (by decide)).1 (World.init exampleOrderOracle) none wd1 hrun
  rw [ht] at h
  exact ⟨specHelpers_sound, by decide, by decide, by decide, h⟩

/-- C8. In `DoNewOrder`, line by line: with more than one warehouse the line has
one draw `r` of 1..100 of its own, and its supplying warehouse is in
`[1, Warehouses]` and not the home warehouse when `r = 42`, the home warehouse
`wId` otherwise; with at most one warehouse the line has no such draw, its
supplying warehouse is `wId`, and the exclusion primitive is never called.  With
well-formed constants and a scale of at least one everywhere, the generator
reaches its call of the executor from every world. -/
theorem newOrder_supplying_warehouse (env : Env) (hs : env.h.Sound) (w : Worker) :
    Gen.Always (w.DoNewOrder env) (fun _ ev =>
      ∃ wId dId cId oEntryD iIds iWIds iQtys,
        execCalls ev = [ExecCall.DoNewOrder wId dId cId oEntryD iIds iWIds iQtys] ∧
        (∀ (j : Nat) (x : Int), iWIds.get? j = some x →
          (1 < w.sc.Warehouses → ∃ r, drawsAt (Site.iWRemote j) ev = [r] ∧ 1 ≤ r ∧ r ≤ 100 ∧
            (r = 42 → 1 ≤ x ∧ x ≤ w.sc.Warehouses ∧ x ≠ wId) ∧ (r ≠ 42 → x = wId)) ∧
          (¬ 1 < w.sc.Warehouses → drawsAt (Site.iWRemote j) ev = [] ∧ x = wId)) ∧
        (¬ 1 < w.sc.Warehouses → exclusions ev = [] ∧ ∀ x ∈ iWIds, x = wId)) ∧
    (env.k.WellFormed → 1 ≤ w.sc.Warehouses → 1 ≤ w.sc.DistrictsPerWarehouse →
      1 ≤ w.sc.CustomersPerDistrict → 1 ≤ w.sc.Items → Gen.Returns (w.DoNewOrder env)) := by
  refine ⟨?_, fun hk hW hD hC hI => doNewOrder_total env hs hk w hW hD hC hI⟩
  refine (doNewOrder_always env hs w).mono ?_
  rintro st ev ⟨wId, dId, cId, t, olCnt, r, a, b, c, evl, hw, -, -, -, -, -, hl, rfl⟩
  obtain ⟨-, -, -, q1, -, -, q4, -⟩ := linesRun_quiet env w wId olCnt _ _ 0 a b c evl hl
  have hsup := linesRun_supply env w wId olCnt _ _ 0 a b c evl hl
  have hpre : ∀ j : Nat, drawsAt (Site.iWRemote j)
      ([Event.randInt Site.wId 1 w.sc.Warehouses wId,
        Event.randInt Site.dId 1 w.sc.DistrictsPerWarehouse dId,
        Event.randInt Site.cId 1 w.sc.CustomersPerDistrict cId,
        Event.timeNow Site.oEntryD t,
        Event.randInt Site.olCnt env.k.MIN_OL_CNT env.k.MAX_OL_CNT olCnt,
        Event.randInt Site.rollback 1 100 r] ++ evl ++
       [Event.exec (ExecCall.DoNewOrder wId dId cId t a b c) st]) =
      drawsAt (Site.iWRemote ((0 : Int) + j)) evl := by
    intro j
    simp only [drawsAt_append, zero_add]
    simp [drawsAt, Event.draw?]
  refine ⟨wId, dId, cId, t, a, b, c, ?_, ?_, ?_⟩
  · simp only [execCalls_append, q1]
    simp [execCalls, Event.call?]
  · intro j x hx
    obtain ⟨s1, s2⟩ := hsup j x hx
    rw [hpre j]
    refine ⟨fun h1 => ?_, s2⟩
    obtain ⟨r1, hd, hr1, hr2, h42, hn42⟩ := s1 h1
    have hw1 := hw (by omega)
    exact ⟨r1, hd, hr1, hr2, fun h => h42 h hw1.1 hw1.2, hn42⟩
  · intro h1
    constructor
    · simp only [exclusions_append, q4 h1]
      simp [exclusions, Event.isExclusion]
    · intro x hx
      obtain ⟨j, hj⟩ := List.get?_of_mem hx
      exact ((hsup j x hj).2 h1).2

theorem newOrder_supplying_warehouse_witness :
    specEnv.h.Sound ∧
    (∃ ev, exampleOrderTrace = [] ++ ev ∧
      ∃ wId dId cId oEntryD iIds iWIds iQtys,
        execCalls ev = [ExecCall.DoNewOrder wId dId cId oEntryD iIds iWIds iQtys] ∧
        (∀ (j : Nat) (x : Int), iWIds.get? j = some x →
          (1 < specWorker.sc.Warehouses →
            ∃ r, drawsAt (Site.iWRemote j) ev = [r] ∧ 1 ≤ r ∧ r ≤ 100 ∧
            (r = 42 → 1 ≤ x ∧ x ≤ specWorker.sc.Warehouses ∧ x ≠ wId) ∧
            (r ≠ 42 → x = wId)) ∧
          (¬ 1 < specWorker.sc.Warehouses → drawsAt (Site.iWRemote j) ev = [] ∧ x = wId)) ∧
        (¬ 1 < specWorker.sc.Warehouses → exclusions ev = [] ∧ ∀ x ∈ iWIds, x = wId)) := by
  obtain ⟨wd1, hrun, ht⟩ := run_of_view (specWorker.DoNewOrder specEnv)
    (World.init exampleOrderOracle) none 22 exampleOrderTrace (by decide!)
  have h := (newOrder_supplying_warehouse specEnv specHelpers_sound specWorker).1
    (World.init exampleOrderOracle) none wd1 hrun
  rw [ht] at h
  exact ⟨specHelpers_sound, h⟩

/-! ## The requests of the generators are admissible -/

theorem surnameRun_admissible (env : Env) (s : String) (ev : List Event)
    (h : SurnameRun env s ev) : ∀ e ∈ ev, e.Admissible := by
  obtain ⟨a, b, c, s1, s2, s3, ha, ha2, hb, hb2, hc, hc2, -, -, -, -, -, -, -, rfl⟩ := h
  obtain ⟨-, hn0, hn1, -, -⟩ := sylN_range a b c ha ha2 hb hb2 hc hc2
  obtain ⟨d1, d2, d3, -⟩ := digits_range (sylN a b c) hn0 hn1
  intro e he
  simp only [surnameEvents, List.mem_cons, List.mem_singleton, List.not_mem_nil, or_false] at he
  rcases he with rfl | rfl | rfl | rfl | rfl | rfl
  · show (0 : Int) ≤ 256; decide
  · show (0 : Int) ≤ 1000; decide
  · show (0 : Int) ≤ 256; decide
  · exact d1
  · exact d2
  · exact d3

theorem customerRun_admissible (env : Env) (w : Worker) (cId : Int) (cLast : String)
    (ev : List Event) (hC : 1 ≤ w.sc.CustomersPerDistrict) (h : CustomerRun env w cId cLast ev) :
    ∀ e ∈ ev, e.Admissible := by
  obtain ⟨r, -, -, hcase⟩ := h
  rcases hcase with ⟨-, -, ev1, hrun, rfl⟩ | ⟨-, -, -, rfl⟩
  · intro e he
    rcases List.mem_cons.mp he with rfl | he
    · show (1 : Int) ≤ 100; decide
    · exact surnameRun_admissible env cLast ev1 hrun e he
  · intro e he
    simp only [List.mem_cons, List.mem_singleton, List.not_mem_nil, or_false] at he
    rcases he with rfl | rfl
    · show (1 : Int) ≤ 100; decide
    · exact hC

theorem stockLevelRun_reaches (env : Env) (hk : env.k.WellFormed) (w : Worker)
    (hW : 1 ≤ w.sc.Warehouses) (hD : 1 ≤ w.sc.DistrictsPerWarehouse) (st : Status)
    (ev : List Event) (h : StockLevelRun env w st ev) : ReachesExecutor w st ev := by
  obtain ⟨wId, dId, th, -, -, -, rfl⟩ := h
  refine ⟨?_, ?_, [_, _, _], _, rfl, by simp [execCalls, Event.call?]⟩
  · intro e he
    simp only [List.mem_cons, List.mem_singleton, List.not_mem_nil, or_false] at he
    rcases he with rfl | rfl | rfl | rfl
    · exact hW
    · exact hD
    · exact hk.threshold
    · trivial
  · intro hx
    simp [exclusions, Event.isExclusion] at hx

theorem deliveryRun_reaches (env : Env) (hk : env.k.WellFormed) (w : Worker)
    (hW : 1 ≤ w.sc.Warehouses) (st : Status)
    (ev : List Event) (h : DeliveryRun env w st ev) : ReachesExecutor w st ev := by
  obtain ⟨wId, car, t, -, -, rfl⟩ := h
  refine ⟨?_, ?_, [_, _, _], _, rfl, by simp [execCalls, Event.call?]⟩
  · intro e he
    simp only [List.mem_cons, List.mem_singleton, List.not_mem_nil, or_false] at he
    rcases he with rfl | rfl | rfl | rfl
    · exact hW
    · exact hk.carrier
    · trivial
    · trivial
  · intro hx
    simp [exclusions, Event.isExclusion] at hx

theorem orderStatusRun_reaches (env : Env) (w : Worker)
    (hW : 1 ≤ w.sc.Warehouses) (hD : 1 ≤ w.sc.DistrictsPerWarehouse)
    (hC : 1 ≤ w.sc.CustomersPerDistrict) (st : Status)
    (ev : List Event) (h : OrderStatusRun env w st ev) : ReachesExecutor w st ev := by
  obtain ⟨wId, dId, cId, cLast, evc, -, -, hrun, rfl⟩ := h
  obtain ⟨hq, hx, -⟩ := customerRun_quiet env w cId cLast evc hrun
  have hadm := customerRun_admissible env w cId cLast evc hC hrun
  refine ⟨?_, ?_, _, _, rfl, ?_⟩
  · intro e he
    simp only [List.mem_append, List.mem_cons, List.mem_singleton, List.not_mem_nil,
      or_false] at he
    rcases he with ((rfl | rfl) | he) | rfl
    · exact hW
    · exact hD
    · exact hadm e he
    · trivial
  · intro hne
    simp only [exclusions_append, hx] at hne
    simp [exclusions, Event.isExclusion] at hne
  · simp only [execCalls_append, hq]
    simp [execCalls, Event.call?]

theorem paymentRun_reaches (env : Env) (hk : env.k.WellFormed) (w : Worker)
    (hW : 1 ≤ w.sc.Warehouses) (hD : 1 ≤ w.sc.DistrictsPerWarehouse)
    (hC : 1 ≤ w.sc.CustomersPerDistrict) (st : Status)
    (ev : List Event) (h : PaymentRun env w st ev) : ReachesExecutor w st ev := by
  obtain ⟨wId, dId, hAmount, hDate, cWId, cDId, cId, cLast, evp, evc, hw, -, hp, hrun, rfl⟩ := h
  obtain ⟨hq, hx, -⟩ := customerRun_quiet env w cId cLast evc hrun
  obtain ⟨hpq, -⟩ := paymentPlaceRun_quiet w wId dId cWId cDId evp hp
  have hadm := customerRun_admissible env w cId cLast evc hC hrun
  have hw1 := hw hW
  have hpadm : (∀ e ∈ evp, e.Admissible) ∧ (exclusions evp ≠ [] → 1 < w.sc.Warehouses) := by
    rcases hp with ⟨-, -, -, rfl⟩ | ⟨h1, r, -, -, ⟨-, -, -, rfl⟩ | ⟨-, -, -, rfl⟩⟩
    · exact ⟨fun e he => by simp at he, fun h => absurd rfl h⟩
    · refine ⟨fun e he => ?_, fun h => ?_⟩
      · simp only [List.mem_singleton] at he
        subst he
        show (1 : Int) ≤ 100; decide
      · simp [exclusions, Event.isExclusion] at h
    · have hW2 : 1 < w.sc.Warehouses := by omega
      refine ⟨fun e he => ?_, fun _ => hW2⟩
      simp only [List.mem_cons, List.mem_singleton, List.not_mem_nil, or_false] at he
      rcases he with rfl | rfl | rfl
      · show (1 : Int) ≤ 100; decide
      · exact ⟨hW2, hw1.1, hw1.2⟩
      · exact hD
  refine ⟨?_, ?_, _, _, rfl, ?_⟩
  · intro e he
    simp only [List.mem_append, List.mem_cons, List.mem_singleton, List.not_mem_nil,
      or_false] at he
    rcases he with (((rfl | rfl | rfl | rfl) | he) | he) | rfl
    · exact hW
    · exact hD
    · exact hk.payment
    · trivial
    · exact hpadm.1 e he
    · exact hadm e he
    · trivial
  · intro hne
    apply hpadm.2
    intro hp0
    apply hne
    simp only [exclusions_append, hx, hp0]
    simp [exclusions, Event.isExclusion]
  · simp only [execCalls_append, hq, hpq]
    simp [execCalls, Event.call?]

theorem linesRun_admissible (env : Env) (w : Worker) (wId olCnt : Int) (rollback : Bool)
    (hI : 1 ≤ w.sc.Items) (hq : 1 ≤ env.k.MAX_OL_QUANTITY) (hw1 : 1 ≤ wId)
    (hw2 : wId ≤ w.sc.Warehouses) (n : Nat) :
    ∀ (i : Int) (a b c : List Int) (ev : List Event),
      LinesRun env w wId olCnt rollback n i a b c ev → ∀ e ∈ ev, e.Admissible := by
  induction n with
  | zero =>
    rintro i a b c ev ⟨rfl, rfl, rfl, rfl⟩ e he
    simp at he
  | succ n ih =>
    rintro i a b c ev ⟨iId, iWId, iQty, ev1, a1, b1, c1, ev2, h1, h2, rfl, rfl, rfl, rfl⟩ e he
    rcases List.mem_append.mp he with he | he
    · obtain ⟨evI, evW, hIr, hWr, -, rfl⟩ := h1
      simp only [List.mem_append, List.mem_singleton] at he
      rcases he with (he | he) | rfl
      · rcases hIr with ⟨-, -, -, rfl⟩ | ⟨-, -, rfl⟩
        · simp at he
        · simp only [List.mem_singleton] at he
          subst he
          exact hI
      · rcases hWr with ⟨-, -, rfl⟩ | ⟨h1, r, -, -, ⟨-, -, rfl⟩ | ⟨-, -, rfl⟩⟩
        · simp at he
        · simp only [List.mem_singleton] at he
          subst he
          show (1 : Int) ≤ 100; decide
        · simp only [List.mem_cons, List.mem_singleton, List.not_mem_nil, or_false] at he
          rcases he with rfl | rfl
          · show (1 : Int) ≤ 100; decide
          · exact ⟨h1, hw1, hw2⟩
      · exact hq
    · exact ih (i + 1) a1 b1 c1 ev2 h2 e he

theorem newOrderRun_reaches (env : Env) (hk : env.k.WellFormed) (w : Worker)
    (hW : 1 ≤ w.sc.Warehouses) (hD : 1 ≤ w.sc.DistrictsPerWarehouse)
    (hC : 1 ≤ w.sc.CustomersPerDistrict) (hI : 1 ≤ w.sc.Items) (st : Status)
    (ev : List Event) (h : NewOrderRun env w st ev) : ReachesExecutor w st ev := by
  obtain ⟨wId, dId, cId, t, olCnt, r, a, b, c, evl, hw, -, -, -, -, -, hl, rfl⟩ := h
  have hw1 := hw hW
  obtain ⟨-, -, -, q1, -, -, q4, -⟩ := linesRun_quiet env w wId olCnt _ _ 0 a b c evl hl
  have hadm := linesRun_admissible env w wId olCnt _ hI hk.quantity hw1.1 hw1.2 _ 0 a b c evl hl
  refine ⟨?_, ?_, _, _, rfl, ?_⟩
  · intro e he
    simp only [List.mem_append, List.mem_cons, List.mem_singleton, List.not_mem_nil,
      or_false] at he
    rcases he with ((rfl | rfl | rfl | rfl | rfl | rfl) | he) | rfl
    · exact hW
    · exact hD
    · exact hC
    · trivial
    · exact hk.olCnt
    · show (1 : Int) ≤ 100; decide
    · exact hadm e he
    · trivial
  · intro hne
    by_contra h1
    apply hne
    simp only [exclusions_append, q4 h1]
    simp [exclusions, Event.isExclusion]
  · simp only [execCalls_append, q1]
    simp [execCalls, Event.call?]

theorem specConstants_wellFormed : specConstants.WellFormed where
  threshold := by decide
  carrier := by decide
  payment := by decide
  olCnt := by decide
  quantity := by decide
  syllables := rfl

/-- C9. With at least one warehouse, district per warehouse, customer per district
and item, under the contract of the primitives and with well-formed constants:
each of the five generators returns from every world; all its requests are
admissible (non-empty ranges, syllable indices from 0 to 9), it calls the
exclusion primitive only with more than one warehouse, and its last event is
its one call of the executor. -/
theorem generators_reach_executor (env : Env) (hs : env.h.Sound) (hk : env.k.WellFormed)
    (w : Worker) (hW : 1 ≤ w.sc.Warehouses) (hD : 1 ≤ w.sc.DistrictsPerWarehouse)
    (hC : 1 ≤ w.sc.CustomersPerDistrict) (hI : 1 ≤ w.sc.Items) :
    Gen.Total (w.DoStockLevelTrx env) (ReachesExecutor w) ∧
    Gen.Total (w.DoDelivery env) (ReachesExecutor w) ∧
    Gen.Total (w.DoOrderStatus env) (ReachesExecutor w) ∧
    Gen.Total (w.DoPayment env) (ReachesExecutor w) ∧
    Gen.Total (w.DoNewOrder env) (ReachesExecutor w) := by
  refine ⟨?_, ?_, ?_, ?_, ?_⟩
  · exact ((doStockLevelTrx_total env hs hk w hW hD).and
      (doStockLevelTrx_always env hs w)).tmono
      (fun st ev h => stockLevelRun_reaches env hk w hW hD st ev h.2)
  · exact ((doDelivery_total env hs hk w hW).and (doDelivery_always env hs w)).tmono
      (fun st ev h => deliveryRun_reaches env hk w hW st ev h.2)
  · exact ((doOrderStatus_total env hs hk w hW hD hC).and
      (doOrderStatus_always env hs w)).tmono
      (fun st ev h => orderStatusRun_reaches env w hW hD hC st ev h.2)
  · exact ((doPayment_total env hs hk w hW hD hC).and (doPayment_always env hs w)).tmono
      (fun st ev h => paymentRun_reaches env hk w hW hD hC st ev h.2)
  · exact ((doNewOrder_total env hs hk w hW hD hC hI).and (doNewOrder_always env hs w)).tmono
      (fun st ev h => newOrderRun_reaches env hk w hW hD hC hI st ev h.2)

theorem generators_reach_executor_witness :
    specEnv.h.Sound ∧ specEnv.k.WellFormed ∧ 1 ≤ specWorker.sc.Warehouses ∧
    1 ≤ specWorker.sc.DistrictsPerWarehouse ∧ 1 ≤ specWorker.sc.CustomersPerDistrict ∧
    1 ≤ specWorker.sc.Items ∧
    (Gen.Total (specWorker.DoStockLevelTrx specEnv) (ReachesExecutor specWorker) ∧
     Gen.Total (specWorker.DoDelivery specEnv) (ReachesExecutor specWorker) ∧
     Gen.Total (specWorker.DoOrderStatus specEnv) (ReachesExecutor specWorker) ∧
     Gen.Total (specWorker.DoPayment specEnv) (ReachesExecutor specWorker) ∧
     Gen.Total (specWorker.DoNewOrder specEnv) (ReachesExecutor specWorker)) :=
  ⟨specHelpers_sound, specConstants_wellFormed, by decide, by decide, by decide, by decide,
    generators_reach_executor specEnv specHelpers_sound specConstants_wellFormed specWorker
      (by decide) (by decide) (by decide) (by decide)⟩

/-! ## The worker loop -/

theorem surnameRun_requests (env : Env) (s : String) (ev : List Event)
    (h : SurnameRun env s ev) : ∀ e ∈ ev, e.isRequest = true := by
  obtain ⟨a, b, c, s1, s2, s3, -, -, -, -, -, -, -, -, -, -, -, -, -, rfl⟩ := h
  intro e he
  simp only [surnameEvents, List.mem_cons, List.mem_singleton, List.not_mem_nil, or_false] at he
  rcases he with rfl | rfl | rfl | rfl | rfl | rfl <;> rfl

theorem customerRun_requests (env : Env) (w : Worker) (cId : Int) (cLast : String)
    (ev : List Event) (h : CustomerRun env w cId cLast ev) : ∀ e ∈ ev, e.isRequest = true := by
  obtain ⟨r, -, -, hcase⟩ := h
  rcases hcase with ⟨-, -, ev1, hrun, rfl⟩ | ⟨-, -, -, rfl⟩
  · intro e he
    rcases List.mem_cons.mp he with rfl | he
    · rfl
    · exact surnameRun_requests env cLast ev1 hrun e he
  · intro e he
    simp only [List.mem_cons, List.mem_singleton, List.not_mem_nil, or_false] at he
    rcases he with rfl | rfl <;> rfl

theorem paymentPlaceRun_requests (w : Worker) (wId dId cWId cDId : Int) (ev : List Event)
    (h : PaymentPlaceRun w wId dId cWId cDId ev) : ∀ e ∈ ev, e.isRequest = true := by
  rcases h with ⟨-, -, -, rfl⟩ | ⟨-, r, -, -, ⟨-, -, -, rfl⟩ | ⟨-, -, -, rfl⟩⟩
  · intro e he; simp at he
  · intro e he
    simp only [List.mem_singleton] at he
    subst he; rfl
  · intro e he
    simp only [List.mem_cons, List.mem_singleton, List.not_mem_nil, or_false] at he
    rcases he with rfl | rfl | rfl <;> rfl

theorem linesRun_requests (env : Env) (w : Worker) (wId olCnt : Int) (rollback : Bool)
    (n : Nat) :
    ∀ (i : Int) (a b c : List Int) (ev : List Event),
      LinesRun env w wId olCnt rollback n i a b c ev → ∀ e ∈ ev, e.isRequest = true := by
  induction n with
  | zero =>
    rintro i a b c ev ⟨rfl, rfl, rfl, rfl⟩ e he
    simp at he
  | succ n ih =>
    rintro i a b c ev ⟨iId, iWId, iQty, ev1, a1, b1, c1, ev2, h1, h2, rfl, rfl, rfl, rfl⟩ e he
    rcases List.mem_append.mp he with he | he
    · obtain ⟨evI, evW, hIr, hWr, -, rfl⟩ := h1
      simp only [List.mem_append, List.mem_singleton] at he
      rcases he with (he | he) | rfl
      · rcases hIr with ⟨-, -, -, rfl⟩ | ⟨-, -, rfl⟩
        · simp at he
        · simp only [List.mem_singleton] at he
          subst he; rfl
      · rcases hWr with ⟨-, -, rfl⟩ | ⟨-, r, -, -, ⟨-, -, rfl⟩ | ⟨-, -, rfl⟩⟩
        · simp at he
        · simp only [List.mem_singleton] at he
          subst he; rfl
        · simp only [List.mem_cons, List.mem_singleton, List.not_mem_nil, or_false] at he
          rcases he with rfl | rfl <;> rfl
      · rfl
    · exact ih (i + 1) a1 b1 c1 ev2 h2 e he

theorem dispatch_always (env : Env) (hs : env.h.Sound) (w : Worker) (r : Int) :
    Gen.Always (w.dispatch env r).2 (fun st ev =>
      ∃ pre call, (∀ e ∈ pre, e.isRequest = true) ∧ ev = pre ++ [Event.exec call st]) := by
  unfold Worker.dispatch
  split_ifs
  · refine (doStockLevelTrx_always env hs w).mono ?_
    rintro st ev ⟨wId, dId, th, -, -, -, rfl⟩
    refine ⟨[_, _, _], _, ?_, rfl⟩
    intro e he
    simp only [List.mem_cons, List.mem_singleton, List.not_mem_nil, or_false] at he
    rcases he with rfl | rfl | rfl <;> rfl
  · refine (doDelivery_always env hs w).mono ?_
    rintro st ev ⟨wId, car, t, -, -, rfl⟩
    refine ⟨[_, _, _], _, ?_, rfl⟩
    intro e he
    simp only [List.mem_cons, List.mem_singleton, List.not_mem_nil, or_false] at he
    rcases he with rfl | rfl | rfl <;> rfl
  · refine (doOrderStatus_always env hs w).mono ?_
    rintro st ev ⟨wId, dId, cId, cLast, evc, -, -, hrun, rfl⟩
    refine ⟨_, _, ?_, rfl⟩
    intro e he
    simp only [List.mem_append, List.mem_cons, List.mem_singleton, List.not_mem_nil,
      or_false] at he
    rcases he with (rfl | rfl) | he
    · rfl
    · rfl
    · exact customerRun_requests env w cId cLast evc hrun e he
  · refine (doPayment_always env hs w).mono ?_
    rintro st ev ⟨wId, dId, hAmount, hDate, cWId, cDId, cId, cLast, evp, evc, -, -, hp, hrun, rfl⟩
    refine ⟨_, _, ?_, rfl⟩
    intro e he
    simp only [List.mem_append, List.mem_cons, List.mem_singleton, List.not_mem_nil,
      or_false] at he
    rcases he with ((rfl | rfl | rfl | rfl) | he) | he
    · rfl
    · rfl
    · rfl
    · rfl
    · exact paymentPlaceRun_requests w wId dId cWId cDId evp hp e he
    · exact customerRun_requests env w cId cLast evc hrun e he
  · refine (doNewOrder_always env hs w).mono ?_
    rintro st ev ⟨wId, dId, cId, t, olCnt, r, a, b, c, evl, -, -, -, -, -, -, hl, rfl⟩
    refine ⟨_, _, ?_, rfl⟩
    intro e he
    simp only [List.mem_append, List.mem_cons, List.mem_singleton, List.not_mem_nil,
      or_false] at he
    rcases he with (rfl | rfl | rfl | rfl | rfl | rfl) | he
    · rfl
    · rfl
    · rfl
    · rfl
    · rfl
    · rfl
    · exact linesRun_requests env w wId olCnt _ _ 0 a b c evl hl e he

theorem dispatch_total (env : Env) (hs : env.h.Sound) (hk : env.k.WellFormed)
    (w : Worker) (hW : 1 ≤ w.sc.Warehouses) (hD : 1 ≤ w.sc.DistrictsPerWarehouse)
    (hC : 1 ≤ w.sc.CustomersPerDistrict) (hI : 1 ≤ w.sc.Items) (r : Int) :
    Gen.Total (w.dispatch env r).2 (fun _ _ => True) := by
  unfold Worker.dispatch
  split_ifs
  · exact doStockLevelTrx_total env hs hk w hW hD
  · exact doDelivery_total env hs hk w hW
  · exact doOrderStatus_total env hs hk w hW hD hC
  · exact doPayment_total env hs hk w hW hD hC
  · exact doNewOrder_total env hs hk w hW hD hC hI

theorem iteration_always (env : Env) (hs : env.h.Sound) (w : Worker) :
    Gen.Always (w.iteration env) (fun ph ev =>
      (ph = Phase.Cancelled ∧ ev = [Event.ctxDone true]) ∨
      (ph = Phase.Running ∧ AttemptRun env w ev)) := by
  unfold Worker.iteration
  refine Gen.Always.bind (P := fun b ev => ev = [Event.ctxDone b]) ?_ ?_
  · exact (ask_always _ _).mono (fun _ _ h => h.1)
  rintro done _ rfl
  cases done with
  | true =>
    simp only [if_true]
    exact Gen.Always.pure (Or.inl ⟨rfl, rfl⟩)
  | false =>
    simp only [Bool.false_eq_true, if_false]
    refine Gen.Always.bind (P := fun _ ev => AttemptRun env w (Event.ctxDone false :: ev)) ?_ ?_
    · unfold Worker.attempt
      refine Gen.Always.bind (randInt_always env hs Site.mix 1 100) ?_
      rintro r _ ⟨rfl, hr⟩
      refine Gen.Always.bind (dispatch_always env hs w r) ?_
      rintro st _ ⟨pre, call, hpre, rfl⟩
      refine (emit_total _).always.mono ?_
      rintro _ _ rfl
      exact ⟨r, pre, call, st, (hr (by decide)).1, (hr (by decide)).2, hpre, by simp⟩
    · intro _ ev hrun
      exact Gen.Always.pure (Or.inr ⟨rfl, by simpa using hrun⟩)

theorem iteration_total (env : Env) (hs : env.h.Sound) (hk : env.k.WellFormed)
    (w : Worker) (hW : 1 ≤ w.sc.Warehouses) (hD : 1 ≤ w.sc.DistrictsPerWarehouse)
    (hC : 1 ≤ w.sc.CustomersPerDistrict) (hI : 1 ≤ w.sc.Items) :
    Gen.Total (w.iteration env) (fun _ _ => True) := by
  unfold Worker.iteration
  refine Gen.Total.tbind (P := fun _ _ => True) ?_ ?_
  · exact (ask_total _ _ (fun raw => ⟨_, rfl⟩)).tmono (fun _ _ _ => trivial)
  intro done _ _
  cases done with
  | true =>
    simp only [if_true]
    exact Gen.Total.tpure trivial
  | false =>
    simp only [Bool.false_eq_true, if_false]
    refine Gen.Total.tbind (P := fun _ _ => True) ?_ ?_
    · unfold Worker.attempt
      refine Gen.Total.tbind (randInt_total env hs Site.mix 1 100 (by decide)) ?_
      intro r _ _
      refine Gen.Total.tbind (dispatch_total env hs hk w hW hD hC hI r) ?_
      intro st _ _
      exact (emit_total _).tmono (fun _ _ _ => trivial)
    · intro _ _ _
      exact Gen.Total.tpure trivial

theorem rel_pure {α β : Type} {R : α → β → Prop} {a : α} {b : β} (h : R a b) :
    Gen.Rel R (pure a : Gen α) (pure b : Gen β) := by
  intro wd wd' ho hp
  exact Or.inr ⟨a, wd, b, wd', rfl, rfl, h, ho, hp⟩

theorem rel_bind {α β γ δ : Type} {R : α → β → Prop} {S : γ → δ → Prop} {g : Gen α}
    {g' : Gen β} {f : α → Gen γ} {f' : β → Gen δ} (hg : Gen.Rel R g g')
    (hf : ∀ a b, R a b → Gen.Rel S (f a) (f' b)) : Gen.Rel S (g >>= f) (g' >>= f') := by
  intro wd wd' ho hp
  rcases hg wd wd' ho hp with ⟨h1, h2⟩ | ⟨a, w1, b, w1', h1, h2, hR, ho1, hp1⟩
  · left
    constructor
    · show (match g wd with | none => none | some (a, w1) => f a w1) = none
      rw [h1]
    · show (match g' wd' with | none => none | some (a, w1) => f' a w1) = none
      rw [h2]
  · have e1 : (g >>= f) wd = f a w1 := by
      show (match g wd with | none => none | some (a, w1) => f a w1) = _
      rw [h1]
    have e2 : (g' >>= f') wd' = f' b w1' := by
      show (match g' wd' with | none => none | some (a, w1) => f' a w1) = _
      rw [h2]
    rw [e1, e2]
    exact hf a b hR w1 w1' ho1 hp1

theorem rel_ask {α β : Type} {R : α → β → Prop} (answer : Nat → Option α)
    (answer' : Nat → Option β) (ev : α → Event) (ev' : β → Event)
    (h : ∀ raw, (answer raw = none ∧ answer' raw = none) ∨
      ∃ a b, answer raw = some a ∧ answer' raw = some b ∧ R a b) :
    Gen.Rel R (Gen.ask answer ev) (Gen.ask answer' ev') := by
  intro wd wd' ho hp
  rcases h (wd.oracle wd.pos) with ⟨h1, h2⟩ | ⟨a, b, h1, h2, hR⟩
  · left
    constructor
    · unfold Gen.ask; rw [h1]
    · unfold Gen.ask; rw [← ho, ← hp, h2]
  · right
    refine ⟨a, { wd with pos := wd.pos + 1, trace := wd.trace ++ [ev a] }, b,
      { wd' with pos := wd'.pos + 1, trace := wd'.trace ++ [ev' b] }, ?_, ?_, hR, ?_, ?_⟩
    · exact (Gen.ask_eq_some _ _ _ _ _).mpr ⟨h1, rfl⟩
    · exact (Gen.ask_eq_some _ _ _ _ _).mpr ⟨by rw [← ho, ← hp]; exact h2, rfl⟩
    · exact ho
    · show wd.pos + 1 = wd'.pos + 1
      rw [hp]

theorem rel_ask_same {α : Type} (answer : Nat → Option α) (ev : α → Event) :
    Gen.Rel (fun a b => a = b) (Gen.ask answer ev) (Gen.ask answer ev) := by
  refine rel_ask answer answer ev ev ?_
  intro raw
  cases h : answer raw with
  | none => exact Or.inl ⟨rfl, rfl⟩
  | some a => exact Or.inr ⟨a, a, rfl, rfl, rfl⟩

theorem rel_syllable (env : Env) (i : Int) :
    Gen.Rel (fun a b => a = b) (env.syllable i) (env.withOkExecutor.syllable i) := by
  intro wd wd' ho hp
  by_cases h0 : 0 ≤ i
  · cases hg : env.k.SYLLABES.get? i.toNat with
    | none =>
      left
      constructor <;> simp only [Env.syllable, if_pos h0, hg, Env.withOkExecutor]
    | some s =>
      right
      refine ⟨s, { wd with trace := wd.trace ++ [Event.index i] }, s,
        { wd' with trace := wd'.trace ++ [Event.index i] }, ?_, ?_, rfl, ho, hp⟩
      · simp only [Env.syllable, if_pos h0, hg]
      · simp only [Env.syllable, if_pos h0, hg, Env.withOkExecutor]
  · left
    constructor <;> simp only [Env.syllable, if_neg h0]

theorem rel_exec (env : Env) (call call' : ExecCall) :
    Gen.Rel (fun _ _ => True) (env.exec call) (env.withOkExecutor.exec call') := by
  refine rel_ask _ _ _ _ ?_
  intro raw
  exact Or.inr ⟨_, _, rfl, rfl, trivial⟩

theorem rel_customer (env : Env) (w : Worker) :
    Gen.Rel (fun a b => a = b) (customer env w) (customer env.withOkExecutor w) := by
  unfold customer
  refine rel_bind (rel_ask_same _ _) ?_
  rintro r _ rfl
  by_cases h60 : r ≤ 60
  · simp only [if_pos h60]
    refine rel_bind (R := fun a b => a = b) ?_ ?_
    · unfold surname
      refine rel_bind (rel_ask_same _ _) ?_
      rintro a _ rfl
      refine rel_bind (rel_ask_same _ _) ?_
      rintro b _ rfl
      refine rel_bind (rel_ask_same _ _) ?_
      rintro c _ rfl
      refine rel_bind (rel_syllable env _) ?_
      rintro s1 _ rfl
      refine rel_bind (rel_syllable env _) ?_
      rintro s2 _ rfl
      refine rel_bind (rel_syllable env _) ?_
      rintro s3 _ rfl
      exact rel_pure rfl
    · rintro s _ rfl
      exact rel_pure rfl
  · simp only [if_neg h60]
    refine rel_bind (rel_ask_same _ _) ?_
    rintro c _ rfl
    exact rel_pure rfl

theorem rel_orderLines (env : Env) (w : Worker) (wId olCnt : Int) (rollback : Bool) (n : Nat) :
    ∀ (i : Int) (iIds iWIds iQtys : List Int),
      Gen.Rel (fun a b => a = b) (orderLines env w wId olCnt rollback n i iIds iWIds iQtys)
        (orderLines env.withOkExecutor w wId olCnt rollback n i iIds iWIds iQtys) := by
  induction n with
  | zero =>
    intro i iIds iWIds iQtys
    unfold orderLines
    exact rel_pure rfl
  | succ n ih =>
    intro i iIds iWIds iQtys
    unfold orderLines
    refine rel_bind (R := fun a b => a = b) ?_ ?_
    · by_cases hlast : rollback = true ∧ i + 1 = olCnt
      · simp only [if_pos hlast]
        exact rel_pure rfl
      · simp only [if_neg hlast]
        refine rel_bind (rel_ask_same _ _) ?_
        rintro v _ rfl
        exact rel_pure rfl
    rintro l1 _ rfl
    refine rel_bind (R := fun a b => a = b) ?_ ?_
    · unfold lineIsRemote
      by_cases h1 : 1 < w.sc.Warehouses
      · simp only [if_pos h1]
        refine rel_bind (rel_ask_same _ _) ?_
        rintro r _ rfl
        exact rel_pure rfl
      · simp only [if_neg h1]
        exact rel_pure rfl
    rintro isRemote _ rfl
    refine rel_bind (R := fun a b => a = b) ?_ ?_
    · cases isRemote with
      | true =>
        simp only [if_true]
        refine rel_bind (rel_ask_same _ _) ?_
        rintro v _ rfl
        exact rel_pure rfl
      | false =>
        simp only [Bool.false_eq_true, if_false]
        exact rel_pure rfl
    rintro l2 _ rfl
    refine rel_bind (rel_ask_same _ _) ?_
    rintro q _ rfl
    exact ih (i + 1) _ _ _

theorem rel_dispatch (env : Env) (w : Worker) (r : Int) :
    Gen.Rel (fun _ _ => True) (w.dispatch env r).2 (w.dispatch env.withOkExecutor r).2 := by
  unfold Worker.dispatch
  split_ifs
  · unfold Worker.DoStockLevelTrx
    refine rel_bind (rel_ask_same _ _) ?_
    rintro a _ rfl
    refine rel_bind (rel_ask_same _ _) ?_
    rintro b _ rfl
    refine rel_bind (rel_ask_same _ _) ?_
    rintro c _ rfl
    exact rel_exec env _ _
  · unfold Worker.DoDelivery
    refine rel_bind (rel_ask_same _ _) ?_
    rintro a _ rfl
    refine rel_bind (rel_ask_same _ _) ?_
    rintro b _ rfl
    refine rel_bind (rel_ask_same _ _) ?_
    rintro c _ rfl
    exact rel_exec env _ _
  · unfold Worker.DoOrderStatus
    refine rel_bind (rel_ask_same _ _) ?_
    rintro a _ rfl
    refine rel_bind (rel_ask_same _ _) ?_
    rintro b _ rfl
    refine rel_bind (rel_customer env w) ?_
    rintro ⟨cId, cLast⟩ _ rfl
    exact rel_exec env _ _
  · unfold Worker.DoPayment
    refine rel_bind (rel_ask_same _ _) ?_
    rintro a _ rfl
    refine rel_bind (rel_ask_same _ _) ?_
    rintro b _ rfl
    refine rel_bind (rel_ask_same _ _) ?_
    rintro c _ rfl
    refine rel_bind (rel_ask_same _ _) ?_
    rintro d _ rfl
    refine rel_bind (R := fun a b => a = b) ?_ ?_
    · unfold paymentIsLocal
      by_cases h1 : w.sc.Warehouses = 1
      · simp only [if_pos h1]
        exact rel_pure rfl
      · simp only [if_neg h1]
        refine rel_bind (rel_ask_same _ _) ?_
        rintro r _ rfl
        exact rel_pure rfl
    rintro isLocal _ rfl
    refine rel_bind (R := fun a b => a = b) ?_ ?_
    · cases isLocal with
      | true =>
        simp only [if_true]
        exact rel_pure rfl
      | false =>
        simp only [Bool.false_eq_true, if_false]
        refine rel_bind (rel_ask_same _ _) ?_
        rintro v _ rfl
        refine rel_bind (rel_ask_same _ _) ?_
        rintro v2 _ rfl
        exact rel_pure rfl
    rintro ⟨cWId, cDId⟩ _ rfl
    refine rel_bind (rel_customer env w) ?_
    rintro ⟨cId, cLast⟩ _ rfl
    exact rel_exec env _ _
  · unfold Worker.DoNewOrder
    refine rel_bind (rel_ask_same _ _) ?_
    rintro a _ rfl
    refine rel_bind (rel_ask_same _ _) ?_
    rintro b _ rfl
    refine rel_bind (rel_ask_same _ _) ?_
    rintro c _ rfl
    refine rel_bind (rel_ask_same _ _) ?_
    rintro d _ rfl
    refine rel_bind (rel_ask_same _ _) ?_
    rintro e _ rfl
    refine rel_bind (rel_ask_same _ _) ?_
    rintro f _ rfl
    refine rel_bind (rel_orderLines env w _ _ _ _ 0 [] [] []) ?_
    rintro ⟨iIds, iWIds, iQtys⟩ _ rfl
    exact rel_exec env _ _

theorem rel_iteration (env : Env) (w : Worker) :
    Gen.Rel (fun a b => a = b) (w.iteration env) (w.iteration env.withOkExecutor) := by
  unfold Worker.iteration
  refine rel_bind (rel_ask_same _ _) ?_
  rintro done _ rfl
  cases done with
  | true =>
    simp only [if_true]
    exact rel_pure rfl
  | false =>
    simp only [Bool.false_eq_true, if_false]
    refine rel_bind (R := fun _ _ => True) ?_ ?_
    · unfold Worker.attempt
      refine rel_bind (rel_ask_same _ _) ?_
      rintro r _ rfl
      refine rel_bind (rel_dispatch env w r) ?_
      intro st st' _
      intro wd wd' ho hp
      exact Or.inr ⟨(), _, (), _, rfl, rfl, trivial, ho, hp⟩
    · intro _ _ _
      exact rel_pure rfl

theorem Gen.bind_of_some {α β : Type} (g : Gen α) (f : α → Gen β) (wd : World) (a : α)
    (w1 : World) (h : g wd = some (a, w1)) : (g >>= f) wd = f a w1 := by
  show (match g wd with | none => none | some (a, w1) => f a w1) = _
  rw [h]

theorem execute_succ_of_running (env : Env) (w : Worker) (n : Nat) (wd wd1 : World)
    (h : w.iteration env wd = some (Phase.Running, wd1)) :
    w.Execute env (n + 1) wd = w.Execute env n wd1 := by
  conv => lhs; unfold Worker.Execute
  exact Gen.bind_of_some _ _ wd Phase.Running wd1 h

/-- C10. Under the conditions in which the generators return: an iteration of the
loop of `Execute` either sees the context done and leaves the loop, or makes one
attempt (the draw of the mix, the requests of the generator, one call of the
executor, one send) and stays `Running`; the `Failed` flag of the outcome it
sends is set exactly when the call of the executor returned an error.  After a
`Running` iteration `Execute` goes on with the next one, whatever the flag; and
the phase, the oracle and the cursor after an iteration are those of the same
iteration with an executor that never fails. -/
theorem failure_recorded_loop_goes_on (env : Env) (hs : env.h.Sound) (hk : env.k.WellFormed)
    (w : Worker) (hW : 1 ≤ w.sc.Warehouses) (hD : 1 ≤ w.sc.DistrictsPerWarehouse)
    (hC : 1 ≤ w.sc.CustomersPerDistrict) (hI : 1 ≤ w.sc.Items) :
    Gen.Total (w.iteration env) (fun ph ev =>
      (ph = Phase.Cancelled ∧ ev = [Event.ctxDone true]) ∨
      (ph = Phase.Running ∧ ∃ r pre call st trx, (∀ e ∈ pre, e.isRequest = true) ∧
        ev = [Event.ctxDone false, Event.randInt Site.mix 1 100 r] ++ pre ++
          [Event.exec call st, Event.publish trx] ∧
        (trx.Failed = true ↔ st ≠ none))) ∧
    (∀ (n : Nat) (wd wd1 : World), w.iteration env wd = some (Phase.Running, wd1) →
      w.Execute env (n + 1) wd = w.Execute env n wd1) ∧
    Gen.Rel (fun ph ph' => ph = ph') (w.iteration env) (w.iteration env.withOkExecutor) := by
  refine ⟨?_, fun n wd wd1 h => execute_succ_of_running env w n wd wd1 h, rel_iteration env w⟩
  refine ((iteration_total env hs hk w hW hD hC hI).and (iteration_always env hs w)).tmono ?_
  rintro ph ev ⟨-, h⟩
  rcases h with h | ⟨hph, r, pre, call, st, -, -, hpre, rfl⟩
  · exact Or.inl h
  · refine Or.inr ⟨hph, r, pre, call, st, _, hpre, rfl, ?_⟩
    cases st <;> simp

theorem failure_recorded_loop_goes_on_witness :
    specEnv.h.Sound ∧ specEnv.k.WellFormed ∧ 1 ≤ specWorker.sc.Warehouses ∧
    1 ≤ specWorker.sc.DistrictsPerWarehouse ∧ 1 ≤ specWorker.sc.CustomersPerDistrict ∧
    1 ≤ specWorker.sc.Items ∧
    (specWorker.Execute specEnv 3 (World.init exampleLoopOracle)).map
      (fun r => (r.1, r.2.trace)) = some (Phase.Cancelled, exampleLoopTrace) ∧
    (Gen.Total (specWorker.iteration specEnv) (fun ph ev =>
      (ph = Phase.Cancelled ∧ ev = [Event.ctxDone true]) ∨
      (ph = Phase.Running ∧ ∃ r pre call st trx, (∀ e ∈ pre, e.isRequest = true) ∧
        ev = [Event.ctxDone false, Event.randInt Site.mix 1 100 r] ++ pre ++
          [Event.exec call st, Event.publish trx] ∧
        (trx.Failed = true ↔ st ≠ none))) ∧
    (∀ (n : Nat) (wd wd1 : World),
      specWorker.iteration specEnv wd = some (Phase.Running, wd1) →
      specWorker.Execute specEnv (n + 1) wd = specWorker.Execute specEnv n wd1) ∧
    Gen.Rel (fun ph ph' => ph = ph') (specWorker.iteration specEnv)
      (specWorker.iteration specEnv.withOkExecutor)) :=
  ⟨specHelpers_sound, specConstants_wellFormed, by decide, by decide, by decide, by decide,
    by decide!,
    failure_recorded_loop_goes_on specEnv specHelpers_sound specConstants_wellFormed specWorker
      (by decide) (by decide) (by decide) (by decide)⟩

/-! ## Binary64: the rounding of a quotient -/

theorem log2Fuel_spec (fuel : Nat) :
    ∀ x : Nat, 0 < x → x ≤ fuel →
      2 ^ F64.log2Fuel fuel x ≤ x ∧ x < 2 ^ (F64.log2Fuel fuel x + 1) := by
  induction fuel with
  | zero => intro x h0 h1; omega
  | succ fuel ih =>
    intro x h0 h1
    unfold F64.log2Fuel
    by_cases h2 : x < 2
    · rw [if_pos h2]
      have : x = 1 := by omega
      subst this
      decide
    · rw [if_neg h2]
      obtain ⟨i1, i2⟩ := ih (x / 2) (by omega) (by omega)
      rw [pow_succ, pow_succ]
      constructor <;> omega

theorem log2_spec (x : Nat) (h0 : 0 < x) :
    2 ^ F64.log2 x ≤ x ∧ x < 2 ^ (F64.log2 x + 1) :=
  log2Fuel_spec x x h0 (le_refl x)

theorem geScaled_iff (num den : Nat) (hden : 0 < den) (d : Int) :
    F64.geScaled num den d = true ↔ (2 : ℚ) ^ d ≤ (num : ℚ) / (den : ℚ) := by
  have hd : (0 : ℚ) < (den : ℚ) := by exact_mod_cast hden
  unfold F64.geScaled
  by_cases h0 : 0 ≤ d
  · obtain ⟨k, rfl⟩ := Int.eq_ofNat_of_zero_le h0
    rw [if_pos h0, decide_eq_true_iff, le_div_iff₀ hd, zpow_natCast, Int.toNat_ofNat]
    constructor
    · intro h
      have : ((den * 2 ^ k : Nat) : ℚ) ≤ (num : ℚ) := by exact_mod_cast h
      push_cast at this
      linarith
    · intro h
      have : ((2 ^ k * den : Nat) : ℚ) ≤ (num : ℚ) := by push_cast; exact h
      have h2 : 2 ^ k * den ≤ num := by exact_mod_cast this
      linarith
  · rw [if_neg h0, decide_eq_true_iff]
    obtain ⟨k, hk⟩ : ∃ k : Nat, d = -(k : Int) := ⟨(-d).toNat, by omega⟩
    subst hk
    have hp : (0 : ℚ) < (2 : ℚ) ^ k := by positivity
    rw [zpow_neg, zpow_natCast, le_div_iff₀ hd, neg_neg, Int.toNat_ofNat]
    constructor
    · intro h
      have : ((den : Nat) : ℚ) ≤ ((num * 2 ^ k : Nat) : ℚ) := by exact_mod_cast h
      push_cast at this
      rw [inv_mul_le_iff₀ hp]
      linarith
    · intro h
      rw [inv_mul_le_iff₀ hp] at h
      have : ((den : Nat) : ℚ) ≤ ((num * 2 ^ k : Nat) : ℚ) := by push_cast; linarith
      exact_mod_cast this

theorem ilog2Ratio_le (num den : Nat) (hnum : 0 < num) (hden : 0 < den) :
    (2 : ℚ) ^ F64.ilog2Ratio num den ≤ (num : ℚ) / (den : ℚ) := by
  have hd : (0 : ℚ) < (den : ℚ) := by exact_mod_cast hden
  unfold F64.ilog2Ratio
  simp only []
  by_cases hg : F64.geScaled num den ((F64.log2 num : Int) - (F64.log2 den : Int)) = true
  · rw [if_pos hg]
    exact (geScaled_iff num den hden _).mp hg
  · rw [if_neg hg]
    obtain ⟨a1, -⟩ := log2_spec num hnum
    obtain ⟨-, b2⟩ := log2_spec den hden
    have a1' : (2 : ℚ) ^ (F64.log2 num) ≤ (num : ℚ) := by exact_mod_cast a1
    have b2' : (den : ℚ) < (2 : ℚ) ^ (F64.log2 den + 1) := by exact_mod_cast b2
    rw [le_div_iff₀ hd]
    have e : (2 : ℚ) ^ ((F64.log2 num : Int) - (F64.log2 den : Int) - 1) =
        (2 : ℚ) ^ (F64.log2 num) / (2 : ℚ) ^ (F64.log2 den + 1) := by
      rw [show ((F64.log2 num : Int) - (F64.log2 den : Int) - 1) =
        (F64.log2 num : Int) - ((F64.log2 den + 1 : Nat) : Int) by push_cast; ring]
      rw [zpow_sub₀ (by norm_num), zpow_natCast, zpow_natCast]
    rw [e]
    have hp : (0 : ℚ) < (2 : ℚ) ^ (F64.log2 den + 1) := by positivity
    rw [div_mul_eq_mul_div, div_le_iff₀ hp]
    have h0 : (0 : ℚ) ≤ (2 : ℚ) ^ (F64.log2 num) := by positivity
    nlinarith

theorem roundQuot_spec (N D : Nat) :
    (F64.roundQuot N D = N / D ∨ (F64.roundQuot N D = N / D + 1 ∧ D ≤ 2 * (N % D))) ∧
    (N % D = 0 → 0 < D → F64.roundQuot N D = N / D) := by
  unfold F64.roundQuot
  simp only []
  constructor
  · split_ifs with h1 h2 h3
    · exact Or.inl rfl
    · exact Or.inl rfl
    · exact Or.inr ⟨rfl, by omega⟩
    · exact Or.inr ⟨rfl, by omega⟩
  · intro h0 hD
    rw [if_pos (by omega)]

theorem pow_two_exponent_lt (a b : Int) (h : (2 : ℚ) ^ a < (2 : ℚ) ^ b) : a < b :=
  (zpow_lt_zpow_iff_right₀ (by norm_num : (1 : ℚ) < 2)).mp h

/-- The rounding of a quotient below `2^53`: the result is finite, a multiple
`n * 2^(-s)` of a power of two at most one; its integer part `n / 2^s` is the
integer part of the quotient or one more, the latter only when the quotient is
within half a unit `2^(-s)` of the next integer. -/
theorem round_small (neg : Bool) (num den : Nat) (hnum : 0 < num) (hden : 0 < den)
    (hv : (num : ℚ) / (den : ℚ) < 2 ^ 53) :
    ∃ n s : Nat, F64.round neg num den = F64.fin neg n (-(s : Int)) ∧
      num / den ≤ n / 2 ^ s ∧ n / 2 ^ s ≤ num / den + 1 ∧
      (n / 2 ^ s = num / den + 1 →
        (2 : ℚ) ^ (s + 1) * (((num / den + 1 : Nat) : ℚ) - (num : ℚ) / (den : ℚ)) ≤ 1) ∧
      ((2 : ℚ) ^ ((52 : Int) - s) ≤ (num : ℚ) / (den : ℚ) ∨ s = 1074) ∧
      (num * 2 ^ s % den = 0 → n = num * 2 ^ s / den) := by
  have hd : (0 : ℚ) < (den : ℚ) := by exact_mod_cast hden
  have hE := ilog2Ratio_le num den hnum hden
  have hE52 : F64.ilog2Ratio num den ≤ 52 := by
    have := pow_two_exponent_lt _ 53 (lt_of_le_of_lt hE (by exact_mod_cast hv))
    omega
  obtain ⟨s, hs⟩ : ∃ s : Nat, max (F64.ilog2Ratio num den - 52) (-1074) = -(s : Int) :=
    ⟨(-(max (F64.ilog2Ratio num den - 52) (-1074))).toNat, by omega⟩
  have hn : (if 0 ≤ -(s : Int) then F64.roundQuot num (den * 2 ^ (-(s : Int)).toNat)
      else F64.roundQuot (num * 2 ^ (- -(s : Int)).toNat) den) =
      F64.roundQuot (num * 2 ^ s) den := by
    by_cases h0 : 0 ≤ -(s : Int)
    · have : s = 0 := by omega
      subst this
      simp
    · rw [if_neg h0, neg_neg, Int.toNat_ofNat]
  refine ⟨F64.roundQuot (num * 2 ^ s) den, s, ?_, ?_⟩
  · unfold F64.round
    simp only []
    rw [hs, hn, if_neg (by omega)]
  have hp : 0 < 2 ^ s := Nat.pow_pos (by decide)
  have hq : num * 2 ^ s / den / 2 ^ s = num / den := by
    rw [Nat.div_div_eq_div_mul, Nat.mul_div_mul_right _ _ hp]
  obtain ⟨hr, hr0⟩ := roundQuot_spec (num * 2 ^ s) den
  refine ⟨?_, ?_, ?_, ?_, fun h => hr0 h hden⟩
  · rw [← hq]
    apply Nat.div_le_div_right
    rcases hr with h | ⟨h, -⟩ <;> omega
  · rw [← hq, ← Nat.add_div_right _ hp]
    apply Nat.div_le_div_right
    rcases hr with h | ⟨h, -⟩ <;> omega
  · intro ht
    have hne : F64.roundQuot (num * 2 ^ s) den ≠ num * 2 ^ s / den := by
      intro h
      rw [h, hq] at ht
      omega
    rcases hr with h | ⟨h, hhalf⟩
    · exact absurd h hne
    rw [h] at ht
    have hA : (num / den + 1) * 2 ^ s ≤ num * 2 ^ s / den + 1 := by
      have := (Nat.le_div_iff_mul_le hp).mp (le_of_eq ht.symm)
      exact this
    have hfin : 2 * ((num / den + 1) * 2 ^ s * den) ≤ 2 * (num * 2 ^ s) + den := by
      have h2 := Nat.div_add_mod (num * 2 ^ s) den
      generalize (num / den + 1) * 2 ^ s = A at hA ⊢
      generalize num * 2 ^ s = N at hA h2 hhalf ⊢
      have h1 : A * den ≤ (N / den + 1) * den := Nat.mul_le_mul_right _ hA
      have h3 : (N / den + 1) * den = den * (N / den) + den := by ring
      rw [h3] at h1
      omega
    have hfin' : (2 : ℚ) * (((num / den + 1 : Nat) : ℚ) * 2 ^ s * den) ≤
        2 * ((num : ℚ) * 2 ^ s) + den := by exact_mod_cast hfin
    have key : (2 : ℚ) ^ (s + 1) * (((num / den + 1 : Nat) : ℚ) - (num : ℚ) / (den : ℚ)) =
        (2 * (((num / den + 1 : Nat) : ℚ) * 2 ^ s * den) - 2 * ((num : ℚ) * 2 ^ s)) / den := by
      field_simp
      ring
    rw [key, div_le_one hd]
    linarith
  · by_cases hc : -1074 ≤ F64.ilog2Ratio num den - 52
    · left
      have : (52 : Int) - s = F64.ilog2Ratio num den := by omega
      rw [this]
      exact hE
    · right
      omega

theorem ofInt_small (B : Nat) (h0 : 0 < B) (hB : B < 2 ^ 53) :
    ∃ s : Nat, F64.ofInt (B : Int) = F64.fin false (B * 2 ^ s) (-(s : Int)) := by
  have hv : ((B : Nat) : ℚ) / ((1 : Nat) : ℚ) < 2 ^ 53 := by
    rw [Nat.cast_one, div_one]
    exact_mod_cast hB
  obtain ⟨n, s, hr, -, -, -, -, hex⟩ := round_small false B 1 h0 (by decide) hv
  refine ⟨s, ?_⟩
  have hn : n = B * 2 ^ s := by
    rw [hex (Nat.mod_one _), Nat.div_one]
  unfold F64.ofInt
  rw [if_neg (by omega)]
  have hneg : decide ((B : Int) < 0) = false := by
    rw [decide_eq_false_iff_not]; omega
  rw [hneg, Int.natAbs_ofNat, hr, hn]

theorem div_small (nB sB m : Nat) (e : Int) (hnB : 0 < nB) (hm : 0 < m) :
    ∃ num den : Nat, 0 < num ∧ 0 < den ∧
      F64.div (F64.fin false nB (-(sB : Int))) (F64.fin false m e) = F64.round false num den ∧
      (num : ℚ) / (den : ℚ) = (nB : ℚ) * (2 : ℚ) ^ (-(sB : Int)) / ((m : ℚ) * (2 : ℚ) ^ e) := by
  have h2 : (2 : ℚ) ≠ 0 := by norm_num
  have hmq : (m : ℚ) ≠ 0 := by exact_mod_cast (Nat.pos_iff_ne_zero.mp hm)
  by_cases hc : 0 ≤ -(sB : Int) - e
  · obtain ⟨k, hk⟩ : ∃ k : Nat, -(sB : Int) - e = k := ⟨(-(sB : Int) - e).toNat, by omega⟩
    refine ⟨nB * 2 ^ k, m, Nat.mul_pos hnB (Nat.pow_pos (by decide)), hm, ?_, ?_⟩
    · simp only [F64.div, if_neg (Nat.pos_iff_ne_zero.mp hm),
        if_neg (Nat.pos_iff_ne_zero.mp hnB), if_pos hc, hk, Int.toNat_ofNat]
      rfl
    · have he : (2 : ℚ) ^ (-(sB : Int)) = (2 : ℚ) ^ k * (2 : ℚ) ^ e := by
        rw [← zpow_natCast, ← zpow_add₀ h2]
        congr 1
        omega
      rw [he]
      push_cast
      field_simp
      ring
  · obtain ⟨k, hk⟩ : ∃ k : Nat, e - -(sB : Int) = k := ⟨(e - -(sB : Int)).toNat, by omega⟩
    refine ⟨nB, m * 2 ^ k, hnB, Nat.mul_pos hm (Nat.pow_pos (by decide)), ?_, ?_⟩
    · simp only [F64.div, if_neg (Nat.pos_iff_ne_zero.mp hm),
        if_neg (Nat.pos_iff_ne_zero.mp hnB), if_neg hc, hk, Int.toNat_ofNat]
      rfl
    · have he : (2 : ℚ) ^ e = (2 : ℚ) ^ k * (2 : ℚ) ^ (-(sB : Int)) := by
        rw [← zpow_natCast, ← zpow_add₀ h2]
        congr 1
        omega
      rw [he]
      push_cast
      have : (2 : ℚ) ^ (-(sB : Int)) ≠ 0 := zpow_ne_zero _ h2
      field_simp

theorem toInt_small (oor : F64 → Int) (n s : Nat) (h : n / 2 ^ s < 2 ^ 63) :
    F64.toInt oor (F64.fin false n (-(s : Int))) = ((n / 2 ^ s : Nat) : Int) := by
  have ht : F64.trunc (F64.fin false n (-(s : Int))) = some ((n / 2 ^ s : Nat) : Int) := by
    unfold F64.trunc
    simp only [Bool.false_eq_true, if_false, Option.some.injEq, Nat.cast_inj, neg_neg,
      Int.toNat_ofNat]
    by_cases h0 : 0 ≤ -(s : Int)
    · have : s = 0 := by omega
      subst this
      simp
    · rw [if_neg h0]
  unfold F64.toInt
  rw [ht]
  simp only []
  rw [if_pos]
  constructor
  · have : (0 : Int) ≤ ((n / 2 ^ s : Nat) : Int) := Int.ofNat_nonneg _
    omega
  · exact_mod_cast h

theorem floor_natCast_div (num den : Nat) :
    ⌊(num : ℚ) / (den : ℚ)⌋ = ((num / den : Nat) : Int) := by
  have h := Rat.floor_intCast_div_natCast (num : Int) den
  rw [Int.cast_natCast] at h
  rw [h, Int.natCast_div]

/-- The count `int(float64(B) / f)` of `NewScaleParameters`, for a base count
`0 ≤ B < 2^53` and a finite positive `f` with `B / f < 2^53`: it is the integer
part of `B / f` or one more, the latter only when `B / f` is within half a unit
`2^(-s)` of the next integer, `2^(-s)` being the spacing of binary64 at
`B / f`. -/
theorem scaled_count (oor : F64 → Int) (B : Int) (m : Nat) (e : Int) (h0 : 0 ≤ B)
    (hB : B < 2 ^ 53) (hm : 0 < m)
    (hv : (B : ℚ) / F64.toRat (F64.fin false m e) < 2 ^ 53) :
    ⌊(B : ℚ) / F64.toRat (F64.fin false m e)⌋ ≤
        F64.toInt oor (F64.div (F64.ofInt B) (F64.fin false m e)) ∧
    F64.toInt oor (F64.div (F64.ofInt B) (F64.fin false m e)) ≤
        ⌊(B : ℚ) / F64.toRat (F64.fin false m e)⌋ + 1 ∧
    (F64.toInt oor (F64.div (F64.ofInt B) (F64.fin false m e)) =
        ⌊(B : ℚ) / F64.toRat (F64.fin false m e)⌋ + 1 →
      ∃ s : Nat, (2 : ℚ) ^ (s + 1) *
          (((⌊(B : ℚ) / F64.toRat (F64.fin false m e)⌋ + 1 : Int) : ℚ) -
            (B : ℚ) / F64.toRat (F64.fin false m e)) ≤ 1 ∧
        ((2 : ℚ) ^ ((52 : Int) - s) ≤ (B : ℚ) / F64.toRat (F64.fin false m e) ∨
          s = 1074)) := by
  have hf : F64.toRat (F64.fin false m e) = (m : ℚ) * (2 : ℚ) ^ e := by
    simp [F64.toRat]
  rw [hf] at hv ⊢
  obtain ⟨b, rfl⟩ := Int.eq_ofNat_of_zero_le h0
  rcases Nat.eq_zero_or_pos b with hb | hb
  · subst hb
    have hc : F64.toInt oor (F64.div (F64.ofInt ((0 : Nat) : Int)) (F64.fin false m e)) = 0 := by
      simp [F64.ofInt, F64.div, Nat.pos_iff_ne_zero.mp hm, F64.toInt, F64.trunc]
    rw [hc]
    simp
  · obtain ⟨sB, hof⟩ := ofInt_small b hb (by exact_mod_cast hB)
    obtain ⟨num, den, hnum, hden, hdiv, hq⟩ :=
      div_small (b * 2 ^ sB) sB m e (Nat.mul_pos hb (Nat.pow_pos (by decide))) hm
    have hq' : (num : ℚ) / (den : ℚ) = ((b : Int) : ℚ) / ((m : ℚ) * (2 : ℚ) ^ e) := by
      rw [hq]
      push_cast
      have h2 : (2 : ℚ) ^ sB ≠ 0 := by positivity
      rw [zpow_neg, zpow_natCast, mul_assoc, mul_inv_cancel₀ h2, mul_one]
    rw [← hq'] at hv ⊢
    obtain ⟨n, s, hr, hlo, hhi, hup, hE, -⟩ := round_small false num den hnum hden hv
    have hfl := floor_natCast_div num den
    have hF : num / den < 2 ^ 53 := by
      have h1 : ((num / den : Nat) : ℚ) ≤ (num : ℚ) / (den : ℚ) := Nat.cast_div_le
      have h2 : ((num / den : Nat) : ℚ) < ((2 ^ 53 : Nat) : ℚ) := by
        push_cast
        exact lt_of_le_of_lt h1 hv
      exact_mod_cast h2
    rw [hof, hdiv, hr, toInt_small oor n s (by omega), hfl]
    refine ⟨by exact_mod_cast hlo, by exact_mod_cast hhi, ?_⟩
    intro heq
    have heq' : n / 2 ^ s = num / den + 1 := by exact_mod_cast heq
    refine ⟨s, ?_, hE⟩
    have := hup heq'
    push_cast at this ⊢
    exact this

theorem toRat_pos_fin (f : F64) (h : 0 < f.toRat) :
    ∃ (m : Nat) (e : Int), f = F64.fin false m e ∧ 0 < m ∧ f.toRat = (m : ℚ) * (2 : ℚ) ^ e := by
  cases f with
  | nan => simp [F64.toRat] at h
  | inf s => simp [F64.toRat] at h
  | fin s m e =>
    have hp : (0 : ℚ) < (2 : ℚ) ^ e := zpow_pos (by norm_num) e
    cases s with
    | true =>
      exfalso
      simp only [F64.toRat, if_true] at h
      have : (0 : ℚ) ≤ (m : ℚ) * (2 : ℚ) ^ e := by positivity
      linarith
    | false =>
      refine ⟨m, e, rfl, ?_, by simp [F64.toRat]⟩
      rcases Nat.eq_zero_or_pos m with h0 | h0
      · subst h0
        simp [F64.toRat] at h
      · exact h0

/-- When the scale factor is a whole number `K`, the count is exactly the integer
quotient. -/
theorem scaled_count_exact (oor : F64 → Int) (B : Int) (m : Nat) (e : Int) (K : Nat)
    (h0 : 0 ≤ B) (hB : B < 2 ^ 53) (hm : 0 < m)
    (hrep : F64.Representable (F64.fin false m e))
    (hK : F64.toRat (F64.fin false m e) = (K : ℚ)) :
    F64.toInt oor (F64.div (F64.ofInt B) (F64.fin false m e)) = B / (K : Int) := by
  have hf : F64.toRat (F64.fin false m e) = (m : ℚ) * (2 : ℚ) ^ e := by
    simp [F64.toRat]
  have hpe : (0 : ℚ) < (2 : ℚ) ^ e := zpow_pos (by norm_num) e
  have hmq : (0 : ℚ) < (m : ℚ) := by exact_mod_cast hm
  have hKq : (0 : ℚ) < (K : ℚ) := by rw [← hK, hf]; positivity
  have hK1 : 1 ≤ K := by
    have : 0 < K := by exact_mod_cast hKq
    omega
  have hBq : (B : ℚ) < 2 ^ 53 := by exact_mod_cast hB
  have hB0 : (0 : ℚ) ≤ (B : ℚ) := by exact_mod_cast h0
  have hv : (B : ℚ) / F64.toRat (F64.fin false m e) < 2 ^ 53 := by
    rw [hK, div_lt_iff₀ hKq]
    have : (1 : ℚ) ≤ (K : ℚ) := by exact_mod_cast hK1
    nlinarith
  obtain ⟨hlo, hhi, hup⟩ := scaled_count oor B m e h0 hB hm hv
  have hfloor : ⌊(B : ℚ) / F64.toRat (F64.fin false m e)⌋ = B / (K : Int) := by
    rw [hK]
    exact Rat.floor_intCast_div_natCast B K
  rw [hfloor] at hlo hhi hup
  by_contra hne
  have heq : F64.toInt oor (F64.div (F64.ofInt B) (F64.fin false m e)) = B / (K : Int) + 1 := by
    omega
  obtain ⟨s, h1, h2⟩ := hup heq
  rw [hK] at h1 h2
  -- the next integer is at least `1 / K` above the quotient
  have hgap : (1 : ℚ) / K ≤ ((B / (K : Int) + 1 : Int) : ℚ) - (B : ℚ) / (K : ℚ) := by
    have hlt : B < (B / (K : Int) + 1) * (K : Int) := by
      have := Int.lt_ediv_add_one_mul_self B (show (0 : Int) < (K : Int) by exact_mod_cast hK1)
      linarith
    have hle : B + 1 ≤ (B / (K : Int) + 1) * (K : Int) := by omega
    have hleq : (B : ℚ) + 1 ≤ ((B / (K : Int) + 1 : Int) : ℚ) * (K : ℚ) := by exact_mod_cast hle
    rw [div_le_iff₀ hKq, sub_mul, div_mul_cancel₀ _ (ne_of_gt hKq)]
    linarith
  have hps : (0 : ℚ) < (2 : ℚ) ^ (s + 1) := by positivity
  have hKs : (2 : ℚ) ^ (s + 1) ≤ (K : ℚ) := by
    have h3 : (2 : ℚ) ^ (s + 1) * ((1 : ℚ) / K) ≤ 1 :=
      le_trans (mul_le_mul_of_nonneg_left hgap (le_of_lt hps)) h1
    rw [mul_one_div, div_le_one hKq] at h3
    exact h3
  rcases h2 with h2 | h2
  · rw [le_div_iff₀ hKq] at h2
    have h53 : (2 : ℚ) ^ ((52 : Int) - s) * (2 : ℚ) ^ (s + 1) = 2 ^ 53 := by
      rw [← zpow_natCast, ← zpow_add₀ (by norm_num)]
      have : (52 : Int) - s + ((s + 1 : Nat) : Int) = 53 := by push_cast; ring
      rw [this]
      norm_num
    have hpz : (0 : ℚ) < (2 : ℚ) ^ ((52 : Int) - s) := zpow_pos (by norm_num) _
    have : (2 : ℚ) ^ ((52 : Int) - s) * (2 : ℚ) ^ (s + 1) ≤ (2 : ℚ) ^ ((52 : Int) - s) * K :=
      mul_le_mul_of_nonneg_left hKs (le_of_lt hpz)
    linarith
  · subst h2
    obtain ⟨hm53, -, he971⟩ := hrep
    have hm53q : (m : ℚ) < 2 ^ 53 := by exact_mod_cast hm53
    have he : (2 : ℚ) ^ e ≤ (2 : ℚ) ^ (971 : Int) :=
      zpow_le_zpow_right₀ (by norm_num) he971
    have hK2 : (K : ℚ) < (2 : ℚ) ^ (53 : Nat) * (2 : ℚ) ^ (971 : Int) := by
      rw [← hK, hf]
      calc (m : ℚ) * (2 : ℚ) ^ e ≤ (m : ℚ) * (2 : ℚ) ^ (971 : Int) :=
            mul_le_mul_of_nonneg_left he (le_of_lt hmq)
        _ < (2 : ℚ) ^ (53 : Nat) * (2 : ℚ) ^ (971 : Int) :=
            mul_lt_mul_of_pos_right hm53q (zpow_pos (by norm_num) _)
    have h1024 : (2 : ℚ) ^ (53 : Nat) * (2 : ℚ) ^ (971 : Int) ≤ (2 : ℚ) ^ (1074 + 1) := by
      rw [← zpow_natCast, ← zpow_natCast, ← zpow_add₀ (by norm_num)]
      exact zpow_le_zpow_right₀ (by norm_num) (by norm_num)
    linarith

/-! ## The scale parameters -/

theorem newScaleParameters_fields (oor : F64 → Int) (f : F64) (items W D C N : Int) :
    (NewScaleParameters oor f items W D C N).2 = none ∧
    (NewScaleParameters oor f items W D C N).1.Warehouses = W ∧
    (NewScaleParameters oor f items W D C N).1.DistrictsPerWarehouse = D ∧
    (NewScaleParameters oor f items W D C N).1.Items =
      F64.toInt oor (F64.div (F64.ofInt items) f) ∧
    (NewScaleParameters oor f items W D C N).1.CustomersPerDistrict =
      F64.toInt oor (F64.div (F64.ofInt C) f) ∧
    (NewScaleParameters oor f items W D C N).1.NewOrdersPerDistrict =
      F64.toInt oor (F64.div (F64.ofInt N) f) :=
  ⟨rfl, rfl, rfl, rfl, rfl, rfl⟩

theorem scaled_count_of_scales (oor : F64 → Int) (f : F64) (B : Int) (hf : 0 < f.toRat)
    (h : f.Scales B) :
    (⌊(B : ℚ) / f.toRat⌋ ≤ F64.toInt oor (F64.div (F64.ofInt B) f) ∧
      F64.toInt oor (F64.div (F64.ofInt B) f) ≤ ⌊(B : ℚ) / f.toRat⌋ + 1) ∧
    (∀ K : Nat, f.Representable → f.toRat = (K : ℚ) →
      F64.toInt oor (F64.div (F64.ofInt B) f) = ⌊(B : ℚ) / f.toRat⌋) := by
  obtain ⟨m, e, rfl, hm, -⟩ := toRat_pos_fin f hf
  obtain ⟨h0, hB, hv⟩ := h
  obtain ⟨hlo, hhi, -⟩ := scaled_count oor B m e h0 hB hm hv
  refine ⟨⟨hlo, hhi⟩, ?_⟩
  intro K hrep hK
  rw [scaled_count_exact oor B m e K h0 hB hm hrep hK, hK]
  exact (Rat.floor_intCast_div_natCast B K).symm

/-- C2, as the code has it. For every finite scale factor `f > 0` and base counts `B` with
`0 ≤ B < 2^53` and `B / f < 2^53`: `NewScaleParameters` returns no error,
`Warehouses` and `DistrictsPerWarehouse` are the arguments, and each scaled
field is `floor(B / f)` or `floor(B / f) + 1` (the quotient is rounded to
binary64 before it is truncated); it is `floor(B / f)` whenever `f` is a whole
number. -/
theorem newScaleParameters_scaled (oor : F64 → Int) (f : F64) (items W D C N : Int)
    (hf : 0 < f.toRat) (hi : f.Scales items) (hc : f.Scales C) (hn : f.Scales N) :
    (NewScaleParameters oor f items W D C N).2 = none ∧
    (NewScaleParameters oor f items W D C N).1.Warehouses = W ∧
    (NewScaleParameters oor f items W D C N).1.DistrictsPerWarehouse = D ∧
    (⌊(items : ℚ) / f.toRat⌋ ≤ (NewScaleParameters oor f items W D C N).1.Items ∧
      (NewScaleParameters oor f items W D C N).1.Items ≤ ⌊(items : ℚ) / f.toRat⌋ + 1) ∧
    (⌊(C : ℚ) / f.toRat⌋ ≤ (NewScaleParameters oor f items W D C N).1.CustomersPerDistrict ∧
      (NewScaleParameters oor f items W D C N).1.CustomersPerDistrict ≤
        ⌊(C : ℚ) / f.toRat⌋ + 1) ∧
    (⌊(N : ℚ) / f.toRat⌋ ≤ (NewScaleParameters oor f items W D C N).1.NewOrdersPerDistrict ∧
      (NewScaleParameters oor f items W D C N).1.NewOrdersPerDistrict ≤
        ⌊(N : ℚ) / f.toRat⌋ + 1) ∧
    (∀ K : Nat, f.Representable → f.toRat = (K : ℚ) →
      (NewScaleParameters oor f items W D C N).1.Items = ⌊(items : ℚ) / f.toRat⌋ ∧
      (NewScaleParameters oor f items W D C N).1.CustomersPerDistrict =
        ⌊(C : ℚ) / f.toRat⌋ ∧
      (NewScaleParameters oor f items W D C N).1.NewOrdersPerDistrict =
        ⌊(N : ℚ) / f.toRat⌋) := by
  obtain ⟨e1, e2, e3, e4, e5, e6⟩ := newScaleParameters_fields oor f items W D C N
  obtain ⟨bi, xi⟩ := scaled_count_of_scales oor f items hf hi
  obtain ⟨bc, xc⟩ := scaled_count_of_scales oor f C hf hc
  obtain ⟨bn, xn⟩ := scaled_count_of_scales oor f N hf hn
  rw [e4, e5, e6]
  exact ⟨e1, e2, e3, bi, bc, bn, fun K hrep hK => ⟨xi K hrep hK, xc K hrep hK, xn K hrep hK⟩⟩

theorem toRat_one : F64.toRat (F64.fin false 1 0) = ((1 : Nat) : ℚ) := by
  simp [F64.toRat]

theorem scales_one (B : Int) (h0 : 0 ≤ B) (hB : B < 2 ^ 53) :
    (F64.fin false 1 0).Scales B := by
  refine ⟨h0, hB, ?_⟩
  rw [toRat_one, Nat.cast_one, div_one]
  exact_mod_cast hB

theorem newScaleParameters_scaled_witness :
    0 < (F64.fin false 1 0).toRat ∧ (F64.fin false 1 0).Scales 100000 ∧
    (F64.fin false 1 0).Scales 3000 ∧ (F64.fin false 1 0).Scales 900 ∧
    NewScaleParameters amd64 (F64.fin false 1 0) 100000 1 10 3000 900 =
      ({ Items := 100000, Warehouses := 1, DistrictsPerWarehouse := 10,
         CustomersPerDistrict := 3000, NewOrdersPerDistrict := 900 }, none) := by
  have hpos : 0 < (F64.fin false 1 0).toRat := by rw [toRat_one]; norm_num
  have h1 := scales_one 100000 (by decide) (by decide)
  have h2 := scales_one 3000 (by decide) (by decide)
  have h3 := scales_one 900 (by decide) (by decide)
  obtain ⟨e1, e2, e3, -, -, -, hx⟩ :=
    newScaleParameters_scaled amd64 (F64.fin false 1 0) 100000 1 10 3000 900 hpos h1 h2 h3
  obtain ⟨x1, x2, x3⟩ := hx 1 ⟨by decide, by decide, by decide⟩ toRat_one
  have f1 : ⌊((100000 : Int) : ℚ) / (F64.fin false 1 0).toRat⌋ = 100000 := by
    rw [toRat_one, Nat.cast_one, div_one, Int.floor_intCast]
  have f2 : ⌊((3000 : Int) : ℚ) / (F64.fin false 1 0).toRat⌋ = 3000 := by
    rw [toRat_one, Nat.cast_one, div_one, Int.floor_intCast]
  have f3 : ⌊((900 : Int) : ℚ) / (F64.fin false 1 0).toRat⌋ = 900 := by
    rw [toRat_one, Nat.cast_one, div_one, Int.floor_intCast]
  rw [f1] at x1
  rw [f2] at x2
  rw [f3] at x3
  refine ⟨hpos, h1, h2, h3, ?_⟩
  generalize NewScaleParameters amd64 (F64.fin false 1 0) 100000 1 10 3000 900 = r at *
  obtain ⟨⟨a, b, c, d, e⟩, err⟩ := r
  simp only at e1 e2 e3 x1 x2 x3
  subst e1 e2 e3 x1 x2 x3
  rfl

/-- C2, counterexample to the exact floor: for the scale factor 1 and the base count `2^53 + 1` the
field `Items` is `2^53`, not `floor((2^53 + 1) / 1) = 2^53 + 1`: the conversion
`float64(items)` rounds. -/
theorem newScaleParameters_floor_counterexample :
    F64.isPos (F64.fin false 1 0) = true ∧ (0 : Int) ≤ 2 ^ 53 + 1 ∧
    (NewScaleParameters amd64 (F64.fin false 1 0) (2 ^ 53 + 1) 1 10 3000 900).1.Items
      = 2 ^ 53 ∧
    ⌊((2 ^ 53 + 1 : Int) : ℚ) / (F64.fin false 1 0).toRat⌋ = 2 ^ 53 + 1 := by
  refine ⟨by decide, by decide, by decide, ?_⟩
  rw [toRat_one, Nat.cast_one, div_one, Int.floor_intCast]

/-- The two outcomes of `scaled_count` both occur with the default base count: for
the binary64 value nearest to one tenth, `Items` is `1000000` although the
integer part of the exact quotient is `999999`. -/
theorem scaled_count_rounds_up :
    (NewScaleParameters amd64 (F64.fin false 3602879701896397 (-55)) 100000 1 10 3000
      900).1.Items = 1000000 ∧
    ⌊((100000 : Int) : ℚ) / (F64.fin false 3602879701896397 (-55)).toRat⌋ = 999999 := by
  refine ⟨by decide, ?_⟩
  have h : (F64.fin false 3602879701896397 (-55)).toRat = 3602879701896397 / 2 ^ 55 := by
    simp only [F64.toRat, Bool.false_eq_true, if_false, one_mul]
    rw [zpow_neg, zpow_ofNat]
    rfl
  rw [h, Int.floor_eq_iff]
  constructor <;> norm_num

/-- Below the range of `Scales` the conversion to `int` is out of range: for the
scale factor `2^-60` the quotient `100000 * 2^60` does not fit in 64 bits, and
on amd64 `Items` is `-2^63`. -/
theorem scaled_count_out_of_range :
    F64.isPos (F64.fin false 1 (-60)) = true ∧
    (NewScaleParameters amd64 (F64.fin false 1 (-60)) 100000 1 10 3000 900).1.Items
      = -(2 : Int) ^ 63 ∧
    (NewScaleParameters arm64 (F64.fin false 1 (-60)) 100000 1 10 3000 900).1.Items
      = 2 ^ 63 - 1 := by
  refine ⟨by decide, by decide, by decide⟩

/-! ## Binary64: the exponent is exact and the mantissa nearest -/

theorem ilog2Ratio_lt (num den : Nat) (hnum : 0 < num) (hden : 0 < den) :
    (num : ℚ) / (den : ℚ) < (2 : ℚ) ^ (F64.ilog2Ratio num den + 1) := by
  have hd : (0 : ℚ) < (den : ℚ) := by exact_mod_cast hden
  unfold F64.ilog2Ratio
  simp only []
  by_cases hg : F64.geScaled num den ((F64.log2 num : Int) - (F64.log2 den : Int)) = true
  · rw [if_pos hg]
    obtain ⟨-, a2⟩ := log2_spec num hnum
    obtain ⟨b1, -⟩ := log2_spec den hden
    have a2' : (num : ℚ) < (2 : ℚ) ^ (F64.log2 num + 1) := by exact_mod_cast a2
    have b1' : (2 : ℚ) ^ (F64.log2 den) ≤ (den : ℚ) := by exact_mod_cast b1
    have e : (2 : ℚ) ^ ((F64.log2 num : Int) - (F64.log2 den : Int) + 1) =
        (2 : ℚ) ^ (F64.log2 num + 1) / (2 : ℚ) ^ (F64.log2 den) := by
      rw [show ((F64.log2 num : Int) - (F64.log2 den : Int) + 1) =
        ((F64.log2 num + 1 : Nat) : Int) - (F64.log2 den : Int) by push_cast; ring]
      rw [zpow_sub₀ (by norm_num), zpow_natCast, zpow_natCast]
    rw [e, div_lt_iff₀ hd]
    have hp : (0 : ℚ) < (2 : ℚ) ^ (F64.log2 den) := by positivity
    rw [div_mul_eq_mul_div, lt_div_iff₀ hp]
    have h0 : (0 : ℚ) < (2 : ℚ) ^ (F64.log2 num + 1) := by positivity
    have hn0 : (0 : ℚ) ≤ (num : ℚ) := by positivity
    nlinarith
  · rw [if_neg hg, sub_add_cancel]
    have := (geScaled_iff num den hden _).not.mp hg
    exact not_le.mp this

/-- The integer `roundQuot N D` is a nearest one to `N / D`: twice its distance to
the quotient is at most one. -/
theorem roundQuot_nearest (N D : Nat) (hD : 0 < D) :
    2 * (F64.roundQuot N D * D) ≤ 2 * N + D ∧ 2 * N ≤ 2 * (F64.roundQuot N D * D) + D := by
  have h1 := Nat.div_add_mod N D
  have h2 := Nat.mod_lt N hD
  have h3 : (N / D + 1) * D = D * (N / D) + D := by ring
  have h4 : N / D * D = D * (N / D) := by ring
  unfold F64.roundQuot
  simp only []
  split_ifs with c1 c2 c3
  · rw [h4]; omega
  · rw [h4]; omega
  · rw [h3]; omega
  · rw [h3]; omega

/-! ## The surname -/

theorem surnameRun_spec (env : Env) (s : String) (ev : List Event) (h : SurnameRun env s ev) :
    ∃ a b c, 0 ≤ a ∧ a ≤ 256 ∧ 0 ≤ b ∧ b ≤ 1000 ∧ 0 ≤ c ∧ c ≤ 256 ∧
      drawsAt Site.sylA ev = [a] ∧ drawsAt Site.sylB ev = [b] ∧ drawsAt Site.sylC ev = [c] ∧
      surnameSpec env.k.SYLLABES a b c = some s := by
  obtain ⟨a, b, c, s1, s2, s3, ha, ha2, hb, hb2, hc, hc2, -, g1, -, g2, -, g3, rfl, rfl⟩ := h
  obtain ⟨hs, hn0, hn1, -, -⟩ := sylN_range a b c ha ha2 hb hb2 hc hc2
  obtain ⟨-, -, -, e1, e2, e3⟩ := digits_range (sylN a b c) hn0 hn1
  rw [e1] at g1
  rw [e2] at g2
  rw [e3] at g3
  rw [hs] at g1 g2 g3
  refine ⟨a, b, c, ha, ha2, hb, hb2, hc, hc2, by simp [drawsAt, surnameEvents, Event.draw?],
    by simp [drawsAt, surnameEvents, Event.draw?], by simp [drawsAt, surnameEvents, Event.draw?],
    ?_⟩
  unfold surnameSpec
  simp only [g1, g2, g3]

theorem customerRun_spec (env : Env) (w : Worker) (cId : Int) (cLast : String)
    (ev : List Event) (h : CustomerRun env w cId cLast ev) :
    ∃ r, drawsAt Site.byName ev = [r] ∧
      (r ≤ 60 → ∃ a b c, 0 ≤ a ∧ a ≤ 256 ∧ 0 ≤ b ∧ b ≤ 1000 ∧ 0 ≤ c ∧ c ≤ 256 ∧
        drawsAt Site.sylA ev = [a] ∧ drawsAt Site.sylB ev = [b] ∧
        drawsAt Site.sylC ev = [c] ∧ surnameSpec env.k.SYLLABES a b c = some cLast) ∧
      (60 < r → drawsAt Site.sylA ev = [] ∧ drawsAt Site.sylB ev = [] ∧
        drawsAt Site.sylC ev = [] ∧ cLast = "") := by
  obtain ⟨r, -, -, hcase⟩ := h
  rcases hcase with ⟨h60, -, ev1, hrun, rfl⟩ | ⟨h60, rfl, -, rfl⟩
  · obtain ⟨a, b, c, ha, ha2, hb, hb2, hc, hc2, dA, dB, dC, hsp⟩ := surnameRun_spec env cLast ev1 hrun
    have hby : drawsAt Site.byName ev1 = [] := by
      obtain ⟨a, b, c, s1, s2, s3, -, -, -, -, -, -, -, -, -, -, -, -, -, rfl⟩ := hrun
      simp [drawsAt, surnameEvents, Event.draw?]
    have cons : ∀ site, drawsAt site (Event.randInt Site.byName 1 100 r :: ev1) =
        (if Site.byName = site then [r] else []) ++ drawsAt site ev1 := by
      intro site
      unfold drawsAt
      by_cases hsite : Site.byName = site <;> simp [Event.draw?, hsite]
    refine ⟨r, by rw [cons, hby]; simp, fun _ => ⟨a, b, c, ha, ha2, hb, hb2, hc, hc2, ?_, ?_, ?_, hsp⟩,
      fun h => by omega⟩
    · rw [cons, dA]; simp
    · rw [cons, dB]; simp
    · rw [cons, dC]; simp
  · refine ⟨r, by simp [drawsAt, Event.draw?], fun h => by omega, fun _ => ?_⟩
    simp [drawsAt, Event.draw?]

/-- C14. For draws `a` of `[0,256]`, `b` of `[0,1000]` and `c` of `[0,256]` the
number `sylN a b c` of the source, `(a|b+c)%1000`, is `((a OR b) + c) mod 1000`
(the OR before the addition: on 1, 2, 1 it is 4, not 3) and lies in `[0, 999]`.
In `DoOrderStatus` and in `DoPayment` alike, when the selection draw is at most
60 the surname passed to the executor is the one of the specification,
`surnameSpec`, on the three draws made at `sylA`, `sylB`, `sylC`: the syllables
of the hundreds, tens and units digits; otherwise no such draw is made and
the surname is empty. -/
theorem surname_synthesis (env : Env) (hs : env.h.Sound) (w : Worker) :
    (∀ a b c : Int, 0 ≤ a → a ≤ 256 → 0 ≤ b → b ≤ 1000 → 0 ≤ c → c ≤ 256 →
      sylN a b c = (Int.lor a b + c) % 1000 ∧ 0 ≤ sylN a b c ∧ sylN a b c ≤ 999) ∧
    sylN 1 2 1 = 4 ∧
    Gen.Always (w.DoOrderStatus env) (fun _ ev =>
      ∃ wId dId cId cLast r,
        execCalls ev = [ExecCall.DoOrderStatus wId dId cId cLast] ∧
        drawsAt Site.byName ev = [r] ∧
        (r ≤ 60 → ∃ a b c, 0 ≤ a ∧ a ≤ 256 ∧ 0 ≤ b ∧ b ≤ 1000 ∧ 0 ≤ c ∧ c ≤ 256 ∧
          drawsAt Site.sylA ev = [a] ∧ drawsAt Site.sylB ev = [b] ∧
          drawsAt Site.sylC ev = [c] ∧ surnameSpec env.k.SYLLABES a b c = some cLast) ∧
        (60 < r → drawsAt Site.sylA ev = [] ∧ drawsAt Site.sylB ev = [] ∧
          drawsAt Site.sylC ev = [] ∧ cLast = "")) ∧
    Gen.Always (w.DoPayment env) (fun _ ev =>
      ∃ wId dId hAmount cWId cDId cId cLast hDate r,
        execCalls ev = [ExecCall.DoPayment wId dId hAmount cWId cDId cId cLast hDate
          env.k.BAD_CREDIT env.k.MAX_C_DATA] ∧
        drawsAt Site.byName ev = [r] ∧
        (r ≤ 60 → ∃ a b c, 0 ≤ a ∧ a ≤ 256 ∧ 0 ≤ b ∧ b ≤ 1000 ∧ 0 ≤ c ∧ c ≤ 256 ∧
          drawsAt Site.sylA ev = [a] ∧ drawsAt Site.sylB ev = [b] ∧
          drawsAt Site.sylC ev = [c] ∧ surnameSpec env.k.SYLLABES a b c = some cLast) ∧
        (60 < r → drawsAt Site.sylA ev = [] ∧ drawsAt Site.sylB ev = [] ∧
          drawsAt Site.sylC ev = [] ∧ cLast = "")) := by
  refine ⟨?_, by decide, ?_, ?_⟩
  · intro a b c ha ha2 hb hb2 hc hc2
    obtain ⟨h1, h2, h3, -, -⟩ := sylN_range a b c ha ha2 hb hb2 hc hc2
    exact ⟨h1, h2, h3⟩
  · refine (doOrderStatus_always env hs w).mono ?_
    rintro st ev ⟨wId, dId, cId, cLast, evc, -, -, hrun, rfl⟩
    obtain ⟨r, hby, hname, hid⟩ := customerRun_spec env w cId cLast evc hrun
    obtain ⟨hq, -, -⟩ := customerRun_quiet env w cId cLast evc hrun
    have pre : ∀ site, site = Site.byName ∨ site = Site.sylA ∨ site = Site.sylB ∨
        site = Site.sylC →
        drawsAt site ([Event.randInt Site.wId 1 w.sc.Warehouses wId,
          Event.randInt Site.dId 1 w.sc.DistrictsPerWarehouse dId] ++ evc ++
          [Event.exec (ExecCall.DoOrderStatus wId dId cId cLast) st]) = drawsAt site evc := by
      intro site hsite
      simp only [drawsAt_append]
      rcases hsite with rfl | rfl | rfl | rfl <;> simp [drawsAt, Event.draw?]
    refine ⟨wId, dId, cId, cLast, r, ?_, ?_, ?_, ?_⟩
    · simp only [execCalls_append, hq]
      simp [execCalls, Event.call?]
    · rw [pre _ (Or.inl rfl)]; exact hby
    · intro h60
      obtain ⟨a, b, c, ha, ha2, hb, hb2, hc, hc2, dA, dB, dC, hsp⟩ := hname h60
      refine ⟨a, b, c, ha, ha2, hb, hb2, hc, hc2, ?_, ?_, ?_, hsp⟩
      · rw [pre _ (Or.inr (Or.inl rfl))]; exact dA
      · rw [pre _ (Or.inr (Or.inr (Or.inl rfl)))]; exact dB
      · rw [pre _ (Or.inr (Or.inr (Or.inr rfl)))]; exact dC
    · intro h60
      obtain ⟨dA, dB, dC, hl⟩ := hid h60
      refine ⟨?_, ?_, ?_, hl⟩
      · rw [pre _ (Or.inr (Or.inl rfl))]; exact dA
      · rw [pre _ (Or.inr (Or.inr (Or.inl rfl)))]; exact dB
      · rw [pre _ (Or.inr (Or.inr (Or.inr rfl)))]; exact dC
  · refine (doPayment_always env hs w).mono ?_
    rintro st ev ⟨wId, dId, hAmount, hDate, cWId, cDId, cId, cLast, evp, evc, -, -, hp, hrun, rfl⟩
    obtain ⟨r, hby, hname, hid⟩ := customerRun_spec env w cId cLast evc hrun
    obtain ⟨hq, -, -⟩ := customerRun_quiet env w cId cLast evc hrun
    obtain ⟨hpq, -⟩ := paymentPlaceRun_quiet w wId dId cWId cDId evp hp
    have hpl : ∀ site, site = Site.byName ∨ site = Site.sylA ∨ site = Site.sylB ∨
        site = Site.sylC → drawsAt site evp = [] := by
      intro site hsite
      rcases hp with ⟨-, -, -, rfl⟩ | ⟨-, r, -, -, ⟨-, -, -, rfl⟩ | ⟨-, -, -, rfl⟩⟩ <;>
        rcases hsite with rfl | rfl | rfl | rfl <;> simp [drawsAt, Event.draw?]
    have pre : ∀ site, site = Site.byName ∨ site = Site.sylA ∨ site = Site.sylB ∨
        site = Site.sylC →
        drawsAt site ([Event.randInt Site.wId 1 w.sc.Warehouses wId,
          Event.randInt Site.dId 1 w.sc.DistrictsPerWarehouse dId,
          Event.randFloat Site.hAmount env.k.MIN_PAYMENT env.k.MAX_PAYMENT
            env.k.MONEY_DECIMALS hAmount,
          Event.timeNow Site.hDate hDate] ++ evp ++ evc ++
          [Event.exec (ExecCall.DoPayment wId dId hAmount cWId cDId cId cLast hDate
            env.k.BAD_CREDIT env.k.MAX_C_DATA) st]) = drawsAt site evc := by
      intro site hsite
      simp only [drawsAt_append, hpl site hsite]
      rcases hsite with rfl | rfl | rfl | rfl <;> simp [drawsAt, Event.draw?]
    refine ⟨wId, dId, hAmount, cWId, cDId, cId, cLast, hDate, r, ?_, ?_, ?_, ?_⟩
    · simp only [execCalls_append, hq, hpq]
      simp [execCalls, Event.call?]
    · rw [pre _ (Or.inl rfl)]; exact hby
    · intro h60
      obtain ⟨a, b, c, ha, ha2, hb, hb2, hc, hc2, dA, dB, dC, hsp⟩ := hname h60
      refine ⟨a, b, c, ha, ha2, hb, hb2, hc, hc2, ?_, ?_, ?_, hsp⟩
      · rw [pre _ (Or.inr (Or.inl rfl))]; exact dA
      · rw [pre _ (Or.inr (Or.inr (Or.inl rfl)))]; exact dB
      · rw [pre _ (Or.inr (Or.inr (Or.inr rfl)))]; exact dC
    · intro h60
      obtain ⟨dA, dB, dC, hl⟩ := hid h60
      refine ⟨?_, ?_, ?_, hl⟩
      · rw [pre _ (Or.inr (Or.inl rfl))]; exact dA
      · rw [pre _ (Or.inr (Or.inr (Or.inl rfl)))]; exact dB
      · rw [pre _ (Or.inr (Or.inr (Or.inr rfl)))]; exact dC

theorem surname_synthesis_witness :
    specEnv.h.Sound ∧
    surnameSpec specEnv.k.SYLLABES 3 1 2 = some "BARBARESE" ∧
    (∃ ev,
      [Event.randInt Site.wId 1 4 1, Event.randInt Site.dId 1 10 1,
       Event.randInt Site.byName 1 100 60, Event.randInt Site.sylA 0 256 3,
       Event.randInt Site.sylB 0 1000 1, Event.randInt Site.sylC 0 256 2,
       Event.index 0, Event.index 0, Event.index 5,
       Event.exec (ExecCall.DoOrderStatus 1 1 0 "BARBARESE") none] = [] ++ ev ∧
      ∃ wId dId cId cLast r,
        execCalls ev = [ExecCall.DoOrderStatus wId dId cId cLast] ∧
        drawsAt Site.byName ev = [r] ∧
        (r ≤ 60 → ∃ a b c, 0 ≤ a ∧ a ≤ 256 ∧ 0 ≤ b ∧ b ≤ 1000 ∧ 0 ≤ c ∧ c ≤ 256 ∧
          drawsAt Site.sylA ev = [a] ∧ drawsAt Site.sylB ev = [b] ∧
          drawsAt Site.sylC ev = [c] ∧ surnameSpec specEnv.k.SYLLABES a b c = some cLast) ∧
        (60 < r → drawsAt Site.sylA ev = [] ∧ drawsAt Site.sylB ev = [] ∧
          drawsAt Site.sylC ev = [] ∧ cLast = "")) :=
  ⟨specHelpers_sound, by decide,
    (surname_synthesis specEnv specHelpers_sound specWorker).2.2.1
      (World.init (oracleOf [0, 0, 59, 3, 1, 2])) none
      { oracle := oracleOf [0, 0, 59, 3, 1, 2], pos := 7,
        trace := [Event.randInt Site.wId 1 4 1, Event.randInt Site.dId 1 10 1,
          Event.randInt Site.byName 1 100 60, Event.randInt Site.sylA 0 256 3,
          Event.randInt Site.sylB 0 1000 1, Event.randInt Site.sylC 0 256 2,
          Event.index 0, Event.index 0, Event.index 5,
          Event.exec (ExecCall.DoOrderStatus 1 1 0 "BARBARESE") none] } rfl⟩

/-! ## The identifiers of warehouses and districts -/

theorem linesRun_warehouses (env : Env) (w : Worker) (wId olCnt : Int) (rollback : Bool)
    (n : Nat) (i : Int) (a b c : List Int) (ev : List Event)
    (h : LinesRun env w wId olCnt rollback n i a b c ev)
    (h1 : 1 ≤ wId) (h2 : wId ≤ w.sc.Warehouses) :
    ∀ x ∈ b, 1 ≤ x ∧ x ≤ w.sc.Warehouses := by
  intro x hx
  obtain ⟨j, hj⟩ := List.get?_of_mem hx
  obtain ⟨s1, s2⟩ := linesRun_supply env w wId olCnt rollback n i a b c ev h j x hj
  by_cases hW : 1 < w.sc.Warehouses
  · obtain ⟨r, -, -, -, h42, hn42⟩ := s1 hW
    by_cases hr : r = 42
    · exact ⟨(h42 hr h1 h2).1, (h42 hr h1 h2).2.1⟩
    · rw [hn42 hr]; exact ⟨h1, h2⟩
  · rw [(s2 hW).2]; exact ⟨h1, h2⟩

theorem paymentPlaceRun_range (w : Worker) (wId dId cWId cDId : Int) (ev : List Event)
    (h : PaymentPlaceRun w wId dId cWId cDId ev) (hW : 1 ≤ w.sc.Warehouses)
    (hD : 1 ≤ w.sc.DistrictsPerWarehouse) (h1 : 1 ≤ wId ∧ wId ≤ w.sc.Warehouses)
    (h2 : 1 ≤ dId ∧ dId ≤ w.sc.DistrictsPerWarehouse) :
    (1 ≤ cWId ∧ cWId ≤ w.sc.Warehouses) ∧ (1 ≤ cDId ∧ cDId ≤ w.sc.DistrictsPerWarehouse) := by
  rcases h with ⟨-, rfl, rfl, -⟩ | ⟨hne, r, -, -, ⟨-, rfl, rfl, -⟩ | ⟨-, hx, hd, -⟩⟩
  · exact ⟨h1, h2⟩
  · exact ⟨h1, h2⟩
  · have hx1 := hx (by omega) h1.1 h1.2
    exact ⟨⟨hx1.1, hx1.2.1⟩, hd hD⟩

/-- C15. With at least one warehouse and one district per warehouse, whatever is
drawn: the one call of the executor of each of the five generators has its home
warehouse in `[1, Warehouses]`; the home district of `DoStockLevelTrx`,
`DoOrderStatus`, `DoPayment` and `DoNewOrder` is in `[1, DistrictsPerWarehouse]`;
the customer's warehouse and district of `DoPayment` are in `[1, Warehouses]`
and `[1, DistrictsPerWarehouse]`; every supplying warehouse of `DoNewOrder` is in
`[1, Warehouses]`; `DoDelivery` passes `DistrictsPerWarehouse` itself.  With
well-formed constants, a customer and an item, each generator reaches this call
from every world. -/
theorem identifiers_within_scale (env : Env) (hs : env.h.Sound) (w : Worker)
    (hW : 1 ≤ w.sc.Warehouses) (hD : 1 ≤ w.sc.DistrictsPerWarehouse) :
    Gen.Always (w.DoStockLevelTrx env) (fun _ ev =>
      ∃ wId dId threshold, execCalls ev = [ExecCall.DoStockLevelTrx wId dId threshold] ∧
        1 ≤ wId ∧ wId ≤ w.sc.Warehouses ∧ 1 ≤ dId ∧ dId ≤ w.sc.DistrictsPerWarehouse) ∧
    Gen.Always (w.DoDelivery env) (fun _ ev =>
      ∃ wId carrier deliveryD,
        execCalls ev = [ExecCall.DoDelivery wId carrier deliveryD w.sc.DistrictsPerWarehouse] ∧
        1 ≤ wId ∧ wId ≤ w.sc.Warehouses) ∧
    Gen.Always (w.DoOrderStatus env) (fun _ ev =>
      ∃ wId dId cId cLast, execCalls ev = [ExecCall.DoOrderStatus wId dId cId cLast] ∧
        1 ≤ wId ∧ wId ≤ w.sc.Warehouses ∧ 1 ≤ dId ∧ dId ≤ w.sc.DistrictsPerWarehouse) ∧
    Gen.Always (w.DoPayment env) (fun _ ev =>
      ∃ wId dId hAmount cWId cDId cId cLast hDate,
        execCalls ev = [ExecCall.DoPayment wId dId hAmount cWId cDId cId cLast hDate
          env.k.BAD_CREDIT env.k.MAX_C_DATA] ∧
        1 ≤ wId ∧ wId ≤ w.sc.Warehouses ∧ 1 ≤ dId ∧ dId ≤ w.sc.DistrictsPerWarehouse ∧
        1 ≤ cWId ∧ cWId ≤ w.sc.Warehouses ∧ 1 ≤ cDId ∧ cDId ≤ w.sc.DistrictsPerWarehouse) ∧
    Gen.Always (w.DoNewOrder env) (fun _ ev =>
      ∃ wId dId cId oEntryD iIds iWIds iQtys,
        execCalls ev = [ExecCall.DoNewOrder wId dId cId oEntryD iIds iWIds iQtys] ∧
        1 ≤ wId ∧ wId ≤ w.sc.Warehouses ∧ 1 ≤ dId ∧ dId ≤ w.sc.DistrictsPerWarehouse ∧
        ∀ x ∈ iWIds, 1 ≤ x ∧ x ≤ w.sc.Warehouses) ∧
    (env.k.WellFormed → 1 ≤ w.sc.CustomersPerDistrict → 1 ≤ w.sc.Items →
      Gen.Returns (w.DoStockLevelTrx env) ∧ Gen.Returns (w.DoDelivery env) ∧
      Gen.Returns (w.DoOrderStatus env) ∧ Gen.Returns (w.DoPayment env) ∧
      Gen.Returns (w.DoNewOrder env)) := by
  refine ⟨?_, ?_, ?_, ?_, ?_, ?_⟩
  · refine (doStockLevelTrx_always env hs w).mono ?_
    rintro st ev ⟨wId, dId, th, hw, hd, -, rfl⟩
    exact ⟨wId, dId, th, by simp [execCalls, Event.call?], (hw hW).1, (hw hW).2, (hd hD).1,
      (hd hD).2⟩
  · refine (doDelivery_always env hs w).mono ?_
    rintro st ev ⟨wId, car, t, hw, -, rfl⟩
    exact ⟨wId, car, t, by simp [execCalls, Event.call?], (hw hW).1, (hw hW).2⟩
  · refine (doOrderStatus_always env hs w).mono ?_
    rintro st ev ⟨wId, dId, cId, cLast, evc, hw, hd, hrun, rfl⟩
    obtain ⟨hq, -, -⟩ := customerRun_quiet env w cId cLast evc hrun
    refine ⟨wId, dId, cId, cLast, ?_, (hw hW).1, (hw hW).2, (hd hD).1, (hd hD).2⟩
    simp only [execCalls_append, hq]
    simp [execCalls, Event.call?]
  · refine (doPayment_always env hs w).mono ?_
    rintro st ev ⟨wId, dId, hAmount, hDate, cWId, cDId, cId, cLast, evp, evc, hw, hd, hp, hrun,
      rfl⟩
    obtain ⟨hq, -, -⟩ := customerRun_quiet env w cId cLast evc hrun
    obtain ⟨hpq, -⟩ := paymentPlaceRun_quiet w wId dId cWId cDId evp hp
    obtain ⟨hcw, hcd⟩ := paymentPlaceRun_range w wId dId cWId cDId evp hp hW hD (hw hW) (hd hD)
    refine ⟨wId, dId, hAmount, cWId, cDId, cId, cLast, hDate, ?_, (hw hW).1, (hw hW).2,
      (hd hD).1, (hd hD).2, hcw.1, hcw.2, hcd.1, hcd.2⟩
    simp only [execCalls_append, hq, hpq]
    simp [execCalls, Event.call?]
  · refine (doNewOrder_always env hs w).mono ?_
    rintro st ev ⟨wId, dId, cId, t, olCnt, r, a, b, c, evl, hw, hd, -, -, -, -, hl, rfl⟩
    obtain ⟨-, -, -, q1, -, -, -, -⟩ := linesRun_quiet env w wId olCnt _ _ 0 a b c evl hl
    refine ⟨wId, dId, cId, t, a, b, c, ?_, (hw hW).1, (hw hW).2, (hd hD).1, (hd hD).2,
      linesRun_warehouses env w wId olCnt _ _ 0 a b c evl hl (hw hW).1 (hw hW).2⟩
    simp only [execCalls_append, q1]
    simp [execCalls, Event.call?]
  · intro hk hC hI
    exact ⟨doStockLevelTrx_total env hs hk w hW hD, doDelivery_total env hs hk w hW,
      doOrderStatus_total env hs hk w hW hD hC, doPayment_total env hs hk w hW hD hC,
      doNewOrder_total env hs hk w hW hD hC hI⟩
theorem identifiers_within_scale_witness :
    specEnv.h.Sound ∧ 1 ≤ specWorker.sc.Warehouses ∧ 1 ≤ specWorker.sc.DistrictsPerWarehouse ∧
    (∃ ev, exampleOrderTrace = [] ++ ev ∧
      ∃ wId dId cId oEntryD iIds iWIds iQtys,
        execCalls ev = [ExecCall.DoNewOrder wId dId cId oEntryD iIds iWIds iQtys] ∧
        1 ≤ wId ∧ wId ≤ specWorker.sc.Warehouses ∧
        1 ≤ dId ∧ dId ≤ specWorker.sc.DistrictsPerWarehouse ∧
        ∀ x ∈ iWIds, 1 ≤ x ∧ x ≤ specWorker.sc.Warehouses) := by
  obtain ⟨wd1, hrun, ht⟩ := run_of_view (specWorker.DoNewOrder specEnv)
    (World.init exampleOrderOracle) none 22 exampleOrderTrace (by decide!)
  have h := (identifiers_within_scale specEnv specHelpers_sound specWorker (by decide)
    (by decide)).2.2.2.2.1 (World.init exampleOrderOracle) none wd1 hrun
  rw [ht] at h
  exact ⟨specHelpers_sound, by decide, by decide, h⟩

/-! ## The three lists of `DoNewOrder` -/

theorem exclusionsAt_append (site : Site) (e1 e2 : List Event) :
    exclusionsAt site (e1 ++ e2) = exclusionsAt site e1 ++ exclusionsAt site e2 := by
  simp [exclusionsAt, List.filterMap_append]

theorem lineRun_tie (env : Env) (w : Worker) (wId olCnt : Int) (rollback : Bool)
    (i iId iWId iQty : Int) (ev : List Event)
    (h : LineRun env w wId olCnt rollback i iId iWId iQty ev) :
    LineTie w wId olCnt rollback i iId iWId iQty ev ∧
    (1 ≤ env.k.MAX_OL_QUANTITY → 1 ≤ iQty ∧ iQty ≤ env.k.MAX_OL_QUANTITY) ∧
    (∀ k, k ≠ i → drawsAt (Site.iQty k) ev = [] ∧ drawsAt (Site.iId k) ev = [] ∧
      exclusionsAt (Site.iWId k) ev = []) := by
  obtain ⟨evI, evW, hI, hW, hq, rfl⟩ := h
  refine ⟨?_, hq, ?_⟩
  · rcases hI with ⟨hr, hl, rfl, rfl⟩ | ⟨-, -, rfl⟩ <;>
      rcases hW with ⟨-, rfl, rfl⟩ | ⟨-, r, -, -, ⟨-, rfl, rfl⟩ | ⟨-, -, rfl⟩⟩ <;>
      refine ⟨by simp [drawsAt, Event.draw?], ?_, ?_⟩ <;>
      first
        | solve | (refine Or.inr ⟨hr, hl, rfl, ?_⟩; simp [drawsAt, Event.draw?])
        | solve | (refine Or.inl ⟨rfl, ?_⟩; simp [exclusionsAt, Event.exclusion?])
        | solve | (refine Or.inl ?_; simp [drawsAt, Event.draw?])
        | solve | (refine Or.inr ?_; simp [exclusionsAt, Event.exclusion?])
  · intro k hk
    have hk' : ¬ i = k := fun h => hk h.symm
    rcases hI with ⟨-, -, -, rfl⟩ | ⟨-, -, rfl⟩ <;>
      rcases hW with ⟨-, -, rfl⟩ | ⟨-, r, -, -, ⟨-, -, rfl⟩ | ⟨-, -, rfl⟩⟩ <;>
      simp [drawsAt, Event.draw?, exclusionsAt, Event.exclusion?, hk']

theorem linesRun_tie (env : Env) (w : Worker) (wId olCnt : Int) (rollback : Bool) (n : Nat) :
    ∀ (i : Int) (a b c : List Int) (ev : List Event),
      LinesRun env w wId olCnt rollback n i a b c ev →
      (∀ k, k < i → drawsAt (Site.iQty k) ev = [] ∧ drawsAt (Site.iId k) ev = [] ∧
        exclusionsAt (Site.iWId k) ev = []) ∧
      (1 ≤ env.k.MAX_OL_QUANTITY → ∀ q ∈ c, 1 ≤ q ∧ q ≤ env.k.MAX_OL_QUANTITY) ∧
      ∀ j : Nat, j < n → ∃ x y q, a.get? j = some x ∧ b.get? j = some y ∧ c.get? j = some q ∧
        LineTie w wId olCnt rollback (i + j) x y q ev := by
  induction n with
  | zero =>
    rintro i a b c ev ⟨rfl, rfl, rfl, rfl⟩
    refine ⟨fun k _ => by simp [drawsAt, exclusionsAt], fun _ q hq => by simp at hq,
      fun j hj => absurd hj (by omega)⟩
  | succ n ih =>
    rintro i a b c ev ⟨iId, iWId, iQty, ev1, a1, b1, c1, ev2, h1, h2, rfl, rfl, rfl, rfl⟩
    obtain ⟨q1, q2, q3⟩ := ih (i + 1) a1 b1 c1 ev2 h2
    obtain ⟨⟨t1, t2, t3⟩, p2, p3⟩ :=
      lineRun_tie env w wId olCnt rollback i iId iWId iQty ev1 h1
    refine ⟨?_, ?_, ?_⟩
    · intro k hk
      obtain ⟨u1, u2, u3⟩ := p3 k (by omega)
      obtain ⟨v1, v2, v3⟩ := q1 k (by omega)
      simp [drawsAt_append, exclusionsAt_append, u1, u2, u3, v1, v2, v3]
    · intro hm q hq
      rcases List.mem_cons.mp hq with rfl | hq
      · exact p2 hm
      · exact q2 hm q hq
    · intro j hj
      cases j with
      | zero =>
        obtain ⟨v1, v2, v3⟩ := q1 i (by omega)
        refine ⟨iId, iWId, iQty, rfl, rfl, rfl, ?_⟩
        have e : i + ((0 : Nat) : Int) = i := by simp
        rw [e]
        unfold LineTie
        simp only [drawsAt_append, exclusionsAt_append, v1, v2, v3, List.append_nil]
        exact ⟨t1, t2, t3⟩
      | succ j =>
        obtain ⟨x, y, q, hx, hy, hq, s1, s2, s3⟩ := q3 j (by omega)
        obtain ⟨u1, u2, u3⟩ := p3 (i + 1 + j) (by omega)
        refine ⟨x, y, q, by simpa using hx, by simpa using hy, by simpa using hq, ?_⟩
        have e : i + ((j + 1 : Nat) : Int) = i + 1 + (j : Int) := by push_cast; omega
        rw [e]
        unfold LineTie
        simp only [drawsAt_append, exclusionsAt_append, u1, u2, u3, List.nil_append]
        exact ⟨s1, s2, s3⟩
/-- C16. In `DoNewOrder`, with a non-empty range of order-line counts that
starts at one or more and a largest quantity of at least one, whatever is drawn
and whether or not the order is to roll back: the three lists of the call of the
executor all have the length `olCnt` of the one order-line count draw, which is
in `[MIN_OL_CNT, MAX_OL_CNT]`; none is empty; every quantity is in
`[1, MAX_OL_QUANTITY]`; and for every line `j < olCnt` the `j`-th entries of the
three lists are those of order line `j` (`LineTie`): the quantity draw of the
line, the item draw of the line or the forced `Items + 1` of the last line of an
order to roll back, the home warehouse or the exclusion draw of the line.  With
well-formed constants and a scale of at least one everywhere, the generator
reaches its call of the executor from every world. -/
theorem newOrder_lines_aligned (env : Env) (hs : env.h.Sound) (w : Worker)
    (hcnt : env.k.MIN_OL_CNT ≤ env.k.MAX_OL_CNT) (hmin : 1 ≤ env.k.MIN_OL_CNT)
    (hqty : 1 ≤ env.k.MAX_OL_QUANTITY) :
    Gen.Always (w.DoNewOrder env) (fun _ ev =>
      ∃ wId dId cId oEntryD olCnt r iIds iWIds iQtys,
        execCalls ev = [ExecCall.DoNewOrder wId dId cId oEntryD iIds iWIds iQtys] ∧
        drawsAt Site.olCnt ev = [olCnt] ∧ drawsAt Site.rollback ev = [r] ∧
        env.k.MIN_OL_CNT ≤ olCnt ∧ olCnt ≤ env.k.MAX_OL_CNT ∧
        (iIds.length : Int) = olCnt ∧ (iWIds.length : Int) = olCnt ∧
        (iQtys.length : Int) = olCnt ∧
        iIds ≠ [] ∧ iWIds ≠ [] ∧ iQtys ≠ [] ∧
        (∀ q ∈ iQtys, 1 ≤ q ∧ q ≤ env.k.MAX_OL_QUANTITY) ∧
        ∀ j : Nat, (j : Int) < olCnt →
          ∃ x y q, iIds.get? j = some x ∧ iWIds.get? j = some y ∧ iQtys.get? j = some q ∧
            LineTie w wId olCnt (decide (r = 42)) j x y q ev) ∧
    (env.k.WellFormed → 1 ≤ w.sc.Warehouses → 1 ≤ w.sc.DistrictsPerWarehouse →
      1 ≤ w.sc.CustomersPerDistrict → 1 ≤ w.sc.Items → Gen.Returns (w.DoNewOrder env)) := by
  refine ⟨?_, fun hk hW hD hC hI => doNewOrder_total env hs hk w hW hD hC hI⟩
  refine (doNewOrder_always env hs w).mono ?_
  rintro st ev ⟨wId, dId, cId, t, olCnt, r, a, b, c, evl, -, -, -, ho, -, -, hl, rfl⟩
  obtain ⟨la, lb, lc, q1, q2, q3, -, -⟩ := linesRun_quiet env w wId olCnt _ _ 0 a b c evl hl
  obtain ⟨-, hq, htie⟩ := linesRun_tie env w wId olCnt _ _ 0 a b c evl hl
  obtain ⟨ho1, ho2⟩ := ho hcnt
  have hpos : 1 ≤ olCnt := le_trans hmin ho1
  have hn : ((olCnt.toNat : Nat) : Int) = olCnt := Int.toNat_of_nonneg (by omega)
  have hne : ∀ l : List Int, l.length = olCnt.toNat → l ≠ [] := by
    rintro l hl rfl
    simp only [List.length_nil] at hl
    omega
  refine ⟨wId, dId, cId, t, olCnt, r, a, b, c, ?_, ?_, ?_, ho1, ho2, by rw [la, hn],
    by rw [lb, hn], by rw [lc, hn], hne a la, hne b lb, hne c lc, hq hqty, ?_⟩
  · simp only [execCalls_append, q1]
    simp [execCalls, Event.call?]
  · simp only [drawsAt_append, q3]
    simp [drawsAt, Event.draw?]
  · simp only [drawsAt_append, q2]
    simp [drawsAt, Event.draw?]
  · intro j hj
    obtain ⟨x, y, q, hx, hy, hq1, t1, t2, t3⟩ := htie j (by omega)
    refine ⟨x, y, q, hx, hy, hq1, ?_⟩
    rw [zero_add] at t1 t2 t3
    have e1 : ∀ site, site = Site.iQty j ∨ site = Site.iId j →
        drawsAt site ([Event.randInt Site.wId 1 w.sc.Warehouses wId,
          Event.randInt Site.dId 1 w.sc.DistrictsPerWarehouse dId,
          Event.randInt Site.cId 1 w.sc.CustomersPerDistrict cId,
          Event.timeNow Site.oEntryD t,
          Event.randInt Site.olCnt env.k.MIN_OL_CNT env.k.MAX_OL_CNT olCnt,
          Event.randInt Site.rollback 1 100 r] ++ evl ++
         [Event.exec (ExecCall.DoNewOrder wId dId cId t a b c) st]) = drawsAt site evl := by
      intro site hsite
      simp only [drawsAt_append]
      rcases hsite with rfl | rfl <;> simp [drawsAt, Event.draw?]
    have e2 : exclusionsAt (Site.iWId j)
        ([Event.randInt Site.wId 1 w.sc.Warehouses wId,
          Event.randInt Site.dId 1 w.sc.DistrictsPerWarehouse dId,
          Event.randInt Site.cId 1 w.sc.CustomersPerDistrict cId,
          Event.timeNow Site.oEntryD t,
          Event.randInt Site.olCnt env.k.MIN_OL_CNT env.k.MAX_OL_CNT olCnt,
          Event.randInt Site.rollback 1 100 r] ++ evl ++
         [Event.exec (ExecCall.DoNewOrder wId dId cId t a b c) st]) =
        exclusionsAt (Site.iWId j) evl := by
      simp only [exclusionsAt_append]
      simp [exclusionsAt, Event.exclusion?]
    unfold LineTie
    rw [e1 _ (Or.inl rfl), e1 _ (Or.inr rfl), e2]
    exact ⟨t1, t2, t3⟩

theorem newOrder_lines_aligned_witness :
    specEnv.h.Sound ∧ specEnv.k.MIN_OL_CNT ≤ specEnv.k.MAX_OL_CNT ∧ 1 ≤ specEnv.k.MIN_OL_CNT ∧
    1 ≤ specEnv.k.MAX_OL_QUANTITY ∧
    (∃ ev, exampleOrderTrace = [] ++ ev ∧
      ∃ wId dId cId oEntryD olCnt r iIds iWIds iQtys,
        execCalls ev = [ExecCall.DoNewOrder wId dId cId oEntryD iIds iWIds iQtys] ∧
        drawsAt Site.olCnt ev = [olCnt] ∧ drawsAt Site.rollback ev = [r] ∧
        specEnv.k.MIN_OL_CNT ≤ olCnt ∧ olCnt ≤ specEnv.k.MAX_OL_CNT ∧
        (iIds.length : Int) = olCnt ∧ (iWIds.length : Int) = olCnt ∧
        (iQtys.length : Int) = olCnt ∧
        iIds ≠ [] ∧ iWIds ≠ [] ∧ iQtys ≠ [] ∧
        (∀ q ∈ iQtys, 1 ≤ q ∧ q ≤ specEnv.k.MAX_OL_QUANTITY) ∧
        ∀ j : Nat, (j : Int) < olCnt →
          ∃ x y q, iIds.get? j = some x ∧ iWIds.get? j = some y ∧ iQtys.get? j = some q ∧
            LineTie specWorker wId olCnt (decide (r = 42)) j x y q ev) := by
  obtain ⟨wd1, hrun, ht⟩ := run_of_view (specWorker.DoNewOrder specEnv)
    (World.init exampleOrderOracle) none 22 exampleOrderTrace (by decide!)
  have h := (newOrder_lines_aligned specEnv specHelpers_sound specWorker (by decide)
    (by decide) (by decide)).1 (World.init exampleOrderOracle) none wd1 hrun
  rw [ht] at h
  exact ⟨specHelpers_sound, by decide, by decide, by decide, h⟩

/-! ## One iteration of the loop -/

theorem surnameRun_mix (env : Env) (s : String) (ev : List Event) (h : SurnameRun env s ev) :
    drawsAt Site.mix ev = [] := by
  obtain ⟨a, b, c, s1, s2, s3, -, -, -, -, -, -, -, -, -, -, -, -, -, rfl⟩ := h
  simp [surnameEvents, drawsAt, Event.draw?]

theorem customerRun_mix (env : Env) (w : Worker) (cId : Int) (cLast : String)
    (ev : List Event) (h : CustomerRun env w cId cLast ev) : drawsAt Site.mix ev = [] := by
  obtain ⟨r, -, -, hcase⟩ := h
  rcases hcase with ⟨-, -, ev1, hrun, rfl⟩ | ⟨-, -, -, rfl⟩
  · have h1 := surnameRun_mix env cLast ev1 hrun
    have e : Event.randInt Site.byName 1 100 r :: ev1 =
        [Event.randInt Site.byName 1 100 r] ++ ev1 := rfl
    rw [e, drawsAt_append, h1]
    simp [drawsAt, Event.draw?]
  · simp [drawsAt, Event.draw?]

theorem paymentPlaceRun_mix (w : Worker) (wId dId cWId cDId : Int) (ev : List Event)
    (h : PaymentPlaceRun w wId dId cWId cDId ev) : drawsAt Site.mix ev = [] := by
  rcases h with ⟨-, -, -, rfl⟩ | ⟨-, r, -, -, ⟨-, -, -, rfl⟩ | ⟨-, -, -, rfl⟩⟩ <;>
    simp [drawsAt, Event.draw?]

theorem linesRun_mix (env : Env) (w : Worker) (wId olCnt : Int) (rollback : Bool) (n : Nat) :
    ∀ (i : Int) (a b c : List Int) (ev : List Event),
      LinesRun env w wId olCnt rollback n i a b c ev → drawsAt Site.mix ev = [] := by
  induction n with
  | zero =>
    rintro i a b c ev ⟨rfl, rfl, rfl, rfl⟩
    rfl
  | succ n ih =>
    rintro i a b c ev ⟨iId, iWId, iQty, ev1, a1, b1, c1, ev2, h1, h2, rfl, rfl, rfl, rfl⟩
    rw [drawsAt_append, ih (i + 1) a1 b1 c1 ev2 h2, List.append_nil]
    obtain ⟨evI, evW, hI, hW, -, rfl⟩ := h1
    rcases hI with ⟨-, -, -, rfl⟩ | ⟨-, -, rfl⟩ <;>
      rcases hW with ⟨-, -, rfl⟩ | ⟨-, r, -, -, ⟨-, -, rfl⟩ | ⟨-, -, rfl⟩⟩ <;>
      simp [drawsAt, Event.draw?]

theorem dispatch_typed (env : Env) (hs : env.h.Sound) (w : Worker) (r : Int) :
    Gen.Always (w.dispatch env r).2 (fun st ev =>
      ∃ pre call, (∀ e ∈ pre, e.isRequest = true) ∧ drawsAt Site.mix pre = [] ∧
        call.trxType = (w.dispatch env r).1 ∧ ev = pre ++ [Event.exec call st]) := by
  have hreq := dispatch_always env hs w r
  intro wd st wd1 hrun
  obtain ⟨ev, htr, pre, call, hpre, rfl⟩ := hreq wd st wd1 hrun
  refine ⟨_, htr, pre, call, hpre, ?_⟩
  have key : ∀ pre1 call1, pre ++ [Event.exec call st] = pre1 ++ [Event.exec call1 st] →
      drawsAt Site.mix pre1 = [] → call1.trxType = (w.dispatch env r).1 →
      drawsAt Site.mix pre = [] ∧ call.trxType = (w.dispatch env r).1 ∧
        pre ++ [Event.exec call st] = pre ++ [Event.exec call st] := by
    intro pre1 call1 he h1 h2
    obtain ⟨e1, e2⟩ := List.append_inj' he rfl
    simp only [List.cons.injEq, Event.exec.injEq, and_true] at e2
    subst e1 e2
    exact ⟨h1, h2, rfl⟩
  revert hrun htr key
  unfold Worker.dispatch
  split_ifs <;> intro hrun htr key
  · obtain ⟨ev2, htr2, wId, dId, th, -, -, -, rfl⟩ := doStockLevelTrx_always env hs w wd st wd1 hrun
    have he := List.append_cancel_left (htr.symm.trans htr2)
    exact key [_, _, _] _ he (by simp [drawsAt, Event.draw?]) rfl
  · obtain ⟨ev2, htr2, wId, car, t, -, -, rfl⟩ := doDelivery_always env hs w wd st wd1 hrun
    have he := List.append_cancel_left (htr.symm.trans htr2)
    exact key [_, _, _] _ he (by simp [drawsAt, Event.draw?]) rfl
  · obtain ⟨ev2, htr2, wId, dId, cId, cLast, evc, -, -, hc, rfl⟩ :=
      doOrderStatus_always env hs w wd st wd1 hrun
    have he := List.append_cancel_left (htr.symm.trans htr2)
    refine key _ _ he ?_ rfl
    rw [drawsAt_append, customerRun_mix env w cId cLast evc hc]
    simp [drawsAt, Event.draw?]
  · obtain ⟨ev2, htr2, wId, dId, hAmount, hDate, cWId, cDId, cId, cLast, evp, evc, -, -, hp, hc,
      rfl⟩ := doPayment_always env hs w wd st wd1 hrun
    have he := List.append_cancel_left (htr.symm.trans htr2)
    refine key _ _ he ?_ rfl
    rw [drawsAt_append, drawsAt_append, customerRun_mix env w cId cLast evc hc,
      paymentPlaceRun_mix w wId dId cWId cDId evp hp]
    simp [drawsAt, Event.draw?]
  · obtain ⟨ev2, htr2, wId, dId, cId, t, olCnt, r1, a, b, c, evl, -, -, -, -, -, -, hl, rfl⟩ :=
      doNewOrder_always env hs w wd st wd1 hrun
    have he := List.append_cancel_left (htr.symm.trans htr2)
    refine key _ _ he ?_ rfl
    rw [drawsAt_append, linesRun_mix env w wId olCnt _ _ 0 a b c evl hl]
    simp [drawsAt, Event.draw?]

theorem observations_append (e1 e2 : List Event) :
    observations (e1 ++ e2) = observations e1 ++ observations e2 := by
  simp [observations, List.filterMap_append]

theorem published_append (e1 e2 : List Event) :
    published (e1 ++ e2) = published e1 ++ published e2 := by
  simp [published, List.filterMap_append]

theorem exits_append (e1 e2 : List Event) : exits (e1 ++ e2) = exits e1 + exits e2 := by
  simp [exits, List.filter_append]

theorem requests_quiet (pre : List Event) (h : ∀ e ∈ pre, e.isRequest = true) :
    observations pre = [] ∧ execCalls pre = [] ∧ published pre = [] ∧ exits pre = 0 := by
  induction pre with
  | nil => exact ⟨rfl, rfl, rfl, rfl⟩
  | cons e pre ih =>
    obtain ⟨i1, i2, i3, i4⟩ := ih (fun x hx => h x (List.mem_cons_of_mem _ hx))
    have he := h e (List.mem_cons_self _ _)
    have e0 : e :: pre = [e] ++ pre := rfl
    rw [e0, observations_append, execCalls_append, published_append, exits_append, i1, i2, i3,
      i4]
    cases e <;> first | exact ⟨rfl, rfl, rfl, rfl⟩ | exact absurd he (by simp [Event.isRequest])

theorem attemptOf_views (env : Env) (w : Worker) (trx : Transaction) (ev : List Event)
    (h : AttemptOf env w trx ev) :
    ∃ (r : Int) (call : ExecCall) (st : Status), 1 ≤ r ∧ r ≤ 100 ∧
      observations ev = [false] ∧ drawsAt Site.mix ev = [r] ∧
      execCalls ev = [call] ∧ published ev = [trx] ∧ exits ev = 0 ∧
      call.trxType = trx.Type_ ∧
      trx = { ThreadId := w.threadId, Type_ := (w.dispatch env r).1, Failed := st.isSome } ∧
      ∃ body, ev = Event.ctxDone false :: (body ++ [Event.publish trx]) ∧
        observations body = [] ∧ published body = [] := by
  obtain ⟨r, pre, call, st, hr1, hr2, hpre, hmix, hty, htrx, rfl⟩ := h
  obtain ⟨i1, i2, i3, i4⟩ := requests_quiet pre hpre
  refine ⟨r, call, st, hr1, hr2, ?_, ?_, ?_, ?_, ?_, ?_, htrx,
    [Event.randInt Site.mix 1 100 r] ++ pre ++ [Event.exec call st], by simp, ?_, ?_⟩
  · rw [observations_append, observations_append, i1]; rfl
  · rw [drawsAt_append, drawsAt_append, hmix]
    simp [drawsAt, Event.draw?]
  · rw [execCalls_append, execCalls_append, i2]; rfl
  · rw [published_append, published_append, i3]; rfl
  · rw [exits_append, exits_append, i4]; rfl
  · rw [hty, htrx]
  · rw [observations_append, observations_append, i1]; rfl
  · rw [published_append, published_append, i3]; rfl

theorem iteration_typed (env : Env) (hs : env.h.Sound) (w : Worker) :
    Gen.Always (w.iteration env) (fun ph ev =>
      (ph = Phase.Cancelled ∧ ev = [Event.ctxDone true]) ∨
      (ph = Phase.Running ∧ ∃ trx, AttemptOf env w trx ev)) := by
  unfold Worker.iteration
  refine Gen.Always.bind (P := fun b ev => ev = [Event.ctxDone b]) ?_ ?_
  · exact (ask_always _ _).mono (fun _ _ h => h.1)
  rintro done _ rfl
  cases done with
  | true =>
    simp only [if_true]
    exact Gen.Always.pure (Or.inl ⟨rfl, rfl⟩)
  | false =>
    simp only [Bool.false_eq_true, if_false]
    refine Gen.Always.bind
      (P := fun _ ev => ∃ trx, AttemptOf env w trx (Event.ctxDone false :: ev)) ?_ ?_
    · unfold Worker.attempt
      refine Gen.Always.bind (randInt_always env hs Site.mix 1 100) ?_
      rintro r _ ⟨rfl, hr⟩
      refine Gen.Always.bind (dispatch_typed env hs w r) ?_
      rintro st _ ⟨pre, call, hpre, hmix, hty, rfl⟩
      refine (emit_total _).always.mono ?_
      rintro _ _ rfl
      exact ⟨_, r, pre, call, st, (hr (by decide)).1, (hr (by decide)).2, hpre, hmix, hty, rfl,
        by simp⟩
    · intro _ ev hrun
      exact Gen.Always.pure (Or.inr ⟨rfl, by simpa using hrun⟩)

/-- C17. One iteration of the loop of `Execute` makes one check of the context.
When the check does not see the context done, the iteration goes on, and its
events hold exactly one draw of the mix, `r` of 1..100, exactly one call of the
executor and exactly one send; the call is the operation of the type recorded
in the outcome sent, which is the type the `switch` stores for `r`, and the
`ThreadId` of the outcome is the `threadId` of the worker.  (When the check sees
the context done the iteration ends the loop.)  With well-formed constants and
a scale of at least one everywhere, the iteration returns from every world. -/
theorem dispatch_consistent (env : Env) (hs : env.h.Sound) (w : Worker) :
    Gen.Always (w.iteration env) (fun ph ev =>
      (observations ev = [true] ∧ ph = Phase.Cancelled) ∨
      (observations ev = [false] ∧ ph = Phase.Running ∧
        ∃ r call trx, 1 ≤ r ∧ r ≤ 100 ∧ drawsAt Site.mix ev = [r] ∧ execCalls ev = [call] ∧
          published ev = [trx] ∧ call.trxType = trx.Type_ ∧
          trx.Type_ = (w.dispatch env r).1 ∧ trx.ThreadId = w.threadId)) ∧
    (env.k.WellFormed → 1 ≤ w.sc.Warehouses → 1 ≤ w.sc.DistrictsPerWarehouse →
      1 ≤ w.sc.CustomersPerDistrict → 1 ≤ w.sc.Items → Gen.Returns (w.iteration env)) := by
  refine ⟨?_, fun hk hW hD hC hI => iteration_total env hs hk w hW hD hC hI⟩
  refine (iteration_typed env hs w).mono ?_
  rintro ph ev (⟨rfl, rfl⟩ | ⟨rfl, trx, hrun⟩)
  · exact Or.inl ⟨rfl, rfl⟩
  · obtain ⟨r, call, st, hr1, hr2, v1, v2, v3, v4, -, hty, htrx, -⟩ :=
      attemptOf_views env w trx ev hrun
    refine Or.inr ⟨v1, rfl, r, call, trx, hr1, hr2, v2, v3, v4, hty, ?_, ?_⟩
    · rw [htrx]
    · rw [htrx]

theorem dispatch_consistent_witness :
    specEnv.h.Sound ∧
    (∃ ev,
      [Event.ctxDone false, Event.randInt Site.mix 1 100 4, Event.randInt Site.wId 1 4 1,
       Event.randInt Site.dId 1 10 1, Event.randInt Site.threshold 10 20 10,
       Event.exec (ExecCall.DoStockLevelTrx 1 1 10) (some "error"),
       Event.publish { ThreadId := 7, Type_ := TransactionType.StockLevelTrx, Failed := true }]
        = [] ++ ev ∧
      ((observations ev = [true] ∧ Phase.Running = Phase.Cancelled) ∨
       (observations ev = [false] ∧ Phase.Running = Phase.Running ∧
        ∃ r call trx, 1 ≤ r ∧ r ≤ 100 ∧ drawsAt Site.mix ev = [r] ∧ execCalls ev = [call] ∧
          published ev = [trx] ∧ call.trxType = trx.Type_ ∧
          trx.Type_ = (specWorker.dispatch specEnv r).1 ∧
          trx.ThreadId = specWorker.threadId))) := by
  obtain ⟨wd1, hrun, ht⟩ := run_of_view (specWorker.iteration specEnv)
    (World.init exampleLoopOracle) Phase.Running 6
    [Event.ctxDone false, Event.randInt Site.mix 1 100 4, Event.randInt Site.wId 1 4 1,
     Event.randInt Site.dId 1 10 1, Event.randInt Site.threshold 10 20 10,
     Event.exec (ExecCall.DoStockLevelTrx 1 1 10) (some "error"),
     Event.publish { ThreadId := 7, Type_ := TransactionType.StockLevelTrx, Failed := true }]
    (by decide!)
  have h := (dispatch_consistent specEnv specHelpers_sound specWorker).1
    (World.init exampleLoopOracle) Phase.Running wd1 hrun
  rw [ht] at h
  exact ⟨specHelpers_sound, h⟩

/-! ## The loop of `Execute` -/

theorem attemptsRun_views (env : Env) (w : Worker) (outs : List Transaction) :
    ∀ ev, AttemptsRun env w outs ev →
      published ev = outs ∧ observations ev = List.replicate outs.length false ∧
      (drawsAt Site.mix ev).length = outs.length ∧ (execCalls ev).length = outs.length ∧
      exits ev = 0 := by
  induction outs with
  | nil =>
    rintro ev rfl
    exact ⟨rfl, rfl, rfl, rfl, rfl⟩
  | cons trx outs ih =>
    rintro ev ⟨ev1, ev2, h1, h2, rfl⟩
    obtain ⟨i1, i2, i3, i4, i5⟩ := ih ev2 h2
    obtain ⟨r, call, st, -, -, v1, v2, v3, v4, v5, -, -, -⟩ := attemptOf_views env w trx ev1 h1
    refine ⟨?_, ?_, ?_, ?_, ?_⟩
    · rw [published_append, v4, i1]; rfl
    · rw [observations_append, v1, i2]; rfl
    · rw [drawsAt_append, v2, List.length_append, i3]
      simp [Nat.add_comm]
    · rw [execCalls_append, v3, List.length_append, i4]
      simp [Nat.add_comm]
    · rw [exits_append, v5, i5]

theorem executeRun_views (env : Env) (w : Worker) (n : Nat) (outs : List Transaction)
    (ph : Phase) (ev : List Event) (h : ExecuteRun env w n outs ph ev) :
    published ev = outs ∧ (drawsAt Site.mix ev).length = outs.length ∧
    (execCalls ev).length = outs.length ∧
    (ph = Phase.Running → outs.length = n ∧
      observations ev = List.replicate n false ∧ exits ev = 0) ∧
    (ph = Phase.Cancelled → outs.length < n ∧
      observations ev = List.replicate outs.length false ++ [true] ∧ exits ev = 1) := by
  obtain ⟨evs, hrun, hcase⟩ := h
  obtain ⟨i1, i2, i3, i4, i5⟩ := attemptsRun_views env w outs evs hrun
  rcases hcase with ⟨rfl, hn, rfl⟩ | ⟨rfl, hn, rfl⟩
  · refine ⟨i1, i3, i4, fun _ => ⟨hn, by rw [i2, hn], i5⟩, fun h => by cases h⟩
  · refine ⟨?_, ?_, ?_, (fun h => by cases h), fun _ => ⟨hn, ?_, ?_⟩⟩
    · rw [published_append, i1]; simp [published, Event.trx?]
    · rw [drawsAt_append, List.length_append, i3]; simp [drawsAt, Event.draw?]
    · rw [execCalls_append, List.length_append, i4]; simp [execCalls, Event.call?]
    · rw [observations_append, i2]; rfl
    · rw [exits_append, i5]; rfl

theorem execute_always (env : Env) (hs : env.h.Sound) (w : Worker) (n : Nat) :
    Gen.Always (w.Execute env n) (fun ph ev => ∃ outs, ExecuteRun env w n outs ph ev) := by
  induction n with
  | zero =>
    unfold Worker.Execute
    exact Gen.Always.pure ⟨[], [], rfl, Or.inl ⟨rfl, rfl, rfl⟩⟩
  | succ n ih =>
    unfold Worker.Execute
    refine Gen.Always.bind (iteration_typed env hs w) ?_
    rintro ph ev1 (⟨rfl, rfl⟩ | ⟨rfl, trx, hrun⟩)
    · refine Gen.Always.bind (emit_total Event.wgDone).always ?_
      rintro _ _ rfl
      exact Gen.Always.pure ⟨[], [], rfl, Or.inr ⟨rfl, Nat.succ_pos n, by simp⟩⟩
    · refine ih.mono ?_
      rintro ph ev2 ⟨outs, evs, hruns, hcase⟩
      refine ⟨trx :: outs, ev1 ++ evs, ⟨ev1, evs, hrun, hruns, rfl⟩, ?_⟩
      rcases hcase with ⟨rfl, hn, rfl⟩ | ⟨rfl, hn, rfl⟩
      · exact Or.inl ⟨rfl, by simp [hn], rfl⟩
      · exact Or.inr ⟨rfl, by simpa using hn, by simp⟩

theorem execute_total (env : Env) (hs : env.h.Sound) (hk : env.k.WellFormed)
    (w : Worker) (hW : 1 ≤ w.sc.Warehouses) (hD : 1 ≤ w.sc.DistrictsPerWarehouse)
    (hC : 1 ≤ w.sc.CustomersPerDistrict) (hI : 1 ≤ w.sc.Items) (n : Nat) :
    Gen.Total (w.Execute env n) (fun _ _ => True) := by
  induction n with
  | zero =>
    unfold Worker.Execute
    exact Gen.Total.tpure trivial
  | succ n ih =>
    unfold Worker.Execute
    refine Gen.Total.tbind (iteration_total env hs hk w hW hD hC hI) ?_
    intro ph _ _
    cases ph with
    | Running => exact ih.tmono (fun _ _ _ => trivial)
    | Cancelled =>
      refine Gen.Total.tbind (emit_total Event.wgDone) ?_
      intro _ _ _
      exact Gen.Total.tpure trivial

theorem execute_succ_of_cancelled (env : Env) (w : Worker) (n : Nat) (wd wd1 : World)
    (h : w.iteration env wd = some (Phase.Cancelled, wd1)) :
    w.Execute env (n + 1) wd =
      some (Phase.Cancelled, { wd1 with trace := wd1.trace ++ [Event.wgDone] }) := by
  conv => lhs; unfold Worker.Execute
  rw [Gen.bind_of_some _ _ wd Phase.Cancelled wd1 h]
  rfl

theorem execute_cancelled_stays (env : Env) (w : Worker) (n : Nat) :
    ∀ (wd wd1 : World), w.Execute env n wd = some (Phase.Cancelled, wd1) →
      ∀ m, n ≤ m → w.Execute env m wd = some (Phase.Cancelled, wd1) := by
  induction n with
  | zero =>
    intro wd wd1 h
    have h0 : w.Execute env 0 wd = some (Phase.Running, wd) := rfl
    rw [h0] at h
    cases h
  | succ n ih =>
    intro wd wd1 h m hm
    obtain ⟨m, rfl⟩ : ∃ k, m = k + 1 := ⟨m - 1, by omega⟩
    have h1 := h
    unfold Worker.Execute at h1
    rw [Gen.bind_eq_some] at h1
    obtain ⟨ph, wd2, hit, -⟩ := h1
    cases ph with
    | Running =>
      rw [execute_succ_of_running env w n wd wd2 hit] at h
      rw [execute_succ_of_running env w m wd wd2 hit]
      exact ih wd2 wd1 h m (by omega)
    | Cancelled =>
      rw [execute_succ_of_cancelled env w n wd wd2 hit] at h
      rw [execute_succ_of_cancelled env w m wd wd2 hit]
      exact h

/-- C11. The loop of `Execute` over the phases `Running` and `Cancelled`.  One
iteration makes one check of the context, first: when the check sees the
context done the iteration does nothing else and the phase is `Cancelled`;
otherwise the phase stays `Running` and the events of the iteration are the
check, a body with no further check and no send, and the send of the outcome.
In at most `n` iterations `Execute` makes as many draws of the mix, calls of
the executor and sends as there were checks that did not see the context
done; while `Running` all `n` checks were such; once `Cancelled` the last check
saw the context done, and after it comes the deferred `w.wg.Done()` and nothing
else.  `Cancelled` is terminal: further iterations change neither the phase nor
the world.  With well-formed constants and a scale of at least one everywhere,
an iteration, and so every attempt it starts, returns from every world. -/
theorem loop_state_machine (env : Env) (hs : env.h.Sound) (w : Worker) :
    Gen.Always (w.iteration env) (fun ph ev =>
      (ph = Phase.Cancelled ∧ ev = [Event.ctxDone true]) ∨
      (ph = Phase.Running ∧ ∃ body trx,
        ev = Event.ctxDone false :: (body ++ [Event.publish trx]) ∧
        observations body = [] ∧ published body = [])) ∧
    (∀ n, Gen.Always (w.Execute env n) (fun ph ev =>
      ∃ k, (drawsAt Site.mix ev).length = k ∧ (execCalls ev).length = k ∧
        (published ev).length = k ∧
        (ph = Phase.Running → k = n ∧ observations ev = List.replicate n false ∧
          exits ev = 0) ∧
        (ph = Phase.Cancelled → k < n ∧ ∃ pre,
          ev = pre ++ [Event.ctxDone true, Event.wgDone] ∧
          observations pre = List.replicate k false ∧
          (drawsAt Site.mix pre).length = k ∧ (execCalls pre).length = k ∧
          (published pre).length = k ∧ exits pre = 0))) ∧
    (∀ (n : Nat) (wd wd1 : World), w.Execute env n wd = some (Phase.Cancelled, wd1) →
      ∀ m, n ≤ m → w.Execute env m wd = some (Phase.Cancelled, wd1)) ∧
    (env.k.WellFormed → 1 ≤ w.sc.Warehouses → 1 ≤ w.sc.DistrictsPerWarehouse →
      1 ≤ w.sc.CustomersPerDistrict → 1 ≤ w.sc.Items →
      Gen.Returns (w.iteration env) ∧ ∀ n, Gen.Returns (w.Execute env n)) := by
  refine ⟨?_, ?_, fun n => execute_cancelled_stays env w n, fun hk hW hD hC hI =>
    ⟨iteration_total env hs hk w hW hD hC hI, execute_total env hs hk w hW hD hC hI⟩⟩
  · refine (iteration_typed env hs w).mono ?_
    rintro ph ev (h | ⟨rfl, trx, hrun⟩)
    · exact Or.inl h
    · obtain ⟨r, call, st, -, -, -, -, -, -, -, -, -, body, he, h1, h2⟩ :=
        attemptOf_views env w trx ev hrun
      exact Or.inr ⟨rfl, body, trx, he, h1, h2⟩
  · intro n
    refine (execute_always env hs w n).mono ?_
    rintro ph ev ⟨outs, hrun⟩
    obtain ⟨v1, v2, v3, v4, v5⟩ := executeRun_views env w n outs ph ev hrun
    refine ⟨outs.length, v2, v3, by rw [v1], v4, ?_⟩
    rintro rfl
    obtain ⟨evs, hruns, hcase⟩ := hrun
    rcases hcase with ⟨h, -, -⟩ | ⟨-, hn, rfl⟩
    · cases h
    · obtain ⟨i1, i2, i3, i4, i5⟩ := attemptsRun_views env w outs evs hruns
      exact ⟨hn, evs, rfl, i2, i3, i4, by rw [i1], i5⟩

theorem loop_state_machine_witness :
    specEnv.h.Sound ∧
    (∃ ev, exampleLoopTrace = [] ++ ev ∧
      ∃ k, (drawsAt Site.mix ev).length = k ∧ (execCalls ev).length = k ∧
        (published ev).length = k ∧
        (Phase.Cancelled = Phase.Running → k = 3 ∧
          observations ev = List.replicate 3 false ∧ exits ev = 0) ∧
        (Phase.Cancelled = Phase.Cancelled → k < 3 ∧ ∃ pre,
          ev = pre ++ [Event.ctxDone true, Event.wgDone] ∧
          observations pre = List.replicate k false ∧
          (drawsAt Site.mix pre).length = k ∧ (execCalls pre).length = k ∧
          (published pre).length = k ∧ exits pre = 0)) := by
  obtain ⟨wd1, hrun, ht⟩ := run_of_view (specWorker.Execute specEnv 3)
    (World.init exampleLoopOracle) Phase.Cancelled 13 exampleLoopTrace (by decide!)
  have h := (loop_state_machine specEnv specHelpers_sound specWorker).2.1 3
    (World.init exampleLoopOracle) Phase.Cancelled wd1 hrun
  rw [ht] at h
  exact ⟨specHelpers_sound, h⟩

/-- C12. Within one worker, whatever `Execute` did in at most `n` iterations: its
events are those of consecutive attempts, one for each outcome it sent and in
the order of the sends (`AttemptsRun` of the list `published ev`), followed,
once `Cancelled`, only by the check that saw the context done and the deferred
`w.wg.Done()`.  Each attempt ends with the send of its own outcome, before the
check of the next one, so the `k`-th outcome sent is the outcome of the `k`-th
attempt, none is missing and none is sent twice; the number of outcomes sent is
the number of checks that did not see the context done, and it is `n` while
the worker is `Running`.  With well-formed constants and a scale of at least
one everywhere, `Execute` returns from every world for every `n`. -/
theorem outcomes_in_attempt_order (env : Env) (hs : env.h.Sound) (w : Worker) :
    (∀ n, Gen.Always (w.Execute env n) (fun ph ev =>
      (∃ evs, AttemptsRun env w (published ev) evs ∧
        (ph = Phase.Running → ev = evs) ∧
        (ph = Phase.Cancelled → ev = evs ++ [Event.ctxDone true, Event.wgDone])) ∧
      (observations ev).count false = (published ev).length ∧
      (ph = Phase.Running →
        (published ev).length = n ∧ observations ev = List.replicate n false) ∧
      (ph = Phase.Cancelled → (published ev).length < n))) ∧
    (∀ (trx : Transaction) (ev : List Event), AttemptOf env w trx ev →
      published ev = [trx] ∧ observations ev = [false] ∧
      ∃ body, ev = Event.ctxDone false :: (body ++ [Event.publish trx]) ∧
        observations body = [] ∧ published body = []) ∧
    (env.k.WellFormed → 1 ≤ w.sc.Warehouses → 1 ≤ w.sc.DistrictsPerWarehouse →
      1 ≤ w.sc.CustomersPerDistrict → 1 ≤ w.sc.Items → ∀ n, Gen.Returns (w.Execute env n)) := by
  refine ⟨?_, ?_, fun hk hW hD hC hI => execute_total env hs hk w hW hD hC hI⟩
  · intro n
    refine (execute_always env hs w n).mono ?_
    rintro ph ev ⟨outs, hrun⟩
    obtain ⟨v1, -, -, v4, v5⟩ := executeRun_views env w n outs ph ev hrun
    obtain ⟨evs, hruns, hcase⟩ := hrun
    rw [v1]
    refine ⟨⟨evs, hruns, ?_, ?_⟩, ?_, ?_, ?_⟩
    · rintro rfl
      rcases hcase with ⟨-, -, h⟩ | ⟨h, -, -⟩
      · exact h
      · cases h
    · rintro rfl
      rcases hcase with ⟨h, -, -⟩ | ⟨-, -, h⟩
      · cases h
      · exact h
    · cases ph with
      | Running =>
        obtain ⟨h1, h2, -⟩ := v4 rfl
        rw [h2, h1]
        simp
      | Cancelled =>
        obtain ⟨-, h2, -⟩ := v5 rfl
        rw [h2]
        simp
    · intro h
      exact ⟨(v4 h).1, (v4 h).2.1⟩
    · intro h
      exact (v5 h).1
  · intro trx ev hrun
    obtain ⟨r, call, st, -, -, v1, -, -, v4, -, -, -, hbody⟩ := attemptOf_views env w trx ev hrun
    exact ⟨v4, v1, hbody⟩

theorem outcomes_in_attempt_order_witness :
    specEnv.h.Sound ∧
    published (exampleLoopTrace.take 14) =
      [{ ThreadId := 7, Type_ := TransactionType.StockLevelTrx, Failed := true },
       { ThreadId := 7, Type_ := TransactionType.DeliveryTrx, Failed := false }] ∧
    (∃ ev, exampleLoopTrace.take 14 = [] ++ ev ∧
      (∃ evs, AttemptsRun specEnv specWorker (published ev) evs ∧
        (Phase.Running = Phase.Running → ev = evs) ∧
        (Phase.Running = Phase.Cancelled →
          ev = evs ++ [Event.ctxDone true, Event.wgDone])) ∧
      (observations ev).count false = (published ev).length ∧
      (Phase.Running = Phase.Running →
        (published ev).length = 2 ∧ observations ev = List.replicate 2 false) ∧
      (Phase.Running = Phase.Cancelled → (published ev).length < 2)) := by
  obtain ⟨wd1, hrun, ht⟩ := run_of_view (specWorker.Execute specEnv 2)
    (World.init exampleLoopOracle) Phase.Running 12 (exampleLoopTrace.take 14) (by decide!)
  have h := (outcomes_in_attempt_order specEnv specHelpers_sound specWorker).1 2
    (World.init exampleLoopOracle) Phase.Running wd1 hrun
  rw [ht] at h
  exact ⟨specHelpers_sound, by decide, h⟩

/-! ## The pool of workers and its barrier -/

theorem iteration_of_done (env : Env) (w : Worker) (wd : World) (h : wd.oracle wd.pos ≠ 0) :
    w.iteration env wd = some (Phase.Cancelled,
      { wd with pos := wd.pos + 1, trace := wd.trace ++ [Event.ctxDone true] }) := by
  have h1 : ctxDone wd = some (true,
      { wd with pos := wd.pos + 1, trace := wd.trace ++ [Event.ctxDone true] }) := by
    unfold ctxDone
    exact (Gen.ask_eq_some _ _ _ _ _).mpr ⟨by simp [h], rfl⟩
  unfold Worker.iteration
  rw [Gen.bind_of_some _ _ wd true _ h1]
  rfl

theorem execute_cancel_next (env : Env) (w : Worker) (k : Nat) :
    ∀ (wd wd1 : World), w.Execute env k wd = some (Phase.Running, wd1) →
      wd1.oracle wd1.pos ≠ 0 → ∀ m, k < m →
      w.Execute env m wd = some (Phase.Cancelled,
        { wd1 with pos := wd1.pos + 1,
                   trace := wd1.trace ++ [Event.ctxDone true, Event.wgDone] }) := by
  induction k with
  | zero =>
    intro wd wd1 h hdone m hm
    have h0 : w.Execute env 0 wd = some (Phase.Running, wd) := rfl
    rw [h0] at h
    cases h
    obtain ⟨m, rfl⟩ : ∃ j, m = j + 1 := ⟨m - 1, by omega⟩
    rw [execute_succ_of_cancelled env w m wd _ (iteration_of_done env w wd hdone)]
    simp
  | succ k ih =>
    intro wd wd1 h hdone m hm
    obtain ⟨m, rfl⟩ : ∃ j, m = j + 1 := ⟨m - 1, by omega⟩
    have h1 := h
    unfold Worker.Execute at h1
    rw [Gen.bind_eq_some] at h1
    obtain ⟨ph, wd2, hit, -⟩ := h1
    cases ph with
    | Running =>
      rw [execute_succ_of_running env w k wd wd2 hit] at h
      rw [execute_succ_of_running env w m wd wd2 hit]
      exact ih wd2 wd1 h hdone m (by omega)
    | Cancelled =>
      rw [execute_succ_of_cancelled env w k wd wd2 hit] at h
      cases h

theorem exits_sum_eq_length (traces : List (List Event)) (h : ∀ t ∈ traces, exits t ≤ 1) :
    (traces.map exits).sum ≤ traces.length ∧
    ((traces.map exits).sum = traces.length ↔ ∀ t ∈ traces, exits t = 1) := by
  induction traces with
  | nil => simp
  | cons t ts ih =>
    obtain ⟨i1, i2⟩ := ih (fun x hx => h x (List.mem_cons_of_mem _ hx))
    have ht := h t (List.mem_cons_self _ _)
    simp only [List.map_cons, List.sum_cons, List.length_cons, List.mem_cons, forall_eq_or_imp]
    refine ⟨by omega, ?_⟩
    rw [← i2]
    omega

theorem joinReturns_iff (traces : List (List Event)) (h : ∀ t ∈ traces, exits t ≤ 1) :
    joinReturns traces.length traces = true ↔ ∀ t ∈ traces, exits t = 1 := by
  obtain ⟨h1, h2⟩ := exits_sum_eq_length traces h
  rw [← h2]
  unfold joinReturns barrier
  rw [if_pos h1]
  simp only [beq_iff_eq, Option.some.injEq]
  omega

theorem execute_exits (env : Env) (hs : env.h.Sound) (w : Worker) (n : Nat) :
    Gen.Always (w.Execute env n) (fun ph ev =>
      (ph = Phase.Running → exits ev = 0 ∧ (published ev).length = n) ∧
      (ph = Phase.Cancelled → exits ev = 1 ∧ ∃ pre,
        ev = pre ++ [Event.ctxDone true, Event.wgDone] ∧ exits pre = 0 ∧
        (observations pre).count false = (published pre).length ∧
        published ev = published pre)) := by
  refine (execute_always env hs w n).mono ?_
  rintro ph ev ⟨outs, hrun⟩
  obtain ⟨v1, -, -, v4, v5⟩ := executeRun_views env w n outs ph ev hrun
  obtain ⟨evs, hruns, hcase⟩ := hrun
  obtain ⟨i1, i2, -, -, i5⟩ := attemptsRun_views env w outs evs hruns
  refine ⟨fun h => ⟨(v4 h).2.2, by rw [v1]; exact (v4 h).1⟩, ?_⟩
  rintro rfl
  rcases hcase with ⟨h, -, -⟩ | ⟨-, -, rfl⟩
  · cases h
  · refine ⟨(v5 rfl).2.2, evs, rfl, i5, ?_, ?_⟩
    · rw [i2, i1]; simp
    · rw [published_append]; simp [published, Event.trx?]

theorem pool_all_cancelled (env : Env) (hs : env.h.Sound) (m : Nat) :
    ∀ (pool : List (Worker × Nat × World)),
      (∀ p ∈ pool, p.2.2.trace = [] ∧ p.2.1 < m ∧
        ∃ mid, p.1.Execute env p.2.1 p.2.2 = some (Phase.Running, mid) ∧
          mid.oracle mid.pos ≠ 0) →
      ∃ res : List World,
        List.Forall₂ (fun p r => p.1.Execute env m p.2.2 = some (Phase.Cancelled, r) ∧
          (published r.trace).length = p.2.1 ∧ exits r.trace = 1) pool res := by
  intro pool
  induction pool with
  | nil => exact fun _ => ⟨[], List.Forall₂.nil⟩
  | cons p ps ih =>
    intro h
    obtain ⟨res, hres⟩ := ih (fun x hx => h x (List.mem_cons_of_mem _ hx))
    obtain ⟨ht, hm, mid, hrun, hdone⟩ := h p (List.mem_cons_self _ _)
    have hnext := execute_cancel_next env p.1 p.2.1 p.2.2 mid hrun hdone m hm
    obtain ⟨ev, hev, hx, -⟩ := execute_exits env hs p.1 p.2.1 p.2.2 Phase.Running mid hrun
    rw [ht, List.nil_append] at hev
    obtain ⟨hx0, hxp⟩ := hx rfl
    refine ⟨_ :: res, List.Forall₂.cons ⟨hnext, ?_, ?_⟩ hres⟩
    · show (published (mid.trace ++ [Event.ctxDone true, Event.wgDone])).length = p.2.1
      rw [published_append, hev, List.length_append, hxp]
      rfl
    · show exits (mid.trace ++ [Event.ctxDone true, Event.wgDone]) = 1
      rw [exits_append, hev, hx0]
      rfl

theorem pool_join_iff (env : Env) (hs : env.h.Sound) :
    ∀ (pool : List (Worker × Nat × World)) (res : List (Phase × World)),
      List.Forall₂ (fun p r => p.2.2.trace = [] ∧ p.1.Execute env p.2.1 p.2.2 = some r)
        pool res →
      (joinReturns pool.length (res.map (fun r => r.2.trace)) = true ↔
        ∀ r ∈ res, r.1 = Phase.Cancelled) := by
  intro pool res h
  have hlen : pool.length = (res.map (fun r => r.2.trace)).length := by
    rw [List.length_map]; exact h.length_eq
  have hex : ∀ r ∈ res, (r.1 = Phase.Cancelled → exits r.2.trace = 1) ∧
      (r.1 = Phase.Running → exits r.2.trace = 0) := by
    clear hlen
    induction h with
    | nil => intro r hr; simp at hr
    | @cons p r ps rs hpr _ ih =>
      intro x hx
      rcases List.mem_cons.mp hx with rfl | hx
      · obtain ⟨ht, hrun⟩ := hpr
        obtain ⟨ev, hev, h1, h2⟩ := execute_exits env hs p.1 p.2.1 p.2.2 x.1 x.2 hrun
        rw [ht, List.nil_append] at hev
        rw [hev]
        exact ⟨fun hc => (h2 hc).1, fun hc => (h1 hc).1⟩
      · exact ih x hx
  rw [hlen, joinReturns_iff]
  · constructor
    · intro hall r hr
      have h1 := hall r.2.trace (List.mem_map.mpr ⟨r, hr, rfl⟩)
      cases hph : r.1 with
      | Cancelled => rfl
      | Running =>
        have h0 := (hex r hr).2 hph
        omega
    · intro hall t ht
      obtain ⟨r, hr, rfl⟩ := List.mem_map.mp ht
      exact (hex r hr).1 (hall r hr)
  · intro t ht
    obtain ⟨r, hr, rfl⟩ := List.mem_map.mp ht
    cases hph : r.1 with
    | Cancelled => exact le_of_eq ((hex r hr).1 hph)
    | Running => rw [(hex r hr).2 hph]; exact Nat.zero_le 1

/-- C13. Each worker is followed in a world of its own, which holds what that
worker sees of the context, the random source, the clock and the data store
(every answer to every worker is allowed, so every interleaving is covered);
calls of the executor and sends on the channel are taken to return.  A worker
that has finished `k` attempts and whose next check sees the context done is
`Cancelled` after every later iteration, with exactly that check and one call
of `w.wg.Done()` added to its trace.  Whatever `Execute` did, `w.wg.Done()` was
called once when the worker is `Cancelled`, as its last event and after every
outcome of a started attempt was sent, and not at all while it is `Running`.
With the barrier and `join` of the specification: for a pool of workers started
with empty traces, `join` returns exactly when every worker is `Cancelled`; and
when the context is cancelled the workers of a pool, each with its attempts in
flight finished, all end `Cancelled`, each having sent the outcome of every
attempt it started and called `w.wg.Done()` once, and `join` returns.  With
well-formed constants and a scale of at least one everywhere, `Execute` returns
from every world for every number of iterations. -/
theorem pool_joins_after_cancel (env : Env) (hs : env.h.Sound) :
    (∀ (w : Worker) (k : Nat) (wd wd1 : World),
      w.Execute env k wd = some (Phase.Running, wd1) → wd1.oracle wd1.pos ≠ 0 →
      ∀ m, k < m → w.Execute env m wd = some (Phase.Cancelled,
        { wd1 with pos := wd1.pos + 1,
                   trace := wd1.trace ++ [Event.ctxDone true, Event.wgDone] })) ∧
    (∀ (w : Worker) (n : Nat), Gen.Always (w.Execute env n) (fun ph ev =>
      (ph = Phase.Running → exits ev = 0 ∧ (published ev).length = n) ∧
      (ph = Phase.Cancelled → exits ev = 1 ∧ ∃ pre,
        ev = pre ++ [Event.ctxDone true, Event.wgDone] ∧ exits pre = 0 ∧
        (observations pre).count false = (published pre).length ∧
        published ev = published pre))) ∧
    (∀ (pool : List (Worker × Nat × World)) (res : List (Phase × World)),
      List.Forall₂ (fun p r => p.2.2.trace = [] ∧ p.1.Execute env p.2.1 p.2.2 = some r)
        pool res →
      (joinReturns pool.length (res.map (fun r => r.2.trace)) = true ↔
        ∀ r ∈ res, r.1 = Phase.Cancelled)) ∧
    (∀ (m : Nat) (pool : List (Worker × Nat × World)),
      (∀ p ∈ pool, p.2.2.trace = [] ∧ p.2.1 < m ∧
        ∃ mid, p.1.Execute env p.2.1 p.2.2 = some (Phase.Running, mid) ∧
          mid.oracle mid.pos ≠ 0) →
      ∃ res : List World,
        List.Forall₂ (fun p r => p.1.Execute env m p.2.2 = some (Phase.Cancelled, r) ∧
          (published r.trace).length = p.2.1 ∧ exits r.trace = 1) pool res ∧
        joinReturns pool.length (res.map (fun r => r.trace)) = true) ∧
    (env.k.WellFormed → ∀ w : Worker, 1 ≤ w.sc.Warehouses → 1 ≤ w.sc.DistrictsPerWarehouse →
      1 ≤ w.sc.CustomersPerDistrict → 1 ≤ w.sc.Items → ∀ n, Gen.Returns (w.Execute env n)) := by
  refine ⟨fun w k => execute_cancel_next env w k, fun w n => execute_exits env hs w n,
    pool_join_iff env hs, ?_, fun hk w hW hD hC hI => execute_total env hs hk w hW hD hC hI⟩
  intro m pool hpool
  obtain ⟨res, hres⟩ := pool_all_cancelled env hs m pool hpool
  refine ⟨res, hres, ?_⟩
  have hlen : pool.length = (res.map (fun r => r.trace)).length := by
    rw [List.length_map]; exact hres.length_eq
  have hall : ∀ r ∈ res, exits r.trace = 1 := by
    clear hlen hpool
    induction hres with
    | nil => intro r hr; simp at hr
    | cons hpr _ ih =>
      intro x hx
      rcases List.mem_cons.mp hx with rfl | hx
      · exact hpr.2.2
      · exact ih x hx
  have hone : ∀ t ∈ res.map (fun r => r.trace), exits t = 1 := by
    intro t ht
    obtain ⟨r, hr, rfl⟩ := List.mem_map.mp ht
    exact hall r hr
  rw [hlen]
  exact (joinReturns_iff _ (fun t ht => le_of_eq (hone t ht))).mpr hone
theorem pool_joins_after_cancel_witness :
    specEnv.h.Sound ∧ examplePool.length = 4 ∧
    (∀ p ∈ examplePool, p.2.2.trace = [] ∧ p.2.1 < 2 ∧
      ∃ mid, p.1.Execute specEnv p.2.1 p.2.2 = some (Phase.Running, mid) ∧
        mid.oracle mid.pos ≠ 0) ∧
    (specWorker.Execute specEnv 2 (World.init inFlightOracle)).map (fun r => (r.1, r.2.trace)) =
      some (Phase.Cancelled, inFlightTrace 7) ∧
    joinReturns 4 [[Event.ctxDone true, Event.wgDone], inFlightTrace 2,
      [Event.ctxDone true, Event.wgDone], inFlightTrace 4] = true ∧
    joinReturns 4 [[Event.ctxDone true, Event.wgDone], (inFlightTrace 2).take 7,
      [Event.ctxDone true, Event.wgDone], inFlightTrace 4] = false ∧
    (∃ res : List World,
      List.Forall₂ (fun p r => p.1.Execute specEnv 2 p.2.2 = some (Phase.Cancelled, r) ∧
        (published r.trace).length = p.2.1 ∧ exits r.trace = 1) examplePool res ∧
      joinReturns examplePool.length (res.map (fun r => r.trace)) = true) := by
  have hpool : ∀ p ∈ examplePool, p.2.2.trace = [] ∧ p.2.1 < 2 ∧
      ∃ mid, p.1.Execute specEnv p.2.1 p.2.2 = some (Phase.Running, mid) ∧
        mid.oracle mid.pos ≠ 0 := by
    intro p hp
    simp only [examplePool, List.mem_cons, List.mem_singleton, List.not_mem_nil, or_false] at hp
    rcases hp with rfl | rfl | rfl | rfl
    · exact ⟨rfl, by decide, _, rfl, by decide⟩
    · exact ⟨rfl, by decide, _, rfl, by decide⟩
    · exact ⟨rfl, by decide, _, rfl, by decide⟩
    · exact ⟨rfl, by decide, _, rfl, by decide⟩
  exact ⟨specHelpers_sound, rfl, hpool, by decide!, by decide, by decide,
    (pool_joins_after_cancel specEnv specHelpers_sound).2.2.2.1 2 examplePool hpool⟩

/-! ## Binary64: quotients from `2^53` on -/

theorem roundQuot_tie_even (N D k : Nat) (hD : 0 < D) (h : 2 * N = (2 * k + 1) * D) :
    F64.roundQuot N D % 2 = 0 := by
  have e1 : (2 * k + 1) * D = 2 * (k * D) + D := by ring
  have e2 : (k + 1) * D = k * D + D := by ring
  have hq : N / D = k := by
    apply Nat.div_eq_of_lt_le
    · omega
    · rw [e2]; omega
  have hm := Nat.div_add_mod N D
  rw [hq, Nat.mul_comm] at hm
  have hr : 2 * (N % D) = D := by omega
  unfold F64.roundQuot
  simp only []
  rw [if_neg (by omega), if_pos hr, hq]
  split_ifs with c
  · exact c
  · omega

theorem round_big (num den : Nat) (hnum : 0 < num) (hden : 0 < den)
    (hx : (2 : ℚ) ^ 53 ≤ (num : ℚ) / (den : ℚ)) :
    ∃ n p : Nat,
      (F64.round false num den = F64.inf false ∨
        F64.round false num den = F64.fin false n (p : Int)) ∧
      1 ≤ n * 2 ^ p ∧
      ((num : ℚ) / (den : ℚ) < 2 ^ 63 - 2 ^ 9 →
        F64.round false num den = F64.fin false n (p : Int) ∧ n * 2 ^ p < 2 ^ 63) ∧
      ((2 : ℚ) ^ 63 - 2 ^ 9 ≤ (num : ℚ) / (den : ℚ) → 2 ^ 63 ≤ n * 2 ^ p) := by
  have hd : (0 : ℚ) < (den : ℚ) := by exact_mod_cast hden
  have hE1 := ilog2Ratio_le num den hnum hden
  have hE2 := ilog2Ratio_lt num den hnum hden
  have hE53 : 53 ≤ F64.ilog2Ratio num den := by
    have h53 : (2 : ℚ) ^ (53 : Int) < (2 : ℚ) ^ (F64.ilog2Ratio num den + 1) := by
      refine lt_of_le_of_lt ?_ hE2
      rw [zpow_ofNat]; exact hx
    have := pow_two_exponent_lt _ _ h53
    omega
  obtain ⟨p, hp⟩ : ∃ p : Nat, F64.ilog2Ratio num den = (p : Int) + 52 :=
    ⟨(F64.ilog2Ratio num den - 52).toNat, by omega⟩
  have hp1 : 1 ≤ p := by omega
  have hmax : max (F64.ilog2Ratio num den - 52) (-1074) = (p : Int) := by
    rw [hp]; omega
  have hP : 0 < 2 ^ p := Nat.pow_pos (by decide)
  have hD : 0 < den * 2 ^ p := Nat.mul_pos hden hP
  -- the bounds on the quotient, over the naturals
  have hlo : 2 ^ 52 * (den * 2 ^ p) ≤ num := by
    have h1 : (2 : ℚ) ^ ((p : Int) + 52) ≤ (num : ℚ) / (den : ℚ) := by rw [← hp]; exact hE1
    have h2 : (2 : ℚ) ^ ((p : Int) + 52) = (2 : ℚ) ^ p * 2 ^ 52 := by
      rw [zpow_add₀ (by norm_num : (2 : ℚ) ≠ 0), zpow_natCast, zpow_ofNat]
    rw [h2, le_div_iff₀ hd] at h1
    have h3 : ((2 ^ 52 * (den * 2 ^ p) : Nat) : ℚ) ≤ (num : ℚ) := by
      push_cast; linarith
    exact_mod_cast h3
  have hhi : num < 2 ^ 53 * (den * 2 ^ p) := by
    have h1 : (num : ℚ) / (den : ℚ) < (2 : ℚ) ^ ((p : Int) + 53) := by
      have : F64.ilog2Ratio num den + 1 = (p : Int) + 53 := by omega
      rw [← this]; exact hE2
    have h2 : (2 : ℚ) ^ ((p : Int) + 53) = (2 : ℚ) ^ p * 2 ^ 53 := by
      rw [zpow_add₀ (by norm_num : (2 : ℚ) ≠ 0), zpow_natCast, zpow_ofNat]
    rw [h2, div_lt_iff₀ hd] at h1
    have h3 : (num : ℚ) < ((2 ^ 53 * (den * 2 ^ p) : Nat) : ℚ) := by
      push_cast; linarith
    exact_mod_cast h3
  obtain ⟨hn1, hn2⟩ := roundQuot_nearest num (den * 2 ^ p) hD
  have hround : F64.round false num den =
      if 971 < (p : Int) ∨ ((p : Int) = 971 ∧ 2 ^ 53 ≤ F64.roundQuot num (den * 2 ^ p))
      then F64.inf false else F64.fin false (F64.roundQuot num (den * 2 ^ p)) (p : Int) := by
    unfold F64.round
    simp only []
    rw [hmax, if_pos (Int.natCast_nonneg p), Int.toNat_ofNat]
  have htie : ∀ k, 2 * num = (2 * k + 1) * (den * 2 ^ p) →
      F64.roundQuot num (den * 2 ^ p) % 2 = 0 :=
    fun k h => roundQuot_tie_even num (den * 2 ^ p) k hD h
  generalize F64.roundQuot num (den * 2 ^ p) = n at hn1 hn2 hround htie
  have n52 : 2 ^ 52 ≤ n := by
    by_contra hc
    have h1 : n * (den * 2 ^ p) ≤ (2 ^ 52 - 1) * (den * 2 ^ p) :=
      Nat.mul_le_mul_right _ (by omega)
    generalize den * 2 ^ p = Dp at hlo hhi hn1 hn2 h1 hD
    generalize n * Dp = A at hn1 hn2 h1
    omega
  have n53 : n ≤ 2 ^ 53 := by
    by_contra hc
    have h1 : (2 ^ 53 + 1) * (den * 2 ^ p) ≤ n * (den * 2 ^ p) :=
      Nat.mul_le_mul_right _ (by omega)
    generalize den * 2 ^ p = Dp at hlo hhi hn1 hn2 h1 hD
    generalize n * Dp = A at hn1 hn2 h1
    omega
  refine ⟨n, p, ?_, Nat.mul_pos (by omega) hP, ?_, ?_⟩
  · rw [hround]
    split_ifs
    · exact Or.inl rfl
    · exact Or.inr rfl
  · intro hlt
    have hp10 : p ≤ 10 := by
      have h63 : (2 : ℚ) ^ (F64.ilog2Ratio num den) < (2 : ℚ) ^ (63 : Int) := by
        refine lt_of_le_of_lt hE1 (lt_trans hlt ?_)
        rw [zpow_ofNat]; norm_num
      have := pow_two_exponent_lt _ _ h63
      omega
    refine ⟨by rw [hround, if_neg (by omega)], ?_⟩
    by_cases h10 : p = 10
    · subst h10
      have hnat : num + 2 ^ 9 * den < 2 ^ 63 * den := by
        rw [div_lt_iff₀ hd] at hlt
        have h3 : ((num + 2 ^ 9 * den : Nat) : ℚ) < ((2 ^ 63 * den : Nat) : ℚ) := by
          push_cast; linarith
        exact_mod_cast h3
      have hlt53 : n < 2 ^ 53 := by
        by_contra hc
        have h1 : 2 ^ 53 * (den * 2 ^ 10) ≤ n * (den * 2 ^ 10) :=
          Nat.mul_le_mul_right _ (by omega)
        generalize n * (den * 2 ^ 10) = A at hn1 hn2 h1
        omega
      omega
    · have h9 : 2 ^ p ≤ 2 ^ 9 := Nat.pow_le_pow_right (by decide) (by omega)
      have := Nat.mul_le_mul n53 h9
      have e : 2 ^ 53 * 2 ^ 9 < 2 ^ 63 := by norm_num
      omega
  · intro hge
    have hp10 : 10 ≤ p := by
      have h62 : (2 : ℚ) ^ (62 : Int) < (2 : ℚ) ^ (F64.ilog2Ratio num den + 1) := by
        refine lt_of_lt_of_le ?_ (le_trans hge (le_of_lt hE2))
        rw [zpow_ofNat]; norm_num
      have := pow_two_exponent_lt _ _ h62
      omega
    by_cases h10 : p = 10
    · subst h10
      have hnat : 2 ^ 63 * den ≤ num + 2 ^ 9 * den := by
        rw [le_div_iff₀ hd] at hge
        have h3 : ((2 ^ 63 * den : Nat) : ℚ) ≤ ((num + 2 ^ 9 * den : Nat) : ℚ) := by
          push_cast; linarith
        exact_mod_cast h3
      have hge53 : 2 ^ 53 ≤ n := by
        by_contra hc
        have hlow : 2 ^ 53 - 1 ≤ n := by
          by_contra hc2
          have h1 : n * (den * 2 ^ 10) ≤ (2 ^ 53 - 2) * (den * 2 ^ 10) :=
            Nat.mul_le_mul_right _ (by omega)
          generalize n * (den * 2 ^ 10) = A at hn1 hn2 h1
          omega
        have hn : n = 2 ^ 53 - 1 := by omega
        have hnum2 : 2 * num = (2 * (2 ^ 53 - 1) + 1) * (den * 2 ^ 10) := by
          rw [hn] at hn2
          omega
        have hev := htie (2 ^ 53 - 1) hnum2
        omega
      omega
    · have h11 : 2 ^ 11 ≤ 2 ^ p := Nat.pow_le_pow_right (by decide) (by omega)
      have := Nat.mul_le_mul n52 h11
      have e : 2 ^ 52 * 2 ^ 11 = 2 ^ 63 := by norm_num
      omega
theorem toInt_natExp (oor : F64 → Int) (n p : Nat) :
    (n * 2 ^ p < 2 ^ 63 →
      F64.toInt oor (F64.fin false n (p : Int)) = ((n * 2 ^ p : Nat) : Int)) ∧
    (2 ^ 63 ≤ n * 2 ^ p →
      F64.toInt oor (F64.fin false n (p : Int)) =
        wrapInt64 (oor (F64.fin false n (p : Int)))) := by
  have ht : F64.trunc (F64.fin false n (p : Int)) = some ((n * 2 ^ p : Nat) : Int) := by
    unfold F64.trunc
    simp only [Bool.false_eq_true, if_false]
    rw [if_pos (Int.natCast_nonneg p), Int.toNat_ofNat]
  unfold F64.toInt
  rw [ht]
  simp only []
  constructor
  · intro h
    rw [if_pos]
    constructor
    · have : (0 : Int) ≤ ((n * 2 ^ p : Nat) : Int) := Int.ofNat_nonneg _
      omega
    · exact_mod_cast h
  · intro h
    rw [if_neg]
    intro hc
    have h2 : ((n * 2 ^ p : Nat) : Int) < ((2 ^ 63 : Nat) : Int) := by
      push_cast; exact_mod_cast hc.2
    have h3 : n * 2 ^ p < 2 ^ 63 := by exact_mod_cast h2
    omega

/-- The count `int(float64(B) / f)` for a base count `0 < B < 2^53` and a finite
positive `f` with `2^53 ≤ B / f`.  When `B / f < 2^63 - 2^9` the rounded quotient
is below `2^63` and the count is at least 1, whatever the platform; from
`2^63 - 2^9` on it rounds to `2^63` or more, the conversion is out of range, and
the count is `-2^63` on amd64; on arm64, where the conversion saturates, the
count is at least 1 in both cases. -/
theorem scaled_count_big (oor : F64 → Int) (B : Int) (m : Nat) (e : Int) (h0 : 0 < B)
    (hB : B < 2 ^ 53) (hm : 0 < m)
    (hx : (2 : ℚ) ^ 53 ≤ (B : ℚ) / F64.toRat (F64.fin false m e)) :
    ((B : ℚ) / F64.toRat (F64.fin false m e) < 2 ^ 63 - 2 ^ 9 →
      1 ≤ F64.toInt oor (F64.div (F64.ofInt B) (F64.fin false m e)) ∧
      F64.toInt oor (F64.div (F64.ofInt B) (F64.fin false m e)) < 2 ^ 63) ∧
    1 ≤ F64.toInt arm64 (F64.div (F64.ofInt B) (F64.fin false m e)) ∧
    ((2 : ℚ) ^ 63 - 2 ^ 9 ≤ (B : ℚ) / F64.toRat (F64.fin false m e) →
      F64.toInt amd64 (F64.div (F64.ofInt B) (F64.fin false m e)) = -(2 : Int) ^ 63) := by
  have hf : F64.toRat (F64.fin false m e) = (m : ℚ) * (2 : ℚ) ^ e := by
    simp [F64.toRat]
  rw [hf] at hx ⊢
  obtain ⟨b, rfl⟩ := Int.eq_ofNat_of_zero_le (le_of_lt h0)
  have hb : 0 < b := by exact_mod_cast h0
  obtain ⟨sB, hof⟩ := ofInt_small b hb (by exact_mod_cast hB)
  obtain ⟨num, den, hnum, hden, hdiv, hq⟩ :=
    div_small (b * 2 ^ sB) sB m e (Nat.mul_pos hb (Nat.pow_pos (by decide))) hm
  have hq' : (num : ℚ) / (den : ℚ) = ((b : Int) : ℚ) / ((m : ℚ) * (2 : ℚ) ^ e) := by
    rw [hq]
    push_cast
    have h2 : (2 : ℚ) ^ sB ≠ 0 := by positivity
    rw [zpow_neg, zpow_natCast, mul_assoc, mul_inv_cancel₀ h2, mul_one]
  rw [← hq'] at hx ⊢
  obtain ⟨n, p, hcase, hpos, hin, hout⟩ := round_big num den hnum hden hx
  rw [hof, hdiv]
  have hinf : ∀ o : F64 → Int,
      F64.toInt o (F64.inf false) = wrapInt64 (o (F64.inf false)) := fun _ => rfl
  have hamd : ∀ x : F64, wrapInt64 (amd64 x) = -(2 : Int) ^ 63 := by
    intro x
    show wrapInt64 (-(2 : Int) ^ 63) = -(2 : Int) ^ 63
    decide
  have harm1 : wrapInt64 (arm64 (F64.inf false)) = 2 ^ 63 - 1 := by decide
  have harm2 : wrapInt64 (arm64 (F64.fin false n (p : Int))) = 2 ^ 63 - 1 := by
    show wrapInt64 (2 ^ 63 - 1) = 2 ^ 63 - 1
    decide
  refine ⟨?_, ?_, ?_⟩
  · intro hlt
    obtain ⟨hr, hlt63⟩ := hin hlt
    rw [hr, (toInt_natExp oor n p).1 hlt63]
    constructor
    · exact_mod_cast hpos
    · exact_mod_cast hlt63
  · rcases hcase with hr | hr
    · rw [hr, hinf, harm1]; decide
    · rw [hr]
      by_cases hlt63 : n * 2 ^ p < 2 ^ 63
      · rw [(toInt_natExp arm64 n p).1 hlt63]
        exact_mod_cast hpos
      · rw [(toInt_natExp arm64 n p).2 (by omega), harm2]; decide
  · intro hge
    rcases hcase with hr | hr
    · rw [hr, hinf, hamd]
    · rw [hr, (toInt_natExp amd64 n p).2 (hout hge), hamd]
/-! ## The derived counts -/

/-- C3, as the code has it.  For every finite scale factor `f` with `0 < f ≤ 900`
and the default base counts 100000, 3000 and 900: when `100000 / f` is below
`2^63 - 2^9`, which every `f` from `2^-46` on is, the three derived counts are at
least 1, whatever the platform does on an out-of-range conversion; where that
conversion saturates (arm64) they are at least 1 for every such `f`; and on
amd64, when `100000 / f` is `2^63 - 2^9` or more, `Items` is `-2^63`. -/
theorem derived_counts_positive (oor : F64 → Int) (f : F64) (W D : Int)
    (hpos : 0 < f.toRat) (hhi : f.toRat ≤ 900) :
    ((100000 : ℚ) / f.toRat < 2 ^ 63 - 2 ^ 9 →
      1 ≤ (NewScaleParameters oor f 100000 W D 3000 900).1.Items ∧
      1 ≤ (NewScaleParameters oor f 100000 W D 3000 900).1.CustomersPerDistrict ∧
      1 ≤ (NewScaleParameters oor f 100000 W D 3000 900).1.NewOrdersPerDistrict) ∧
    (1 ≤ (NewScaleParameters arm64 f 100000 W D 3000 900).1.Items ∧
      1 ≤ (NewScaleParameters arm64 f 100000 W D 3000 900).1.CustomersPerDistrict ∧
      1 ≤ (NewScaleParameters arm64 f 100000 W D 3000 900).1.NewOrdersPerDistrict) ∧
    ((2 : ℚ) ^ 63 - 2 ^ 9 ≤ (100000 : ℚ) / f.toRat →
      (NewScaleParameters amd64 f 100000 W D 3000 900).1.Items = -(2 : Int) ^ 63) := by
  have small : ∀ (o : F64 → Int) (B : Int), 900 ≤ B → B ≤ 100000 →
      (B : ℚ) / f.toRat < 2 ^ 53 → 1 ≤ F64.toInt o (F64.div (F64.ofInt B) f) := by
    intro o B hB1 hB2 hlt
    have hBq1 : (900 : ℚ) ≤ (B : ℚ) := by exact_mod_cast hB1
    obtain ⟨⟨hl, -⟩, -⟩ := scaled_count_of_scales o f B hpos ⟨by omega, by omega, hlt⟩
    have h1 : (1 : Int) ≤ ⌊(B : ℚ) / f.toRat⌋ := by
      rw [Int.le_floor, le_div_iff₀ hpos]
      push_cast
      linarith
    omega
  obtain ⟨m, e, rfl, hm, -⟩ := toRat_pos_fin f hpos
  have mono : ∀ B : Int, B ≤ 100000 →
      (B : ℚ) / (F64.fin false m e).toRat ≤ (100000 : ℚ) / (F64.fin false m e).toRat := by
    intro B hB
    have hBq : (B : ℚ) ≤ 100000 := by exact_mod_cast hB
    exact div_le_div_of_nonneg_right hBq (le_of_lt hpos)
  have key : ∀ B : Int, 900 ≤ B → B ≤ 100000 →
      (100000 : ℚ) / (F64.fin false m e).toRat < 2 ^ 63 - 2 ^ 9 →
      1 ≤ F64.toInt oor (F64.div (F64.ofInt B) (F64.fin false m e)) := by
    intro B hB1 hB2 hlt
    by_cases hs : (B : ℚ) / (F64.fin false m e).toRat < 2 ^ 53
    · exact small oor B hB1 hB2 hs
    · exact ((scaled_count_big oor B m e (by omega) (by omega) hm (not_lt.mp hs)).1
        (lt_of_le_of_lt (mono B hB2) hlt)).1
  have keyArm : ∀ B : Int, 900 ≤ B → B ≤ 100000 →
      1 ≤ F64.toInt arm64 (F64.div (F64.ofInt B) (F64.fin false m e)) := by
    intro B hB1 hB2
    by_cases hs : (B : ℚ) / (F64.fin false m e).toRat < 2 ^ 53
    · exact small arm64 B hB1 hB2 hs
    · exact (scaled_count_big arm64 B m e (by omega) (by omega) hm (not_lt.mp hs)).2.1
  refine ⟨?_, ?_, ?_⟩
  · intro hlt
    obtain ⟨-, -, -, e4, e5, e6⟩ :=
      newScaleParameters_fields oor (F64.fin false m e) 100000 W D 3000 900
    rw [e4, e5, e6]
    exact ⟨key 100000 (by decide) (by decide) hlt, key 3000 (by decide) (by decide) hlt,
      key 900 (by decide) (by decide) hlt⟩
  · obtain ⟨-, -, -, e4, e5, e6⟩ :=
      newScaleParameters_fields arm64 (F64.fin false m e) 100000 W D 3000 900
    rw [e4, e5, e6]
    exact ⟨keyArm 100000 (by decide) (by decide), keyArm 3000 (by decide) (by decide),
      keyArm 900 (by decide) (by decide)⟩
  · intro hge
    obtain ⟨-, -, -, e4, -, -⟩ :=
      newScaleParameters_fields amd64 (F64.fin false m e) 100000 W D 3000 900
    rw [e4]
    have hge' : (2 : ℚ) ^ 63 - 2 ^ 9 ≤ ((100000 : Int) : ℚ) / (F64.fin false m e).toRat := by
      exact_mod_cast hge
    refine (scaled_count_big amd64 100000 m e (by decide) (by decide) hm ?_).2.2 hge'
    refine le_trans ?_ hge'
    norm_num

theorem derived_counts_positive_witness :
    0 < (F64.fin false 1 (-46)).toRat ∧ (F64.fin false 1 (-46)).toRat ≤ 900 ∧
    (100000 : ℚ) / (F64.fin false 1 (-46)).toRat < 2 ^ 63 - 2 ^ 9 ∧
    (NewScaleParameters amd64 (F64.fin false 1 (-46)) 100000 1 10 3000 900).1.Items =
      7036874417766400000 ∧
    1 ≤ (NewScaleParameters amd64 (F64.fin false 1 (-46)) 100000 1 10 3000 900).1.Items ∧
    1 ≤ (NewScaleParameters amd64 (F64.fin false 1 (-46)) 100000 1 10 3000
      900).1.CustomersPerDistrict ∧
    1 ≤ (NewScaleParameters amd64 (F64.fin false 1 (-46)) 100000 1 10 3000
      900).1.NewOrdersPerDistrict := by
  have hv : (F64.fin false 1 (-46)).toRat = 1 / 2 ^ 46 := by
    simp only [F64.toRat, Bool.false_eq_true, if_false, one_mul, Nat.cast_one]
    rw [zpow_neg, zpow_ofNat]
    norm_num
  have hpos : 0 < (F64.fin false 1 (-46)).toRat := by rw [hv]; norm_num
  have hhi : (F64.fin false 1 (-46)).toRat ≤ 900 := by rw [hv]; norm_num
  have hq : (100000 : ℚ) / (F64.fin false 1 (-46)).toRat < 2 ^ 63 - 2 ^ 9 := by
    rw [hv]; norm_num
  exact ⟨hpos, hhi, hq, by decide,
    (derived_counts_positive amd64 (F64.fin false 1 (-46)) 1 10 hpos hhi).1 hq⟩

/-- C3, counterexample for all positive scale factors: the scale factor 1000 is
positive, and with the default base counts it gives
`NewOrdersPerDistrict = int(900 / 1000) = 0`; the scale factor `2^-47` is
positive, and on amd64 it gives `Items = -2^63`, the quotient `100000 * 2^47`
being out of the range of `int`. -/
theorem derived_counts_counterexample :
    F64.isPos (F64.fin false 1000 0) = true ∧
    (NewScaleParameters amd64 (F64.fin false 1000 0) 100000 1 10 3000 900).1 =
      { Items := 100, Warehouses := 1, DistrictsPerWarehouse := 10,
        CustomersPerDistrict := 3, NewOrdersPerDistrict := 0 } ∧
    ¬ (1 ≤ (NewScaleParameters amd64 (F64.fin false 1000 0) 100000 1 10 3000
      900).1.NewOrdersPerDistrict) ∧
    F64.isPos (F64.fin false 1 (-47)) = true ∧
    (NewScaleParameters amd64 (F64.fin false 1 (-47)) 100000 1 10 3000 900).1.Items =
      -(2 : Int) ^ 63 ∧
    ¬ (1 ≤ (NewScaleParameters amd64 (F64.fin false 1 (-47)) 100000 1 10 3000
      900).1.Items) := by
  refine ⟨by decide, by decide, by decide, by decide, by decide, by decide⟩

end Tpcc
